import Mathlib

/-!
# bin2llvm: `ReplaceConstantLoads`

A shallow embedding of `postprocess/translator/ReplaceConstantLoads.cpp`:
the file-backed memory pools (`MemoryPool`), the two `getMemoryValue`
overloads and the function pass `runOnFunction`, which replaces
`__ld{b,s,l}_mmu(cst)` calls by the constant read from the program image and
annotates jump-table dispatch sites.

Conventions of the embedding.

* `uint64_t` values are natural numbers below `2^64`; every 64-bit operation
  of the source is followed by an explicit reduction (`wrap64`).
* `int` values are integers reduced to the signed 32-bit range (`wrapInt`).
* A failed `assert` (and the dereference of a null callee) ends the run; the
  functions of the embedding return `Except Abort _`.
* The backing file of a pool is the list of its bytes.
-/

set_option autoImplicit false

namespace ReplaceConstantLoads

/-! ## Machine arithmetic -/

/-- The number of `uint64_t` values, `2^64`. -/
abbrev U64 : Nat := 18446744073709551616

/-- Reduction of an integer to `uint64_t` (arithmetic modulo `2^64`). -/
def wrap64 (z : Int) : Nat := (z % 18446744073709551616).toNat

/-- Reduction of an integer to `int` (two's complement, 32 bits). -/
def wrapInt (z : Int) : Int := (z + 2147483648) % 4294967296 - 2147483648

/-- One byte of a backing file (`unsigned char`). -/
abbrev Byte := Fin 256

/-- The ways in which a run stops without returning. -/
inductive Abort where
  /-- An `assert` of the source failed. -/
  | assertFailed
  /-- The callee of an indirect call (`getCalledFunction() == NULL`) was dereferenced. -/
  | nullCallee
deriving DecidableEq, Repr

deriving instance DecidableEq for Except

/-! ## `MemoryPool` -/

/-- A memory pool of the source: the address window `[mp_start, mp_end)` and the
backing file `mp_file`, kept as the list of its bytes. -/
structure MemoryPool where
  mp_start : Nat
  mp_end : Nat
  mp_file : List Byte
deriving DecidableEq, Repr

/-- The state the constructor `MemoryPool(path, start)` leaves behind when the
file at `path` opens and holds `bytes`: `mp_end = mp_start + tellg()` in 64-bit
arithmetic. -/
def MemoryPool.ofFile (bytes : List Byte) (start : Nat) : MemoryPool :=
  { mp_start := start
    mp_end := wrap64 (start + bytes.length)
    mp_file := bytes }

/-- A pool is well formed when it is what the constructor builds from a 64-bit
start address and a file: the length of a file is a `std::streamoff`, below `2^63`. -/
def MemoryPool.WF (mp : MemoryPool) : Prop :=
  mp.mp_start < U64 ∧ mp.mp_file.length < 9223372036854775808 ∧
    mp.mp_end = wrap64 (mp.mp_start + mp.mp_file.length)

instance (mp : MemoryPool) : Decidable mp.WF := by
  unfold MemoryPool.WF; infer_instance

/-- `MemoryPool::inside`. -/
def MemoryPool.inside (mp : MemoryPool) (addr : Nat) : Bool :=
  decide (addr ≥ mp.mp_start) && decide (addr < mp.mp_end)

/-- The body of the loop of `MemoryPool::read`, iteration `i` with accumulator
`ret`: seek to `pos`, check the stream, read one byte, shift it in. A position
that is not in the file leaves the stream failed. -/
def MemoryPool.readStep (mp : MemoryPool) (addr byteCnt : Nat) (isBigEndian : Bool)
    (ret : Nat) (i : Nat) : Except Abort Nat :=
  let pos : Nat :=
    if isBigEndian then wrap64 (addr + i - mp.mp_start)
    else wrap64 (addr + byteCnt - i - 1 - mp.mp_start)
  match mp.mp_file[pos]? with
  | none => .error .assertFailed
  | some b => .ok (((ret <<< 8) % U64) ||| b.val)

/-- `MemoryPool::read(addr, byteCnt, isBigEndian)`; `byteCnt` is a `uint8_t`. -/
def MemoryPool.read (mp : MemoryPool) (addr byteCnt : Nat) (isBigEndian : Bool) :
    Except Abort Nat :=
  if !mp.inside addr then .error .assertFailed
  else if byteCnt = 0 then .error .assertFailed
  else if !decide (byteCnt ≤ 8) then .error .assertFailed
  else if !mp.inside (wrap64 (addr + byteCnt - 1)) then .error .assertFailed
  else (List.range byteCnt).foldlM (mp.readStep addr byteCnt isBigEndian) 0

/-! ## The intermediate representation -/

/-- An operand of an instruction. Instructions are referred to by their
identity (`id`), the counterpart of the pointer to the `llvm::Instruction`;
the instructions of a function have distinct identities. -/
inductive Value where
  /-- A `ConstantInt` of type `i<bitWidth>`; `value` is its zero-extended value
  (`getZExtValue()`). -/
  | constantInt (bitWidth : Nat) (value : Nat)
  /-- The result of the instruction `id`. -/
  | instruction (id : Nat)
  /-- A `GlobalVariable`, by name. -/
  | globalVariable (name : String)
  /-- Any other value (argument, non-integer constant, basic block, ...). -/
  | other (tag : Nat)
deriving DecidableEq, Repr

/-- The instruction classes `runOnFunction` tells apart with `dyn_cast`. -/
inductive Opcode where
  /-- A `CallInst`; `calledFunction` is the name of `getCalledFunction()`,
  `none` when that is `NULL` (indirect call). -/
  | call (calledFunction : Option String)
  /-- A `StoreInst`: operand 0 is the stored value, operand 1 the pointer. -/
  | store
  /-- Every other instruction. -/
  | other
deriving DecidableEq, Repr

/-- An instruction: for a call `operands` are the argument operands. The
metadata attachments are pairs of a kind name and the 64-bit value that the
attached hexadecimal text denotes. -/
structure Instruction where
  id : Nat
  opcode : Opcode
  operands : List Value
  metadata : List (String × Nat)
deriving DecidableEq, Repr

/-- A basic block: its instructions, in order. -/
abbrev BasicBlock := List Instruction

/-- A function: its basic blocks, in layout order. -/
abbrev Function := List BasicBlock

/-- The instructions of a function in the order in which the nested loops
`for (bbi ...) for (insi ...)` visit them. -/
def Function.instructions (F : Function) : List Instruction := F.flatten

/-- `ConstantInt::get(type, value, false)` for the integer type of `bitWidth` bits. -/
def ConstantInt.get (bitWidth value : Nat) : Value :=
  .constantInt bitWidth (value % 2 ^ bitWidth)

/-- `Instruction::getMetadata(kind)`. -/
def Instruction.getMetadata (ins : Instruction) (kind : String) : Option Nat :=
  ins.metadata.lookup kind

/-- The attachment list after `setMetadata(kind, node)`: an attachment of the
same kind is replaced, otherwise the new one is added. -/
def setMetadataList : List (String × Nat) → String → Nat → List (String × Nat)
  | [], kind, node => [(kind, node)]
  | (k, n) :: rest, kind, node =>
    if k = kind then (kind, node) :: rest else (k, n) :: setMetadataList rest kind node

/-- `Instruction::setMetadata(kind, node)`. -/
def Instruction.setMetadata (ins : Instruction) (kind : String) (node : Nat) : Instruction :=
  { ins with metadata := setMetadataList ins.metadata kind node }

/-- The effect of `replaceAllUsesWith` on one instruction: every operand that
is the result of instruction `old` becomes `new`. -/
def Instruction.replaceUsesWith (old : Nat) (new : Value) (ins : Instruction) : Instruction :=
  { ins with operands := ins.operands.map fun o => if o = .instruction old then new else o }

/-- `old->replaceAllUsesWith(new)` for the instruction `old` of `F`. -/
def Function.replaceAllUsesWith (F : Function) (old : Nat) (new : Value) : Function :=
  F.map fun bb => bb.map (Instruction.replaceUsesWith old new)

/-- `ins->eraseFromParent()` for the instruction `id` of `F`. -/
def Function.eraseFromParent (F : Function) (id : Nat) : Function :=
  F.map fun bb => bb.filter fun ins => decide (ins.id ≠ id)

/-! ## Collaborators that are not part of the translated file -/

/-- Modelled from the spec: `FixOverlappedBBs::hex` is not under src/. It
renders a 64-bit value as hexadecimal text; an annotation of the embedding
holds the value that the text denotes, so `hex` is the conversion of its
argument to `uint64_t`. -/
def FixOverlappedBBs.hex (value : Int) : Nat := wrap64 value

/-- Modelled from the spec: `FixOverlappedBBs::getHexMetadataFromIns` is not
under src/. It returns the 64-bit value of the named hexadecimal annotation of
an instruction (the callers check beforehand that the annotation exists). -/
def FixOverlappedBBs.getHexMetadataFromIns (ins : Instruction) (name : String) : Nat :=
  (ins.getMetadata name).getD 0

/-- Modelled from the spec: `JumpTableInfo.h` is not under src/. The geometry of
one jump table: the program counter of the dispatching instruction, the index
range (64-bit signed), the address of the table and the default target. -/
structure JumpTableInfo where
  indirect_jmp_pc : Nat
  idx_start : Int
  idx_stop : Int
  base_table : Nat
  default_case_pc : Nat
deriving DecidableEq, Repr

end ReplaceConstantLoads

/-- The state of the pass that `runOnFunction` reads: the memory pools in the
order of the `-memory` descriptors, the map from the program counter of a
dispatch site to its jump table (association list, first match), and the
`-is-big-endian` flag. -/
structure ReplaceConstantLoads where
  m_memoryPools : List ReplaceConstantLoads.MemoryPool
  jumpTableInfoMap : List (Nat × ReplaceConstantLoads.JumpTableInfo)
  IsBigEndian : Bool

namespace ReplaceConstantLoads

open FixOverlappedBBs

/-! ## `getMemoryValue` -/

/-- `getMemoryValue(uint64_t address, uint64_t size, bool isBigEndian)` over the
pools `pools`: the first pool that holds `address` is read (`size` becomes the
`uint8_t` parameter of `read`); `0xdeadbeef` when no pool holds it. -/
def getMemoryValue : List MemoryPool → Nat → Nat → Bool → Except Abort Nat
  | [], _, _, _ => .ok 0xdeadbeef
  | mp :: rest, address, size, isBigEndian =>
    if mp.inside address then mp.read address (size % 256) isBigEndian
    else getMemoryValue rest address size isBigEndian

/-- `getMemoryValue(uint64_t address, llvm::IntegerType *type, bool isBigEndian)`
for the integer type of `bitWidth` bits: the constant read from the first pool
that holds `address`; `none` is the `NULL` result. -/
def getMemoryValueOfType : List MemoryPool → Nat → Nat → Bool → Except Abort (Option Value)
  | [], _, _, _ => .ok none
  | mp :: rest, address, bitWidth, isBigEndian =>
    if mp.inside address then
      match mp.read address ((bitWidth / 8) % 256) isBigEndian with
      | .error e => .error e
      | .ok value => .ok (some (ConstantInt.get bitWidth value))
    else getMemoryValueOfType rest address bitWidth isBigEndian

/-! ## `runOnFunction`, first loop: replace `__ld*_mmu` -/

/-- The integer type (bit width) that the first loop picks from the name of the
callee; `none` is `valueType == NULL`. -/
def valueType (name : String) : Option Nat :=
  if name = "__ldl_mmu" then some 32
  else if name = "__lds_mmu" then some 16
  else if name = "__ldb_mmu" then some 8
  else none

/-- The body of the first loop for the instruction `insi`, up to the decision:
`none` when the loop goes on to the next instruction (`continue`, or no
recognised callee), `some value` when the uses of the call are replaced by
`value` and the call is pushed on `eraseIns`. -/
def resolveLoad (self : ReplaceConstantLoads) (insi : Instruction) :
    Except Abort (Option Value) :=
  match insi.opcode with
  | .call calledFunction =>
    if insi.operands.length ≠ 2 then .ok none
    else
      match (insi.operands[0]? : Option Value) with
      | some (Value.constantInt _ address) =>
        match calledFunction with
        | none => .error .nullCallee
        | some name =>
          match valueType name with
          | none => .ok none
          | some bitWidth =>
            getMemoryValueOfType self.m_memoryPools address bitWidth self.IsBigEndian
      | _ => .ok none
  | _ => .ok none

/-- One iteration of the first loop, at position `pos` of the layout order.
The state is the function as rewritten so far and `eraseIns`. -/
def replaceLoadStep (self : ReplaceConstantLoads) (st : Function × List Nat) (pos : Nat) :
    Except Abort (Function × List Nat) :=
  match st.1.instructions[pos]? with
  | none => .ok st
  | some callInst =>
    match resolveLoad self callInst with
    | .error e => .error e
    | .ok none => .ok st
    | .ok (some value) =>
      .ok (st.1.replaceAllUsesWith callInst.id value, st.2 ++ [callInst.id])

/-- The first loop of `runOnFunction` (`/* replace load_mmu */`): the rewritten
function and `eraseIns`. -/
def replaceLoadMmu (self : ReplaceConstantLoads) (F : Function) :
    Except Abort (Function × List Nat) :=
  (List.range F.instructions.length).foldlM (replaceLoadStep self) (F, [])

/-! ## `runOnFunction`, second loop: annotate jump tables -/

/-- The name of the annotation of table entry `i`: `snprintf(buf, sizeof buf,
"INS_switch_case%d", i)`. -/
def caseKey (i : Nat) : String := "INS_switch_case" ++ toString i

/-- Iteration `i` of the inner loop over the table entries: the entry at
`base_table + mul*i` (an `int` product, added in 64 bits) is read with
`getMemoryValue(_, 4, IsBigEndian)` and attached as `INS_switch_case<i>`. -/
def annotateCase (self : ReplaceConstantLoads) (info : JumpTableInfo) (insi : Instruction)
    (i : Nat) : Except Abort Instruction :=
  match getMemoryValue self.m_memoryPools (wrap64 (info.base_table + wrapInt (4 * i))) 4
      self.IsBigEndian with
  | .error e => .error e
  | .ok loadedPC => .ok (insi.setMetadata (caseKey i) (hex loadedPC))

/-- The guards of the second loop (its four `continue`s): the jump table of
`insi` when `insi` is a store to the global variable `PC` that carries an
`INS_currPC` annotation whose value is a key of `jumpTableInfoMap`; `none`
when the loop goes on to the next instruction. -/
def dispatchInfo (self : ReplaceConstantLoads) (insi : Instruction) : Option JumpTableInfo :=
  match insi.opcode with
  | .store =>
    match (insi.operands[1]? : Option Value) with
    | some (Value.globalVariable name) =>
      if name ≠ "PC" then none
      else
        match insi.getMetadata "INS_currPC" with
        | none => none
        | some _ =>
          let currPC := getHexMetadataFromIns insi "INS_currPC"
          self.jumpTableInfoMap.lookup currPC
    | _ => none
  | _ => none

/-- The second loop past its guards, for the dispatch site `insi` with the
jump table `info`: the count is asserted, the three annotations are set, then
one annotation per table entry. -/
def annotateSite (self : ReplaceConstantLoads) (info : JumpTableInfo) (insi : Instruction) :
    Except Abort Instruction :=
  let cnt_entries : Int := wrapInt (1 + info.idx_stop - info.idx_start)
  if cnt_entries < 1 then .error .assertFailed
  else
    let insi1 := insi.setMetadata "INS_switch_cnt" (hex cnt_entries)
    let insi2 := insi1.setMetadata "INS_switch_default" (hex info.default_case_pc)
    let insi3 := insi2.setMetadata "INS_switch_idx_start" (hex info.idx_start)
    (List.range cnt_entries.toNat).foldlM (annotateCase self info) insi3

/-- The body of the second loop for the instruction `insi`. -/
def annotateJumpTable (self : ReplaceConstantLoads) (insi : Instruction) :
    Except Abort Instruction :=
  match dispatchInfo self insi with
  | none => .ok insi
  | some info => annotateSite self info insi

/-- The second loop over the instructions of one basic block. -/
def annotateBlock (self : ReplaceConstantLoads) : BasicBlock → Except Abort BasicBlock
  | [] => .ok []
  | insi :: rest =>
    match annotateJumpTable self insi with
    | .error e => .error e
    | .ok insi' =>
      match annotateBlock self rest with
      | .error e => .error e
      | .ok rest' => .ok (insi' :: rest')

/-- The second loop of `runOnFunction` (`/* annotate jump tables */`). -/
def annotateJumpTables (self : ReplaceConstantLoads) : Function → Except Abort Function
  | [] => .ok []
  | bb :: rest =>
    match annotateBlock self bb with
    | .error e => .error e
    | .ok bb' =>
      match annotateJumpTables self rest with
      | .error e => .error e
      | .ok rest' => .ok (bb' :: rest')

/-! ## `runOnFunction` -/

/-- The last loop of `runOnFunction`: every instruction of `eraseIns` is erased. -/
def eraseAll (F : Function) (eraseIns : List Nat) : Function :=
  eraseIns.foldl Function.eraseFromParent F

/-- What a run of `runOnFunction` leaves: the function, the number printed in
`erased <n> instructions`, and the returned flag. -/
structure RunResult where
  F : Function
  erased : Nat
  changed : Bool
deriving DecidableEq, Repr

/-- `ReplaceConstantLoads::runOnFunction`. -/
def runOnFunction (self : ReplaceConstantLoads) (F : Function) : Except Abort RunResult :=
  match replaceLoadMmu self F with
  | .error e => .error e
  | .ok (F1, eraseIns) =>
    match annotateJumpTables self F1 with
    | .error e => .error e
    | .ok F2 =>
      .ok { F := eraseAll F2 eraseIns
            erased := eraseIns.length
            changed := decide (eraseIns.length > 0) }

/-- The resolver on its own: the first loop of `runOnFunction` followed by its
deferred erase, without the annotation loop in between. -/
def resolveConstantLoads (self : ReplaceConstantLoads) (F : Function) : Except Abort Function :=
  match replaceLoadMmu self F with
  | .error e => .error e
  | .ok (F1, eraseIns) => .ok (eraseAll F1 eraseIns)

/-! ## Initialization: `MemoryPool::MemoryPool`, `getMemoryPool` and the start of the pass -/

/-- The files that can be opened for reading, by path, with their contents. -/
abbrev FileSystem := String → Option (List Byte)

/-- The constructor `MemoryPool::MemoryPool(path, start)`. When the file does
not open the stream is failed and `assert(this->mp_file.good())` ends the run;
otherwise `tellg()` at the end of the file is its length. -/
def MemoryPool.create (fs : FileSystem) (path : String) (start : Nat) : Except Abort MemoryPool :=
  match fs path with
  | none => .error .assertFailed
  | some bytes => .ok (MemoryPool.ofFile bytes start)

/-- `std::string::rfind(c)`: the position of the last `c`, `none` for `npos`. -/
def rfind : List Char → Char → Option Nat
  | [], _ => none
  | x :: xs, c =>
    match rfind xs c with
    | some i => some (i + 1)
    | none => if x = c then some 0 else none

/-- The white space that `strtoll` skips (`isspace` in the C locale). -/
def isSpaceChar (c : Char) : Bool :=
  c = ' ' || c = '\t' || c = '\n' || c = '\x0b' || c = '\x0c' || c = '\r'

/-- The value of a hexadecimal digit, `none` for any other character. -/
def hexDigitValue (c : Char) : Option Nat :=
  if 48 ≤ c.toNat ∧ c.toNat ≤ 57 then some (c.toNat - 48)
  else if 97 ≤ c.toNat ∧ c.toNat ≤ 102 then some (c.toNat - 87)
  else if 65 ≤ c.toNat ∧ c.toNat ≤ 70 then some (c.toNat - 55)
  else none

/-- The value of the longest prefix of hexadecimal digits of `s`, on top of the
digits `acc` read so far. -/
def hexPrefixValue : List Char → Nat → Nat
  | [], acc => acc
  | c :: rest, acc =>
    match hexDigitValue c with
    | some d => hexPrefixValue rest (16 * acc + d)
    | none => acc

/-- The `0x` or `0X` that may precede the digits in base 16; it is part of the
number only when a hexadecimal digit follows. -/
def dropHexPrefix (s : List Char) : List Char :=
  match s with
  | z :: x :: d :: rest =>
    if z = '0' ∧ (x = 'x' ∨ x = 'X') ∧ (hexDigitValue d).isSome then d :: rest else s
  | _ => s

/-- The digits of `strtoll(_, NULL, 16)` after the sign: an optional `0x`, then
the longest run of hexadecimal digits (no digit gives 0). -/
def hexMagnitude (s : List Char) : Int := hexPrefixValue (dropHexPrefix s) 0

/-- `strtoll(s, NULL, 16)` of the C library: white space, an optional sign, an
optional `0x`, then the longest run of hexadecimal digits; a value outside
`long long` is replaced by `LLONG_MAX` or `LLONG_MIN`. -/
def strtoll16 (s : List Char) : Int :=
  match s.dropWhile isSpaceChar with
  | [] => 0
  | c :: rest =>
    if c = '-' then
      if hexMagnitude rest > 9223372036854775808 then -9223372036854775808
      else -hexMagnitude rest
    else if c = '+' then
      if hexMagnitude rest > 9223372036854775807 then 9223372036854775807
      else hexMagnitude rest
    else
      if hexMagnitude (c :: rest) > 9223372036854775807 then 9223372036854775807
      else hexMagnitude (c :: rest)

/-- `ReplaceConstantLoads::getMemoryPool(desc)`: the descriptor is cut at its
last `@`; what precedes is the path, what follows is read by `strtoll(_, NULL,
16)` and converted to `uint64_t`. -/
def getMemoryPool (fs : FileSystem) (desc : String) : Except Abort MemoryPool :=
  match rfind desc.data '@' with
  | none => .error .assertFailed
  | some atPos =>
    let path : String := String.mk (desc.data.take atPos)
    let addr : Nat := wrap64 (strtoll16 (desc.data.drop (atPos + 1)))
    MemoryPool.create fs path addr

/-- The first loop of the initialization: one pool per descriptor, pushed on
`m_memoryPools` in the order of the descriptors. -/
def loadMemoryPools (fs : FileSystem) : List String → Except Abort (List MemoryPool)
  | [] => .ok []
  | desc :: rest =>
    match getMemoryPool fs desc with
    | .error e => .error e
    | .ok mp =>
      match loadMemoryPools fs rest with
      | .error e => .error e
      | .ok pools => .ok (mp :: pools)

/-- The command-line options of the pass: `-memory` (a list), `-jump-table-info`
and `-is-big-endian`. -/
structure Options where
  MemoryDescriptors : List String
  JumpTableInfoFile : String
  IsBigEndian : Bool

deriving instance DecidableEq for ReplaceConstantLoads

/-- The members of the pass after its initialization. -/
structure PassState where
  pass : ReplaceConstantLoads
  jumpTableInfoList : List JumpTableInfo
  hasJumpTableInfo : Bool
deriving DecidableEq

/-- The loop `jumpTableInfoMap[(*it)->indirect_jmp_pc] = *it` over the list of
jump tables: a later table replaces an earlier one with the same key (the
association list is read at its first match). -/
def buildJumpTableInfoMap (l : List JumpTableInfo) : List (Nat × JumpTableInfo) :=
  l.foldl (fun m it => (it.indirect_jmp_pc, it) :: m) []

/-- The initialization of the pass, `ReplaceConstantLoads::initialize()`.
`JumpTableInfoFactory::loadFromFile` is not under src/ and is a parameter. -/
def initializePass (fs : FileSystem) (loadFromFile : String → List JumpTableInfo)
    (opts : Options) : Except Abort PassState :=
  match loadMemoryPools fs opts.MemoryDescriptors with
  | .error e => .error e
  | .ok pools =>
    if opts.JumpTableInfoFile ≠ "" then
      let jumpTableInfoList := loadFromFile opts.JumpTableInfoFile
      .ok { pass := { m_memoryPools := pools
                      jumpTableInfoMap := buildJumpTableInfoMap jumpTableInfoList
                      IsBigEndian := opts.IsBigEndian }
            jumpTableInfoList := jumpTableInfoList
            hasJumpTableInfo := true }
    else
      .ok { pass := { m_memoryPools := pools
                      jumpTableInfoMap := []
                      IsBigEndian := opts.IsBigEndian }
            jumpTableInfoList := []
            hasJumpTableInfo := false }

/-! ## Reference values for the reads -/

/-- The big-endian integer of a byte sequence: the first byte is the most
significant one. -/
def bigEndianValue : List Byte → Nat
  | [] => 0
  | b :: bs => b.val * 256 ^ bs.length + bigEndianValue bs

/-- The little-endian integer of a byte sequence: the first byte is the least
significant one. -/
def littleEndianValue : List Byte → Nat
  | [] => 0
  | b :: bs => b.val + 256 * littleEndianValue bs

/-- The `w` bytes of the backing file at the file offsets `addr - mp_start`,
..., `addr - mp_start + w - 1`. -/
def MemoryPool.bytesAt (mp : MemoryPool) (addr w : Nat) : List Byte :=
  (mp.mp_file.drop (addr - mp.mp_start)).take w

/-- The region that the image-level lookup of `getMemoryValue` finds for
`address`: the first pool, in list order, with `inside(address)`. -/
def findPool (pools : List MemoryPool) (address : Nat) : Option MemoryPool :=
  pools.find? fun mp => mp.inside address

/-- An instruction with every operand rewritten by `h`. -/
def Instruction.mapOperands (h : Value → Value) (ins : Instruction) : Instruction :=
  { ins with operands := ins.operands.map h }

/-- The rewriting of one operand by `replaceAllUsesWith`. -/
def substValue (old : Nat) (new : Value) (o : Value) : Value :=
  if o = .instruction old then new else o

/-- What the first loop has done to the operands after some iterations, as a
rewriting `h` of operands: operands that are not instruction results are
untouched, and the result of instruction `i` is either untouched or, when `i`
is on `eraseIns`, replaced by an integer constant. -/
def ScanInv (eraseIns : List Nat) (h : Value → Value) : Prop :=
  (∀ o, (∀ i, o ≠ .instruction i) → h o = o) ∧
  (∀ i, h (.instruction i) = .instruction i ∨
    (i ∈ eraseIns ∧ ∃ b v, h (.instruction i) = .constantInt b v))

/-- A call with exactly two argument operands. -/
def isCall2 (ins : Instruction) : Bool :=
  match ins.opcode with
  | .call _ => ins.operands.length == 2
  | _ => false

/-- The layout condition under which one run of the resolver is enough: no
two-argument call takes as its first argument its own result or the result of
a two-argument call that comes after it in layout order. -/
def addressesInOrder : List Instruction → Bool
  | [] => true
  | a :: rest =>
    (!isCall2 a || (a :: rest).all fun b =>
      !isCall2 b || decide ((a.operands[0]? : Option Value) ≠ some (Value.instruction b.id)))
    && addressesInOrder rest

/-- The number that a sequence of decimal digits denotes. -/
def decodeDigits (ds : List Char) : Nat :=
  ds.foldl (fun acc c => 10 * acc + (c.toNat - 48)) 0

/-- The dispatch annotation set of the jump table `info` on the instruction
`ins`, as the specification describes it: the entry count
`indexStop - indexStart + 1`, the default target, the start of the index range
and, for every entry `i`, the 4-byte value read at `baseTableAddress + 4*i`.
The value of an annotation is the value that its hexadecimal text denotes. -/
def DispatchAnnotations (self : ReplaceConstantLoads) (info : JumpTableInfo)
    (ins : Instruction) : Prop :=
  ins.getMetadata "INS_switch_cnt" = some (hex (info.idx_stop - info.idx_start + 1)) ∧
  ins.getMetadata "INS_switch_default" = some (hex info.default_case_pc) ∧
  ins.getMetadata "INS_switch_idx_start" = some (hex info.idx_start) ∧
  ∀ i : Nat, (i : Int) < info.idx_stop - info.idx_start + 1 →
    ∃ pc, getMemoryValue self.m_memoryPools (wrap64 (info.base_table + 4 * i)) 4
        self.IsBigEndian = .ok pc ∧
      ins.getMetadata (caseKey i) = some (hex pc)

/-! ## Concrete images and functions -/

/-- A pool of six bytes at `0x1000`: the little-endian word `0x12345678`
followed by `ef be`. -/
def exPool : MemoryPool := MemoryPool.ofFile [0x78, 0x56, 0x34, 0x12, 0xef, 0xbe] 0x1000

/-- A little-endian run with the pool `exPool` and no jump-table description. -/
def exPass : ReplaceConstantLoads :=
  { m_memoryPools := [exPool], jumpTableInfoMap := [], IsBigEndian := false }

/-- The call `%1 = call @__ldl_mmu(i32 0x1000, i32 0)`. -/
def exLoad : Instruction :=
  ⟨1, .call (some "__ldl_mmu"), [.constantInt 32 0x1000, .constantInt 32 0], []⟩

/-- The call `%3 = call @__lds_mmu(i32 0x2000, i32 0)`; no pool holds `0x2000`. -/
def exUnmapped : Instruction :=
  ⟨3, .call (some "__lds_mmu"), [.constantInt 32 0x2000, .constantInt 32 0], []⟩

/-- One block: a resolvable load, a use of it, an unresolvable load, a use of it. -/
def exFunction : Function :=
  [[exLoad,
    ⟨2, .other, [.instruction 1, .instruction 1], []⟩,
    exUnmapped,
    ⟨4, .store, [.instruction 3, .globalVariable "R0"], []⟩]]

/-- What `runOnFunction` leaves of `exFunction`. -/
def exResult : RunResult :=
  { F := [[⟨2, .other, [.constantInt 32 0x12345678, .constantInt 32 0x12345678], []⟩,
      exUnmapped,
      ⟨4, .store, [.instruction 3, .globalVariable "R0"], []⟩]]
    erased := 1
    changed := true }

/-- The call `%1 = call @__ldl_mmu(i32 0x1004, i32 0)`: `exPool` holds `0x1004`
and `0x1005` but not `0x1007`. -/
def exStraddle : Instruction :=
  ⟨1, .call (some "__ldl_mmu"), [.constantInt 32 0x1004, .constantInt 32 0], []⟩

/-- One block: the straddling load, a use of it, and a resolvable load after it. -/
def exStraddleFunction : Function :=
  [[exStraddle, ⟨2, .other, [.instruction 1], []⟩,
    ⟨3, .call (some "__ldb_mmu"), [.constantInt 32 0x1000, .constantInt 32 0], []⟩]]

/-- A pool of eight bytes at `0x1000`: the little-endian word `0x00001004`,
which is the address of the second word, `0xddccbbaa`. -/
def exPointerPool : MemoryPool :=
  MemoryPool.ofFile [0x04, 0x10, 0x00, 0x00, 0xaa, 0xbb, 0xcc, 0xdd] 0x1000

/-- A little-endian run with the pool `exPointerPool`. -/
def exPointerPass : ReplaceConstantLoads :=
  { m_memoryPools := [exPointerPool], jumpTableInfoMap := [], IsBigEndian := false }

/-- Three blocks, laid out `entry`, `bb1`, `bb2` and executed `entry`, `bb2`,
`bb1`: `bb2` loads a pointer from `0x1000` and `bb1` loads through it.
```
entry: br label %bb2
bb1:   %1 = call @__ldl_mmu(%2, i32 0)
       ret %1
bb2:   %2 = call @__ldl_mmu(i32 0x1000, i32 0)
       br label %bb1
``` -/
def exPointerFunction : Function :=
  [[⟨0, .other, [.other 2], []⟩],
   [⟨1, .call (some "__ldl_mmu"), [.instruction 2, .constantInt 32 0], []⟩,
    ⟨3, .other, [.instruction 1], []⟩],
   [⟨2, .call (some "__ldl_mmu"), [.constantInt 32 0x1000, .constantInt 32 0], []⟩,
    ⟨4, .other, [.other 1], []⟩]]

/-- The blocks of `exPointerFunction` laid out in the order of execution. -/
def exOrderedFunction : Function :=
  [[⟨0, .other, [.other 2], []⟩],
   [⟨2, .call (some "__ldl_mmu"), [.constantInt 32 0x1000, .constantInt 32 0], []⟩,
    ⟨4, .other, [.other 1], []⟩],
   [⟨1, .call (some "__ldl_mmu"), [.instruction 2, .constantInt 32 0], []⟩,
    ⟨3, .other, [.instruction 1], []⟩]]

/-- The region `"table.bin"@0x1000` of the specification: the three
little-endian words `0x2000`, `0x2010`, `0x2020`. -/
def exTable : MemoryPool :=
  MemoryPool.ofFile [0x00, 0x20, 0, 0, 0x10, 0x20, 0, 0, 0x20, 0x20, 0, 0] 0x1000

/-- The jump table of the specification: dispatch at `0x500`, indices `0..2`,
table at `0x1000`, default target `0x2030`. -/
def exInfo : JumpTableInfo :=
  { indirect_jmp_pc := 0x500, idx_start := 0, idx_stop := 2, base_table := 0x1000,
    default_case_pc := 0x2030 }

/-- A little-endian run with the region `exTable` and the jump table `exInfo`. -/
def exTablePass : ReplaceConstantLoads :=
  { m_memoryPools := [exTable], jumpTableInfoMap := [(0x500, exInfo)], IsBigEndian := false }

/-- The dispatch instruction at program counter `0x500`: `store %t, @PC`. -/
def exSite : Instruction :=
  ⟨7, .store, [.other 0, .globalVariable "PC"], [("INS_currPC", 0x500)]⟩

/-- The instruction `exSite` with the annotations of the jump table `exInfo`. -/
def exSiteAnnotated : Instruction :=
  ⟨7, .store, [.other 0, .globalVariable "PC"],
    [("INS_currPC", 0x500), ("INS_switch_cnt", 3), ("INS_switch_default", 0x2030),
     ("INS_switch_idx_start", 0), ("INS_switch_case0", 0x2000), ("INS_switch_case1", 0x2010),
     ("INS_switch_case2", 0x2020)]⟩

/-- A jump table at `0x500` with the `2^31` indices `0 .. 2^31 - 1`. -/
def exWideInfo : JumpTableInfo :=
  { indirect_jmp_pc := 0x500, idx_start := 0, idx_stop := 2147483647, base_table := 0x1000,
    default_case_pc := 0x2030 }

/-- A little-endian run with the region `exTable` and the jump table `exWideInfo`. -/
def exWidePass : ReplaceConstantLoads :=
  { m_memoryPools := [exTable], jumpTableInfoMap := [(0x500, exWideInfo)],
    IsBigEndian := false }

/-- A jump table at `0x500` with `indexStop < indexStart`. -/
def exReversedInfo : JumpTableInfo :=
  { indirect_jmp_pc := 0x500, idx_start := 2, idx_stop := 0, base_table := 0x1000,
    default_case_pc := 0x2030 }

/-- A little-endian run with the region `exTable` and the jump table
`exReversedInfo`. -/
def exReversedPass : ReplaceConstantLoads :=
  { m_memoryPools := [exTable], jumpTableInfoMap := [(0x500, exReversedInfo)],
    IsBigEndian := false }

/-- An ordinary instruction after the dispatch instruction `exSite`. -/
def exReversedFunction : Function :=
  [[exSite, ⟨8, .other, [.other 1], []⟩]]

/-- A jump table at `0x500` with two entries at `0x1006` and `0x100a`: the
region `exTable` ends at `0x100c`, in the middle of the second entry. -/
def exStraddlingInfo : JumpTableInfo :=
  { indirect_jmp_pc := 0x500, idx_start := 0, idx_stop := 1, base_table := 0x1006,
    default_case_pc := 0x2030 }

/-- A jump table at `0x500` with three entries at `0x1004`, `0x1008` and
`0x100c`: the last entry lies past the end of the region `exTable`. -/
def exPastEndInfo : JumpTableInfo :=
  { indirect_jmp_pc := 0x500, idx_start := 0, idx_stop := 2, base_table := 0x1004,
    default_case_pc := 0x2030 }

/-- A little-endian run with the region `exTable` and the jump table
`exPastEndInfo`. -/
def exPastEndPass : ReplaceConstantLoads :=
  { m_memoryPools := [exTable], jumpTableInfoMap := [(0x500, exPastEndInfo)],
    IsBigEndian := false }

/-- A jump table at `0x600` with the three entries of `exTable`. -/
def exSecondInfo : JumpTableInfo :=
  { indirect_jmp_pc := 0x600, idx_start := 0, idx_stop := 2, base_table := 0x1000,
    default_case_pc := 0x2030 }

/-- A little-endian run with the region `exTable` and the two jump tables
`exStraddlingInfo` and `exSecondInfo`. -/
def exTwoTablesPass : ReplaceConstantLoads :=
  { m_memoryPools := [exTable]
    jumpTableInfoMap := [(0x500, exStraddlingInfo), (0x600, exSecondInfo)]
    IsBigEndian := false }

/-- The dispatch instruction at program counter `0x600`. -/
def exSecondSite : Instruction :=
  ⟨9, .store, [.other 0, .globalVariable "PC"], [("INS_currPC", 0x600)]⟩

/-- Two dispatch sites in one block: the one at `0x500`, then the one at `0x600`. -/
def exTwoSitesFunction : Function := [[exSite, exSecondSite]]

/-- A hexadecimal text: a non-empty sequence of hexadecimal digits. -/
def IsHexText (t : List Char) : Prop := t ≠ [] ∧ ∀ c ∈ t, (hexDigitValue c).isSome = true

instance (t : List Char) : Decidable (IsHexText t) := by
  unfold IsHexText; infer_instance

/-- The value of a hexadecimal text. -/
def hexTextValue (t : List Char) : Nat :=
  t.foldl (fun acc c => 16 * acc + (hexDigitValue c).getD 0) 0

/-- A matching load-helper call: a call with exactly two arguments, an integer
constant as first argument and a callee named `__ldl_mmu`, `__lds_mmu` or
`__ldb_mmu`. -/
def isLoadHelperCall (ins : Instruction) : Bool :=
  match ins.opcode, ins.operands with
  | .call (some name), [Value.constantInt _ _, _] => (valueType name).isSome
  | _, _ => false

/-- What one run of the resolver leaves of `exPointerFunction`: the load
through the pointer, with the pointer `0x1004` as a constant. -/
def exPointerOnce : Function :=
  [[⟨0, .other, [.other 2], []⟩],
   [⟨1, .call (some "__ldl_mmu"), [.constantInt 32 0x1004, .constantInt 32 0], []⟩,
    ⟨3, .other, [.instruction 1], []⟩],
   [⟨4, .other, [.other 1], []⟩]]

/-- The function `exPointerOnce` after the first loop of a second run. -/
def exPointerRewritten : Function :=
  [[⟨0, .other, [.other 2], []⟩],
   [⟨1, .call (some "__ldl_mmu"), [.constantInt 32 0x1004, .constantInt 32 0], []⟩,
    ⟨3, .other, [.constantInt 32 0xddccbbaa], []⟩],
   [⟨4, .other, [.other 1], []⟩]]

/-- A file system with the one file `img.bin` of three bytes. -/
def exFiles : FileSystem := fun path => if path = "img.bin" then some [1, 2, 3] else none

/-- Options with the given `-memory` descriptors, no jump-table description,
little endian. -/
def exOptions (descriptors : List String) : Options :=
  { MemoryDescriptors := descriptors, JumpTableInfoFile := "", IsBigEndian := false }

/-- A file system with the file `img.bin` of three bytes and the empty file
`empty.bin`. -/
def exFilesWithEmpty : FileSystem := fun path =>
  if path = "img.bin" then some [1, 2, 3] else if path = "empty.bin" then some [] else none

/-- The instruction `exSite` as `exPastEndPass` annotates it: the third entry
of the table lies outside the region and is recorded as `0xdeadbeef`. -/
def exPastEndAnnotated : Instruction :=
  ⟨7, .store, [.other 0, .globalVariable "PC"],
    [("INS_currPC", 0x500), ("INS_switch_cnt", 3), ("INS_switch_default", 0x2030),
     ("INS_switch_idx_start", 0), ("INS_switch_case0", 0x2010), ("INS_switch_case1", 0x2020),
     ("INS_switch_case2", 0xdeadbeef)]⟩

/-- A store to `PC` at program counter `0x700`, which is no key of the jump
tables of `exTablePass`; it carries an annotation of the lifter. -/
def exPlainStore : Instruction :=
  ⟨11, .store, [.instruction 1, .globalVariable "PC"],
    [("INS_currPC", 0x700), ("INS_directCall", 0x1234)]⟩

/-! # Properties

## Loops -/

theorem foldlM_range_succ {σ ε : Type} (f : σ → Nat → Except ε σ) (s : σ) (n : Nat) :
    (List.range (n + 1)).foldlM f s =
      match (List.range n).foldlM f s with
      | .error e => .error e
      | .ok s' => f s' n := by
  rw [List.range_succ, List.foldlM_append]
  cases h : List.foldlM f s (List.range n) with
  | error e => rfl
  | ok s' =>
    simp only [List.foldlM_cons, List.foldlM_nil, bind, Except.bind]
    cases f s' n <;> rfl

/-! ## `MemoryPool::read` -/

theorem bigEndianValue_append (bs : List Byte) (b : Byte) :
    bigEndianValue (bs ++ [b]) = bigEndianValue bs * 256 + b.val := by
  induction bs with
  | nil => simp [bigEndianValue]
  | cons a as ih =>
    have e : (a :: as) ++ [b] = a :: (as ++ [b]) := rfl
    rw [e, bigEndianValue, bigEndianValue, ih, List.length_append, List.length_singleton]
    ring

theorem bigEndianValue_lt (bs : List Byte) : bigEndianValue bs < 256 ^ bs.length := by
  induction bs with
  | nil => simp [bigEndianValue]
  | cons a as ih =>
    simp only [bigEndianValue, List.length_cons, pow_succ]
    have := a.isLt
    nlinarith

theorem littleEndianValue_lt (bs : List Byte) : littleEndianValue bs < 256 ^ bs.length := by
  induction bs with
  | nil => simp [littleEndianValue]
  | cons a as ih =>
    simp only [littleEndianValue, List.length_cons, pow_succ]
    have := a.isLt
    omega

theorem shift_in (acc : Nat) (b : Byte) (h : acc < 2 ^ 56) :
    ((acc <<< 8) % U64) ||| b.val = acc * 256 + b.val := by
  have hb := b.isLt
  rw [Nat.shiftLeft_eq, Nat.mod_eq_of_lt (by simp only [U64]; omega), Nat.mul_comm acc]
  exact (Nat.mul_add_lt_is_or (i := 8) (b := b.val) (by omega) acc).symm

theorem pow256_le (k : Nat) (h : k ≤ 7) : 256 ^ k ≤ 2 ^ 56 := by
  calc 256 ^ k ≤ 256 ^ 7 := Nat.pow_le_pow_right (by norm_num) h
    _ = 2 ^ 56 := by norm_num

/-- The big-endian loop of `read`: after `k` iterations the accumulator is the
big-endian value of the first `k` bytes at the offset of `addr`. -/
theorem read_loop_bigEndian (mp : MemoryPool) (addr w off : Nat)
    (haddr : addr = mp.mp_start + off) (hfile : off + w ≤ mp.mp_file.length)
    (hlen : mp.mp_file.length < 9223372036854775808) (hw : w ≤ 8) :
    ∀ k, k ≤ w → (List.range k).foldlM (mp.readStep addr w true) 0 =
      .ok (bigEndianValue ((mp.mp_file.drop off).take k)) := by
  intro k
  induction k with
  | zero => intro _; simp [bigEndianValue, List.foldlM, pure, Except.pure]
  | succ k ih =>
    intro hk
    rw [foldlM_range_succ, ih (by omega)]
    have hpos : wrap64 ((addr : Int) + (k : Int) - (mp.mp_start : Int)) = off + k := by
      unfold wrap64; omega
    have hk' : off + k < mp.mp_file.length := by omega
    have hacc : bigEndianValue ((mp.mp_file.drop off).take k) < 2 ^ 56 := by
      refine lt_of_lt_of_le (bigEndianValue_lt _) ?_
      refine le_trans (Nat.pow_le_pow_right (by norm_num) (List.length_take_le _ _)) ?_
      exact pow256_le k (by omega)
    simp only [MemoryPool.readStep, if_true, hpos, List.getElem?_eq_getElem hk']
    rw [shift_in _ _ hacc, List.take_succ, List.getElem?_drop, List.getElem?_eq_getElem hk']
    simp [bigEndianValue_append]

/-- The little-endian loop of `read`: after `k` iterations the accumulator is
the little-endian value of the last `k` of the `w` bytes at the offset of `addr`. -/
theorem read_loop_littleEndian (mp : MemoryPool) (addr w off : Nat)
    (haddr : addr = mp.mp_start + off) (hfile : off + w ≤ mp.mp_file.length)
    (hlen : mp.mp_file.length < 9223372036854775808) (hw : w ≤ 8) :
    ∀ k, k ≤ w → (List.range k).foldlM (mp.readStep addr w false) 0 =
      .ok (littleEndianValue ((mp.mp_file.drop (off + w - k)).take k)) := by
  intro k
  induction k with
  | zero => intro _; simp [littleEndianValue, List.foldlM, pure, Except.pure]
  | succ k ih =>
    intro hk
    rw [foldlM_range_succ, ih (by omega)]
    have hpos : wrap64 ((addr : Int) + (w : Int) - (k : Int) - 1 - (mp.mp_start : Int))
        = off + w - (k + 1) := by
      unfold wrap64; omega
    have hk' : off + w - (k + 1) < mp.mp_file.length := by omega
    have hacc : littleEndianValue ((mp.mp_file.drop (off + w - k)).take k) < 2 ^ 56 := by
      refine lt_of_lt_of_le (littleEndianValue_lt _) ?_
      refine le_trans (Nat.pow_le_pow_right (by norm_num) (List.length_take_le _ _)) ?_
      exact pow256_le k (by omega)
    simp only [MemoryPool.readStep, Bool.false_eq_true, if_false, hpos,
      List.getElem?_eq_getElem hk']
    rw [shift_in _ _ hacc, List.drop_eq_getElem_cons hk', List.take_succ_cons]
    have e : off + w - (k + 1) + 1 = off + w - k := by omega
    rw [e]
    simp only [littleEndianValue]
    congr 1
    omega

/-- Where a read that passes the four assertions lies: inside the file. -/
theorem read_window (mp : MemoryPool) (addr w : Nat) (hwf : mp.WF) (h1 : 1 ≤ w) (h8 : w ≤ 8)
    (hin : mp.inside addr = true) (hlast : mp.inside (wrap64 (addr + w - 1)) = true) :
    mp.mp_start ≤ addr ∧ (addr - mp.mp_start) + w ≤ mp.mp_file.length := by
  obtain ⟨hs, hl, he⟩ := hwf
  simp only [MemoryPool.inside, Bool.and_eq_true, decide_eq_true_eq, ge_iff_le] at hin hlast
  rw [he] at hin hlast
  simp only [U64] at hs
  unfold wrap64 at hin hlast
  omega

/-- A read that passes the four assertions returns the value of the `w` bytes
at the offset of `addr`, in the byte order asked for. -/
theorem read_eq (mp : MemoryPool) (addr w : Nat) (hwf : mp.WF) (h1 : 1 ≤ w) (h8 : w ≤ 8)
    (hin : mp.inside addr = true) (hlast : mp.inside (wrap64 (addr + w - 1)) = true) :
    (mp.bytesAt addr w).length = w ∧
    mp.read addr w true = .ok (bigEndianValue (mp.bytesAt addr w)) ∧
    mp.read addr w false = .ok (littleEndianValue (mp.bytesAt addr w)) := by
  obtain ⟨hge, hfile⟩ := read_window mp addr w hwf h1 h8 hin hlast
  have hw0 : w ≠ 0 := by omega
  have hoff : addr = mp.mp_start + (addr - mp.mp_start) := by omega
  refine ⟨?_, ?_, ?_⟩
  · simp only [MemoryPool.bytesAt, List.length_take, List.length_drop]; omega
  · simp only [MemoryPool.read, hin, hlast, hw0, h8, Bool.not_true, Bool.false_eq_true,
      if_false, decide_True]
    exact read_loop_bigEndian mp addr w _ hoff hfile hwf.2.1 h8 w le_rfl
  · simp only [MemoryPool.read, hin, hlast, hw0, h8, Bool.not_true, Bool.false_eq_true,
      if_false, decide_True]
    have h := read_loop_littleEndian mp addr w _ hoff hfile hwf.2.1 h8 w le_rfl
    simpa [MemoryPool.bytesAt] using h

/-- A read that passes the four assertions returns, whatever the byte order. -/
theorem read_ok (mp : MemoryPool) (addr w : Nat) (isBigEndian : Bool) (hwf : mp.WF)
    (h1 : 1 ≤ w) (h8 : w ≤ 8) (hin : mp.inside addr = true)
    (hlast : mp.inside (wrap64 (addr + w - 1)) = true) :
    mp.read addr w isBigEndian =
      .ok (if isBigEndian then bigEndianValue (mp.bytesAt addr w)
        else littleEndianValue (mp.bytesAt addr w)) := by
  obtain ⟨_, hb, hl⟩ := read_eq mp addr w hwf h1 h8 hin hlast
  cases isBigEndian
  · simpa using hl
  · simpa using hb

/-- A read for which one of the four assertions fails does not return. -/
theorem read_error (mp : MemoryPool) (addr w : Nat) (isBigEndian : Bool)
    (h : ¬ (1 ≤ w ∧ w ≤ 8 ∧ mp.inside addr = true ∧
      mp.inside (wrap64 (addr + w - 1)) = true)) :
    mp.read addr w isBigEndian = .error .assertFailed := by
  unfold MemoryPool.read
  by_cases hin : mp.inside addr = true
  · by_cases hw0 : w = 0
    · simp [hin, hw0]
    · by_cases h8 : w ≤ 8
      · by_cases hlast : mp.inside (wrap64 (addr + w - 1)) = true
        · exact absurd ⟨by omega, h8, hin, hlast⟩ h
        · simp [hin, hw0, h8, hlast]
      · simp [hin, hw0, h8]
  · simp [hin]

/-- C3. For a region, a width `1 ≤ w ≤ 8` and an address such that `addr` and
`addr + w - 1` are inside the region, `read(addr, w, true)` is the big-endian
integer of the `w` backing bytes at the file offsets `addr - start`, ...,
`addr - start + w - 1` and `read(addr, w, false)` is the little-endian integer
of the same bytes. -/
theorem read_endianness (mp : MemoryPool) (addr w : Nat) (hwf : mp.WF)
    (h1 : 1 ≤ w) (h8 : w ≤ 8) (hin : mp.inside addr = true)
    (hlast : mp.inside (addr + w - 1) = true) :
    (mp.bytesAt addr w).length = w ∧
    mp.bytesAt addr w = (mp.mp_file.drop (addr - mp.mp_start)).take w ∧
    mp.read addr w true = .ok (bigEndianValue (mp.bytesAt addr w)) ∧
    mp.read addr w false = .ok (littleEndianValue (mp.bytesAt addr w)) := by
  have hlast' : mp.inside (wrap64 (addr + w - 1)) = true := by
    have e : wrap64 ((addr : Int) + (w : Int) - 1) = addr + w - 1 := by
      obtain ⟨hs, hl, he⟩ := hwf
      simp only [MemoryPool.inside, Bool.and_eq_true, decide_eq_true_eq, ge_iff_le] at hlast
      rw [he] at hlast
      unfold wrap64 at hlast ⊢
      omega
    rw [e]; exact hlast
  obtain ⟨hlen, hb, hl⟩ := read_eq mp addr w hwf h1 h8 hin hlast'
  exact ⟨hlen, rfl, hb, hl⟩

/-- C3, the example of the specification: the bytes `01 02 03 04` at offset 0
read with width 4 give `0x01020304` big-endian and `0x04030201` little-endian. -/
theorem read_endianness_witness :
    (MemoryPool.ofFile [1, 2, 3, 4] 0).read 0 4 true = .ok 0x01020304 ∧
    (MemoryPool.ofFile [1, 2, 3, 4] 0).read 0 4 false = .ok 0x04030201 :=
  have h := read_endianness (MemoryPool.ofFile [1, 2, 3, 4] 0) 0 4 (by decide) (by decide)
    (by decide) (by decide) (by decide)
  ⟨h.2.2.1.trans (by decide), h.2.2.2.trans (by decide)⟩

/-- C6. `read(addr, w, isBigEndian)` on a region fails exactly when it is not
the case that `1 ≤ w ≤ 8`, the region contains `addr` and the region contains
`addr + w - 1` (in 64-bit arithmetic); when the three conditions hold it
returns a value. -/
theorem read_fails_iff (mp : MemoryPool) (addr w : Nat) (isBigEndian : Bool) (hwf : mp.WF) :
    ((∃ e, mp.read addr w isBigEndian = .error e) ↔
      ¬ ((1 ≤ w ∧ w ≤ 8) ∧ mp.inside addr = true ∧
        mp.inside (wrap64 (addr + w - 1)) = true)) ∧
    (((1 ≤ w ∧ w ≤ 8) ∧ mp.inside addr = true ∧
        mp.inside (wrap64 (addr + w - 1)) = true) →
      ∃ v, mp.read addr w isBigEndian = .ok v) := by
  have hok : ((1 ≤ w ∧ w ≤ 8) ∧ mp.inside addr = true ∧
      mp.inside (wrap64 (addr + w - 1)) = true) →
      ∃ v, mp.read addr w isBigEndian = .ok v := by
    rintro ⟨⟨h1, h8⟩, hin, hlast⟩
    exact ⟨_, read_ok mp addr w isBigEndian hwf h1 h8 hin hlast⟩
  refine ⟨⟨?_, ?_⟩, hok⟩
  · rintro ⟨e, he⟩ hc
    obtain ⟨v, hv⟩ := hok hc
    rw [hv] at he
    cases he
  · intro hc
    refine ⟨.assertFailed, read_error mp addr w isBigEndian ?_⟩
    rintro ⟨h1, h8, hin, hlast⟩
    exact hc ⟨⟨h1, h8⟩, hin, hlast⟩

/-- C6 at a concrete region: the four bytes at `0x1000`; a 4-byte read at
`0x1000` returns, one at `0x1002` fails. -/
theorem read_fails_iff_witness :
    (∃ v, (MemoryPool.ofFile [1, 2, 3, 4] 0x1000).read 0x1000 4 false = .ok v) ∧
    (∃ e, (MemoryPool.ofFile [1, 2, 3, 4] 0x1000).read 0x1002 4 false = .error e) :=
  ⟨(read_fails_iff (MemoryPool.ofFile [1, 2, 3, 4] 0x1000) 0x1000 4 false (by decide)).2
      (by decide),
    (read_fails_iff (MemoryPool.ofFile [1, 2, 3, 4] 0x1000) 0x1002 4 false (by decide)).1.2
      (by decide)⟩

/-! ## `getMemoryValue` -/

theorem getMemoryValueOfType_eq (pools : List MemoryPool) (address bitWidth : Nat)
    (isBigEndian : Bool) :
    getMemoryValueOfType pools address bitWidth isBigEndian =
      match findPool pools address with
      | none => .ok none
      | some mp =>
        match mp.read address ((bitWidth / 8) % 256) isBigEndian with
        | .error e => .error e
        | .ok value => .ok (some (ConstantInt.get bitWidth value)) := by
  induction pools with
  | nil => rfl
  | cons mp rest ih =>
    by_cases h : mp.inside address = true
    · simp [getMemoryValueOfType, findPool, List.find?, h]
    · simp only [Bool.not_eq_true] at h
      simp only [getMemoryValueOfType, findPool, List.find?, h, Bool.false_eq_true, if_false]
      exact ih

theorem getMemoryValue_eq (pools : List MemoryPool) (address size : Nat)
    (isBigEndian : Bool) :
    getMemoryValue pools address size isBigEndian =
      match findPool pools address with
      | none => .ok 0xdeadbeef
      | some mp => mp.read address (size % 256) isBigEndian := by
  induction pools with
  | nil => rfl
  | cons mp rest ih =>
    by_cases h : mp.inside address = true
    · simp [getMemoryValue, findPool, List.find?, h]
    · simp only [Bool.not_eq_true] at h
      simp only [getMemoryValue, findPool, List.find?, h, Bool.false_eq_true, if_false]
      exact ih

theorem findPool_eq_none (pools : List MemoryPool) (address : Nat) :
    findPool pools address = none ↔
      ¬ ∃ mp ∈ pools, mp.mp_start ≤ address ∧ address < mp.mp_end := by
  simp [findPool, List.find?_eq_none, MemoryPool.inside]

theorem findPool_some (pools : List MemoryPool) (address : Nat) (mp : MemoryPool)
    (h : findPool pools address = some mp) : mp ∈ pools ∧ mp.inside address = true := by
  unfold findPool at h
  exact ⟨List.mem_of_find?_eq_some h, by simpa using List.find?_some h⟩

/-- C5, as stated, fails: the two bytes at `0x1000` form a region that contains
`0x1000`, yet the 32-bit `getMemoryValue` at `0x1000` does not return a
constant; the bounds assertion of `read` stops the run. -/
theorem getMemoryValue_nonnull_iff_counterexample :
    ¬ ((∃ c, getMemoryValueOfType [MemoryPool.ofFile [1, 2] 0x1000] 0x1000 32 false
          = .ok (some c)) ↔
        ∃ mp ∈ [MemoryPool.ofFile [1, 2] 0x1000], mp.mp_start ≤ 0x1000 ∧ 0x1000 < mp.mp_end) := by
  intro h
  obtain ⟨c, hc⟩ := h.2 ⟨_, List.mem_singleton.2 rfl, by decide, by decide⟩
  have e : getMemoryValueOfType [MemoryPool.ofFile [1, 2] 0x1000] 0x1000 32 false
      = .error .assertFailed := by decide
  rw [e] at hc
  cases hc

/-- C5, amended. For every list of regions and every address, the lookup of
`getMemoryValue` finds a region exactly when some region satisfies
`startAddress ≤ addr < endAddress`, and `getMemoryValue` returns `NULL`
exactly when none does. The region found is read: the result is a non-null
constant when that read returns, and the run stops when it fails. -/
theorem getMemoryValue_lookup (pools : List MemoryPool) (address bitWidth : Nat)
    (isBigEndian : Bool) :
    ((findPool pools address).isSome = true ↔
      ∃ mp ∈ pools, mp.mp_start ≤ address ∧ address < mp.mp_end) ∧
    (getMemoryValueOfType pools address bitWidth isBigEndian = .ok none ↔
      ¬ ∃ mp ∈ pools, mp.mp_start ≤ address ∧ address < mp.mp_end) ∧
    (∀ mp, findPool pools address = some mp →
      (∀ value, mp.read address ((bitWidth / 8) % 256) isBigEndian = .ok value →
        getMemoryValueOfType pools address bitWidth isBigEndian
          = .ok (some (ConstantInt.get bitWidth value))) ∧
      (∀ e, mp.read address ((bitWidth / 8) % 256) isBigEndian = .error e →
        getMemoryValueOfType pools address bitWidth isBigEndian = .error e)) := by
  have hnone := findPool_eq_none pools address
  refine ⟨?_, ?_, ?_⟩
  · rw [← not_iff_not, ← hnone]
    cases findPool pools address <;> simp
  · rw [← hnone, getMemoryValueOfType_eq]
    cases hf : findPool pools address with
    | none => simp
    | some mp =>
      cases hr : mp.read address ((bitWidth / 8) % 256) isBigEndian <;> simp [hr]
  · intro mp hf
    rw [getMemoryValueOfType_eq, hf]
    constructor
    · intro value hr; simp [hr]
    · intro e hr; simp [hr]

/-- C5, amended, at a concrete image: the four bytes at `0x1000`. The address
`0x1002` is found and a 16-bit constant is returned; `0x1004` is not found. -/
theorem getMemoryValue_lookup_witness :
    getMemoryValueOfType [MemoryPool.ofFile [1, 2, 3, 4] 0x1000] 0x1002 16 false
      = .ok (some (.constantInt 16 0x0403)) ∧
    getMemoryValueOfType [MemoryPool.ofFile [1, 2, 3, 4] 0x1000] 0x1004 16 false = .ok none :=
  ⟨((getMemoryValue_lookup [MemoryPool.ofFile [1, 2, 3, 4] 0x1000] 0x1002 16 false).2.2
      (MemoryPool.ofFile [1, 2, 3, 4] 0x1000) (by decide)).1 0x0403 (by decide),
    (getMemoryValue_lookup [MemoryPool.ofFile [1, 2, 3, 4] 0x1000] 0x1004 16 false).2.1.2
      (by decide)⟩

/-! ## The instruction stream under the rewriting steps -/

theorem replaceUsesWith_eq (old : Nat) (new : Value) :
    Instruction.replaceUsesWith old new = Instruction.mapOperands (substValue old new) := rfl

theorem instructions_replaceAllUsesWith (F : Function) (old : Nat) (new : Value) :
    (F.replaceAllUsesWith old new).instructions =
      F.instructions.map (Instruction.mapOperands (substValue old new)) := by
  simp only [Function.replaceAllUsesWith, Function.instructions, replaceUsesWith_eq]
  rw [List.map_flatten]

theorem instructions_eraseFromParent (F : Function) (id : Nat) :
    (F.eraseFromParent id).instructions =
      F.instructions.filter fun ins => decide (ins.id ≠ id) := by
  simp only [Function.eraseFromParent, Function.instructions]
  rw [List.filter_flatten]

theorem instructions_eraseAll (eraseIns : List Nat) (F : Function) :
    (eraseAll F eraseIns).instructions =
      F.instructions.filter fun ins => decide (ins.id ∉ eraseIns) := by
  induction eraseIns generalizing F with
  | nil => simp [eraseAll]
  | cons e rest ih =>
    have h := ih (F.eraseFromParent e)
    simp only [eraseAll, List.foldl_cons] at h ⊢
    rw [h, instructions_eraseFromParent, List.filter_filter]
    congr 1
    funext ins
    by_cases h1 : ins.id = e <;> by_cases h2 : ins.id ∈ rest <;> simp [h1, h2]

theorem mapOperands_comp (g h : Value → Value) (ins : Instruction) :
    Instruction.mapOperands g (Instruction.mapOperands h ins) =
      Instruction.mapOperands (g ∘ h) ins := by
  simp [Instruction.mapOperands]

theorem mapOperands_id (ins : Instruction) : Instruction.mapOperands id ins = ins := by
  simp [Instruction.mapOperands]

theorem mapOperands_getElem? (h : Value → Value) (ins : Instruction) (j : Nat) :
    (Instruction.mapOperands h ins).operands[j]? = (ins.operands[j]?).map h := by
  simp [Instruction.mapOperands]

/-! ## The first loop -/

/-- The decision of the first loop reads the class of the instruction, the
number of its operands and its first operand, nothing else. -/
theorem resolveLoad_congr (self : ReplaceConstantLoads) (a b : Instruction)
    (hop : a.opcode = b.opcode) (hlen : a.operands.length = b.operands.length)
    (h0 : a.operands[0]? = b.operands[0]?) : resolveLoad self a = resolveLoad self b := by
  simp only [resolveLoad, hop, hlen, h0]

/-- The decision of the first loop on a load-helper call with a constant address. -/
theorem resolveLoad_call (self : ReplaceConstantLoads) (ins : Instruction) (name : String)
    (ty address bitWidth : Nat) (hop : ins.opcode = .call (some name))
    (hargs : ins.operands.length = 2)
    (haddr : ins.operands[0]? = some (.constantInt ty address))
    (hname : valueType name = some bitWidth) :
    resolveLoad self ins =
      getMemoryValueOfType self.m_memoryPools address bitWidth self.IsBigEndian := by
  simp only [resolveLoad, hop, hargs, haddr, hname, ne_eq, not_true_eq_false, if_false]

/-- The value that replaces a resolved call is an integer constant. -/
theorem resolveLoad_some (self : ReplaceConstantLoads) (ins : Instruction) (value : Value)
    (h : resolveLoad self ins = .ok (some value)) : ∃ b v, value = .constantInt b v := by
  unfold resolveLoad at h
  split at h
  · split at h
    · cases h
    · split at h
      · split at h
        · cases h
        · split at h
          · cases h
          · rename_i bitWidth _
            rw [getMemoryValueOfType_eq] at h
            split at h
            · cases h
            · split at h
              · cases h
              · cases h
                exact ⟨_, _, rfl⟩
      · cases h
  · cases h

/-- The two ways in which an iteration of the first loop goes on: nothing
changes, or the uses of the instruction at `pos` are replaced and it is pushed
on `eraseIns`. -/
theorem replaceLoadStep_ok (self : ReplaceConstantLoads) (st st' : Function × List Nat)
    (pos : Nat) (h : replaceLoadStep self st pos = .ok st') :
    (st' = st ∧ ∀ ins, st.1.instructions[pos]? = some ins → resolveLoad self ins = .ok none) ∨
    (∃ ins value, st.1.instructions[pos]? = some ins ∧
      resolveLoad self ins = .ok (some value) ∧
      st' = (st.1.replaceAllUsesWith ins.id value, st.2 ++ [ins.id])) := by
  unfold replaceLoadStep at h
  cases hp : st.1.instructions[pos]? with
  | none =>
    simp only [hp] at h
    cases h
    exact Or.inl ⟨rfl, by intro ins hi; cases hi⟩
  | some ins =>
    simp only [hp] at h
    cases hr : resolveLoad self ins with
    | error e => simp only [hr] at h; cases h
    | ok r =>
      cases r with
      | none =>
        simp only [hr] at h
        cases h
        exact Or.inl ⟨rfl, by intro ins' hi; cases hi; exact hr⟩
      | some value =>
        simp only [hr] at h
        cases h
        exact Or.inr ⟨ins, value, rfl, hr, rfl⟩

/-- Induction over the iterations of the first loop. -/
theorem scan_induct (self : ReplaceConstantLoads) (F : Function)
    (Inv : Nat → Function × List Nat → Prop) (h0 : Inv 0 (F, []))
    (hstep : ∀ k st st', Inv k st → replaceLoadStep self st k = .ok st' → Inv (k + 1) st') :
    ∀ n st, (List.range n).foldlM (replaceLoadStep self) (F, []) = .ok st → Inv n st := by
  intro n
  induction n with
  | zero =>
    intro st h
    simp only [List.range_zero, List.foldlM_nil, pure, Except.pure] at h
    cases h
    exact h0
  | succ n ih =>
    intro st h
    rw [foldlM_range_succ] at h
    cases hp : (List.range n).foldlM (replaceLoadStep self) (F, []) with
    | error e => simp only [hp] at h; cases h
    | ok st1 =>
      simp only [hp] at h
      exact hstep n st1 st (ih st1 hp) h

/-- The rewriting of operands is kept by an iteration that replaces the uses of
one instruction by an integer constant. -/
theorem ScanInv.step {eraseIns : List Nat} {h : Value → Value} (hinv : ScanInv eraseIns h)
    (id b v : Nat) : ScanInv (eraseIns ++ [id]) (substValue id (.constantInt b v) ∘ h) := by
  obtain ⟨hfix, hinst⟩ := hinv
  constructor
  · intro o ho
    simp only [Function.comp, hfix o ho, substValue]
    rw [if_neg (ho id)]
  · intro i
    rcases hinst i with hi | ⟨hmem, b', v', hi⟩
    · by_cases e : i = id
      · right
        subst e
        refine ⟨by simp, b, v, ?_⟩
        simp [Function.comp, hi, substValue]
      · left
        simp [Function.comp, hi, substValue, e]
    · right
      refine ⟨by simp [hmem], b', v', ?_⟩
      simp [Function.comp, hi, substValue]

theorem ScanInv.init : ScanInv [] id :=
  ⟨fun _ _ => rfl, fun _ => Or.inl rfl⟩

/-- Under the rewriting of the first loop an operand that is not an
instruction result stays what it was. -/
theorem ScanInv.constantInt {eraseIns : List Nat} {h : Value → Value}
    (hinv : ScanInv eraseIns h) (b v : Nat) : h (.constantInt b v) = .constantInt b v :=
  hinv.1 _ (by intro i hi; cases hi)

/-- Under the rewriting of the first loop an operand becomes the result of an
instruction only if it was that result before. -/
theorem ScanInv.eq_instruction {eraseIns : List Nat} {h : Value → Value}
    (hinv : ScanInv eraseIns h) (o : Value) (i : Nat) (ho : h o = .instruction i) :
    o = .instruction i := by
  by_cases hn : ∀ j, o ≠ .instruction j
  · rw [hinv.1 o hn] at ho; exact ho
  · push_neg at hn
    obtain ⟨j, rfl⟩ := hn
    rcases hinv.2 j with hj | ⟨_, b, v, hj⟩
    · rw [hj] at ho; exact ho
    · rw [hj] at ho; cases ho

/-- The state of the first loop after any number of iterations: the
instructions of the function with their operands rewritten. -/
theorem scan_state (self : ReplaceConstantLoads) (F : Function) (k : Nat)
    (st st' : Function × List Nat) (h : Value → Value)
    (hinst : st.1.instructions = F.instructions.map (Instruction.mapOperands h))
    (hinv : ScanInv st.2 h) (hs : replaceLoadStep self st k = .ok st') :
    (st' = st ∧ ∀ ins, st.1.instructions[k]? = some ins → resolveLoad self ins = .ok none) ∨
    (∃ ins b v, F.instructions[k]? = some ins ∧
      resolveLoad self (Instruction.mapOperands h ins) = .ok (some (.constantInt b v)) ∧
      st'.1.instructions = F.instructions.map
        (Instruction.mapOperands (substValue ins.id (.constantInt b v) ∘ h)) ∧
      st'.2 = st.2 ++ [ins.id] ∧
      ScanInv st'.2 (substValue ins.id (.constantInt b v) ∘ h)) := by
  rcases replaceLoadStep_ok self st st' k hs with hl | ⟨ins1, value, hk, hr, rfl⟩
  · exact Or.inl hl
  · right
    rw [hinst, List.getElem?_map] at hk
    cases hk0 : F.instructions[k]? with
    | none => rw [hk0] at hk; cases hk
    | some ins =>
      rw [hk0] at hk
      simp only [Option.map_some', Option.some.injEq] at hk
      subst hk
      obtain ⟨b, v, rfl⟩ := resolveLoad_some self _ _ hr
      refine ⟨ins, b, v, rfl, hr, ?_, rfl, hinv.step _ b v⟩
      rw [instructions_replaceAllUsesWith, hinst, List.map_map]
      congr 1
      funext a
      exact mapOperands_comp _ _ a

/-! ## The second loop -/

/-- Induction over the iterations of a counted loop. -/
theorem foldlM_range_induct {σ ε : Type} (f : σ → Nat → Except ε σ) (s0 : σ)
    (Inv : Nat → σ → Prop) (h0 : Inv 0 s0)
    (hstep : ∀ k s s', Inv k s → f s k = .ok s' → Inv (k + 1) s') :
    ∀ n s, (List.range n).foldlM f s0 = .ok s → Inv n s := by
  intro n
  induction n with
  | zero =>
    intro s h
    simp only [List.range_zero, List.foldlM_nil, pure, Except.pure] at h
    cases h
    exact h0
  | succ n ih =>
    intro s h
    rw [foldlM_range_succ] at h
    cases hp : (List.range n).foldlM f s0 with
    | error e => simp only [hp] at h; cases h
    | ok s1 =>
      simp only [hp] at h
      exact hstep n s1 s (ih s1 hp) h

/-- A counted loop whose body returns at every iteration returns. -/
theorem foldlM_range_total {σ ε : Type} (f : σ → Nat → Except ε σ) (s0 : σ)
    (Inv : Nat → σ → Prop) (h0 : Inv 0 s0) (n : Nat)
    (hstep : ∀ k s, k < n → Inv k s → ∃ s', f s k = .ok s' ∧ Inv (k + 1) s') :
    ∀ m, m ≤ n → ∃ s, (List.range m).foldlM f s0 = .ok s ∧ Inv m s := by
  intro m
  induction m with
  | zero => intro _; exact ⟨s0, rfl, h0⟩
  | succ m ih =>
    intro hm
    obtain ⟨s, hs, hi⟩ := ih (by omega)
    obtain ⟨s', hs', hi'⟩ := hstep m s (by omega) hi
    refine ⟨s', ?_, hi'⟩
    rw [foldlM_range_succ, hs]
    exact hs'

/-- A counted loop of which one iteration fails does not return. -/
theorem foldlM_range_error {σ ε : Type} (f : σ → Nat → Except ε σ) (s0 : σ) (k n : Nat)
    (hk : k < n)
    (hfail : ∀ s, (List.range k).foldlM f s0 = .ok s → ∃ e, f s k = .error e) :
    ∃ e, (List.range n).foldlM f s0 = .error e := by
  have step : ∀ m, k < m → ∃ e, (List.range m).foldlM f s0 = .error e := by
    intro m
    induction m with
    | zero => intro h; omega
    | succ m ih =>
      intro hm
      rw [foldlM_range_succ]
      by_cases hkm : k = m
      · subst hkm
        cases hp : (List.range k).foldlM f s0 with
        | error e => exact ⟨e, rfl⟩
        | ok s =>
          obtain ⟨e, he⟩ := hfail s hp
          exact ⟨e, he⟩
      · obtain ⟨e, he⟩ := ih (by omega)
        rw [he]
        exact ⟨e, rfl⟩
  exact step n hk

theorem setMetadata_shape (ins : Instruction) (kind : String) (node : Nat) :
    (ins.setMetadata kind node).id = ins.id ∧ (ins.setMetadata kind node).opcode = ins.opcode ∧
    (ins.setMetadata kind node).operands = ins.operands := ⟨rfl, rfl, rfl⟩

theorem annotateCase_ok (self : ReplaceConstantLoads) (info : JumpTableInfo)
    (ins ins' : Instruction) (i : Nat) (h : annotateCase self info ins i = .ok ins') :
    ∃ loadedPC, getMemoryValue self.m_memoryPools (wrap64 (info.base_table + wrapInt (4 * i))) 4
        self.IsBigEndian = .ok loadedPC ∧
      ins' = ins.setMetadata (caseKey i) (hex loadedPC) := by
  unfold annotateCase at h
  split at h
  · cases h
  · rename_i loadedPC hl
    cases h
    exact ⟨loadedPC, hl, rfl⟩

/-- The annotation of a dispatch site changes its metadata only. -/
theorem annotateSite_shape (self : ReplaceConstantLoads) (info : JumpTableInfo)
    (ins ins' : Instruction) (h : annotateSite self info ins = .ok ins') :
    ins'.id = ins.id ∧ ins'.opcode = ins.opcode ∧ ins'.operands = ins.operands := by
  unfold annotateSite at h
  simp only at h
  split at h
  · cases h
  · refine foldlM_range_induct (annotateCase self info) _
      (fun _ s => s.id = ins.id ∧ s.opcode = ins.opcode ∧ s.operands = ins.operands)
      ?_ ?_ _ ins' h
    · exact ⟨rfl, rfl, rfl⟩
    intro k s s' hs hk
    obtain ⟨pc, _, rfl⟩ := annotateCase_ok self info s s' k hk
    exact hs

/-- The second loop changes the metadata of an instruction only. -/
theorem annotateJumpTable_shape (self : ReplaceConstantLoads) (ins ins' : Instruction)
    (h : annotateJumpTable self ins = .ok ins') :
    ins'.id = ins.id ∧ ins'.opcode = ins.opcode ∧ ins'.operands = ins.operands := by
  unfold annotateJumpTable at h
  cases hd : dispatchInfo self ins with
  | none => simp only [hd] at h; cases h; exact ⟨rfl, rfl, rfl⟩
  | some info => simp only [hd] at h; exact annotateSite_shape self info ins ins' h

theorem annotateBlock_forall₂ (self : ReplaceConstantLoads) (bb bb' : BasicBlock)
    (h : annotateBlock self bb = .ok bb') :
    List.Forall₂ (fun ins ins' => annotateJumpTable self ins = .ok ins') bb bb' := by
  induction bb generalizing bb' with
  | nil =>
    simp only [annotateBlock] at h
    cases h
    exact List.Forall₂.nil
  | cons ins rest ih =>
    simp only [annotateBlock] at h
    cases h1 : annotateJumpTable self ins with
    | error e => simp only [h1] at h; cases h
    | ok ins' =>
      simp only [h1] at h
      cases h2 : annotateBlock self rest with
      | error e => simp only [h2] at h; cases h
      | ok rest' =>
        simp only [h2] at h
        cases h
        exact List.Forall₂.cons h1 (ih rest' h2)

/-- The second loop works instruction by instruction, in layout order. -/
theorem annotateJumpTables_forall₂ (self : ReplaceConstantLoads) (F F' : Function)
    (h : annotateJumpTables self F = .ok F') :
    List.Forall₂ (fun ins ins' => annotateJumpTable self ins = .ok ins')
      F.instructions F'.instructions := by
  induction F generalizing F' with
  | nil =>
    simp only [annotateJumpTables] at h
    cases h
    exact List.Forall₂.nil
  | cons bb rest ih =>
    simp only [annotateJumpTables] at h
    cases h1 : annotateBlock self bb with
    | error e => simp only [h1] at h; cases h
    | ok bb' =>
      simp only [h1] at h
      cases h2 : annotateJumpTables self rest with
      | error e => simp only [h2] at h; cases h
      | ok rest' =>
        simp only [h2] at h
        cases h
        simp only [Function.instructions, List.flatten_cons]
        exact List.rel_append (annotateBlock_forall₂ self bb bb' h1) (ih rest' h2)

theorem forall₂_mem_right {α β : Type} {R : α → β → Prop} {l : List α} {l' : List β}
    (h : List.Forall₂ R l l') : ∀ b ∈ l', ∃ a ∈ l, R a b := by
  induction h with
  | nil => intro b hb; cases hb
  | cons hab _ ih =>
    intro b hb
    rcases List.mem_cons.1 hb with rfl | hb
    · exact ⟨_, List.mem_cons_self _ _, hab⟩
    · obtain ⟨a, ha, hr⟩ := ih b hb
      exact ⟨a, List.mem_cons_of_mem _ ha, hr⟩

theorem forall₂_mem_left {α β : Type} {R : α → β → Prop} {l : List α} {l' : List β}
    (h : List.Forall₂ R l l') : ∀ a ∈ l, ∃ b ∈ l', R a b := by
  induction h with
  | nil => intro a ha; cases ha
  | cons hab _ ih =>
    intro a ha
    rcases List.mem_cons.1 ha with rfl | ha
    · exact ⟨_, List.mem_cons_self _ _, hab⟩
    · obtain ⟨b, hb, hr⟩ := ih a ha
      exact ⟨b, List.mem_cons_of_mem _ hb, hr⟩

/-! ## `runOnFunction` -/

/-- A run that returns went through the three loops. -/
theorem runOnFunction_ok (self : ReplaceConstantLoads) (F : Function) (R : RunResult)
    (h : runOnFunction self F = .ok R) :
    ∃ F1 eraseIns F2, replaceLoadMmu self F = .ok (F1, eraseIns) ∧
      annotateJumpTables self F1 = .ok F2 ∧ R.F = eraseAll F2 eraseIns ∧
      R.erased = eraseIns.length ∧ R.changed = decide (eraseIns.length > 0) := by
  unfold runOnFunction at h
  cases h1 : replaceLoadMmu self F with
  | error e => simp only [h1] at h; cases h
  | ok st =>
    obtain ⟨F1, eraseIns⟩ := st
    simp only [h1] at h
    cases h2 : annotateJumpTables self F1 with
    | error e => simp only [h2] at h; cases h
    | ok F2 =>
      simp only [h2] at h
      cases h
      exact ⟨F1, eraseIns, F2, rfl, h2, rfl, rfl, rfl⟩

/-- The instructions that a run leaves: those that the first loop did not push
on `eraseIns`, with the operands as the first loop rewrote them and the
metadata as the second loop set it. -/
theorem runOnFunction_instructions (self : ReplaceConstantLoads) (F F1 F2 : Function)
    (eraseIns : List Nat) (h : Value → Value)
    (hinst : F1.instructions = F.instructions.map (Instruction.mapOperands h))
    (h2 : annotateJumpTables self F1 = .ok F2) :
    (∀ ins' ∈ (eraseAll F2 eraseIns).instructions, ins'.id ∉ eraseIns ∧
      ∃ ins ∈ F.instructions,
        annotateJumpTable self (Instruction.mapOperands h ins) = .ok ins' ∧
        ins'.id = ins.id ∧ ins'.opcode = ins.opcode ∧ ins'.operands = ins.operands.map h) ∧
    (∀ ins ∈ F.instructions, ins.id ∉ eraseIns →
      ∃ ins' ∈ (eraseAll F2 eraseIns).instructions,
        annotateJumpTable self (Instruction.mapOperands h ins) = .ok ins' ∧
        ins'.id = ins.id ∧ ins'.opcode = ins.opcode ∧ ins'.operands = ins.operands.map h) := by
  have hf := annotateJumpTables_forall₂ self F1 F2 h2
  constructor
  · intro ins' hmem
    rw [instructions_eraseAll, List.mem_filter] at hmem
    obtain ⟨hm, hid⟩ := hmem
    refine ⟨by simpa using hid, ?_⟩
    obtain ⟨ins1, hm1, ha⟩ := forall₂_mem_right hf ins' hm
    rw [hinst, List.mem_map] at hm1
    obtain ⟨ins, hm0, rfl⟩ := hm1
    obtain ⟨e1, e2, e3⟩ := annotateJumpTable_shape self _ _ ha
    exact ⟨ins, hm0, ha, e1, e2, e3⟩
  · intro ins hm0 hid
    have hm1 : Instruction.mapOperands h ins ∈ F1.instructions := by
      rw [hinst]; exact List.mem_map_of_mem _ hm0
    obtain ⟨ins', hm', ha⟩ := forall₂_mem_left hf _ hm1
    obtain ⟨e1, e2, e3⟩ := annotateJumpTable_shape self _ _ ha
    refine ⟨ins', ?_, ha, e1, e2, e3⟩
    rw [instructions_eraseAll, List.mem_filter]
    refine ⟨hm', ?_⟩
    have e : ins'.id = ins.id := e1
    simpa [e] using hid

/-! ## Resolved and unresolved loads -/

/-- A read that returns on a well-formed pool passed the four assertions. -/
theorem read_ok_inv (mp : MemoryPool) (addr w value : Nat) (isBigEndian : Bool) (hwf : mp.WF)
    (h : mp.read addr w isBigEndian = .ok value) :
    value = (if isBigEndian then bigEndianValue (mp.bytesAt addr w)
      else littleEndianValue (mp.bytesAt addr w)) ∧ value < 256 ^ w := by
  by_cases hc : 1 ≤ w ∧ w ≤ 8 ∧ mp.inside addr = true ∧
      mp.inside (wrap64 (addr + w - 1)) = true
  · obtain ⟨h1, h8, hin, hlast⟩ := hc
    rw [read_ok mp addr w isBigEndian hwf h1 h8 hin hlast] at h
    obtain ⟨hlen, _, _⟩ := read_eq mp addr w hwf h1 h8 hin hlast
    cases h
    refine ⟨rfl, ?_⟩
    cases isBigEndian
    · have := littleEndianValue_lt (mp.bytesAt addr w)
      rw [hlen] at this
      simpa using this
    · have := bigEndianValue_lt (mp.bytesAt addr w)
      rw [hlen] at this
      simpa using this
  · rw [read_error mp addr w isBigEndian hc] at h
    cases h

/-- Distinct positions of a function hold instructions of distinct identity. -/
theorem nodup_pos (l : List Instruction) (hnodup : (l.map fun ins => ins.id).Nodup)
    (i j : Nat) (a b : Instruction) (hi : l[i]? = some a) (hj : l[j]? = some b)
    (hid : a.id = b.id) : i = j := by
  have hi' : (l.map fun ins => ins.id)[i]? = some a.id := by simp [List.getElem?_map, hi]
  have hj' : (l.map fun ins => ins.id)[j]? = some a.id := by simp [List.getElem?_map, hj, hid]
  obtain ⟨hil, hie⟩ := List.getElem?_eq_some_iff.1 hi'
  obtain ⟨hjl, hje⟩ := List.getElem?_eq_some_iff.1 hj'
  exact (List.Nodup.getElem_inj_iff hnodup).1 (hie.trans hje.symm)

/-- The names of the load helpers, with the width in bytes of what they load. -/
theorem valueType_helper (name : String) (w : Nat)
    (h : (name, w) ∈ [("__ldb_mmu", 1), ("__lds_mmu", 2), ("__ldl_mmu", 4)]) :
    valueType name = some (8 * w) ∧ (8 * w / 8) % 256 = w ∧ 1 ≤ w ∧ w ≤ 8 := by
  simp only [List.mem_cons, Prod.mk.injEq, List.mem_singleton, List.not_mem_nil, or_false] at h
  rcases h with ⟨rfl, rfl⟩ | ⟨rfl, rfl⟩ | ⟨rfl, rfl⟩ <;> exact ⟨by decide, by decide, by decide, by decide⟩

/-- The first loop on a load-helper call with a constant address that some
pool holds: after the iteration of the call, the call is on `eraseIns` and its
result is rewritten to the constant read from that pool. -/
theorem scan_resolved (self : ReplaceConstantLoads) (F : Function) (k : Nat)
    (callInst : Instruction) (name : String) (bitWidth ty addr : Nat) (mp : MemoryPool)
    (hnodup : (F.instructions.map fun ins => ins.id).Nodup)
    (hk : F.instructions[k]? = some callInst)
    (hop : callInst.opcode = .call (some name))
    (hargs : callInst.operands.length = 2)
    (haddr : callInst.operands[0]? = some (.constantInt ty addr))
    (hname : valueType name = some bitWidth)
    (hfind : findPool self.m_memoryPools addr = some mp)
    (n : Nat) (st : Function × List Nat)
    (hscan : (List.range n).foldlM (replaceLoadStep self) (F, []) = .ok st) :
    ∃ h, st.1.instructions = F.instructions.map (Instruction.mapOperands h) ∧
      ScanInv st.2 h ∧
      (n ≤ k → h (.instruction callInst.id) = .instruction callInst.id) ∧
      (k < n → callInst.id ∈ st.2 ∧
        ∃ value, mp.read addr ((bitWidth / 8) % 256) self.IsBigEndian = .ok value ∧
          h (.instruction callInst.id) = ConstantInt.get bitWidth value) := by
  refine scan_induct self F (fun n st =>
    ∃ h, st.1.instructions = F.instructions.map (Instruction.mapOperands h) ∧
      ScanInv st.2 h ∧
      (n ≤ k → h (.instruction callInst.id) = .instruction callInst.id) ∧
      (k < n → callInst.id ∈ st.2 ∧
        ∃ value, mp.read addr ((bitWidth / 8) % 256) self.IsBigEndian = .ok value ∧
          h (.instruction callInst.id) = ConstantInt.get bitWidth value)) ?_ ?_ n st hscan
  · refine ⟨id, ?_, ScanInv.init, fun _ => rfl, fun hlt => by omega⟩
    show F.instructions = F.instructions.map (Instruction.mapOperands id)
    rw [show Instruction.mapOperands id = id from funext mapOperands_id, List.map_id]
  · rintro m st st' ⟨h, hinst, hinv, hle, hgt⟩ hs
    -- the decision of the loop at position `k`
    have hcall : resolveLoad self (Instruction.mapOperands h callInst) =
        match mp.read addr ((bitWidth / 8) % 256) self.IsBigEndian with
        | .error e => .error e
        | .ok value => .ok (some (ConstantInt.get bitWidth value)) := by
      rw [resolveLoad_call self (Instruction.mapOperands h callInst) name ty addr bitWidth
        (show (Instruction.mapOperands h callInst).opcode = _ from hop)
        (by simpa [Instruction.mapOperands] using hargs)
        (by rw [mapOperands_getElem?, haddr]; simp [hinv.constantInt]) hname,
        getMemoryValueOfType_eq, hfind]
    rcases scan_state self F m st st' h hinst hinv hs with ⟨rfl, hnone⟩ | ⟨ins, b, v, hm, hr, hinst', hE, hinv'⟩
    · have hmk : m ≠ k := by
        rintro rfl
        have := hnone (Instruction.mapOperands h callInst) (by rw [hinst, List.getElem?_map, hk]; rfl)
        rw [hcall] at this
        cases hread : mp.read addr ((bitWidth / 8) % 256) self.IsBigEndian with
        | error e => rw [hread] at this; cases this
        | ok value => rw [hread] at this; cases this
      exact ⟨h, hinst, hinv, fun hle' => hle (by omega), fun hlt => hgt (by omega)⟩
    · refine ⟨_, hinst', hinv', ?_, ?_⟩
      · intro hle'
        have hne : ins.id ≠ callInst.id := by
          intro hid
          have := nodup_pos _ hnodup m k ins callInst hm hk hid
          omega
        simp only [Function.comp, hle (by omega), substValue]
        rw [if_neg (fun e => hne (Value.instruction.inj e).symm)]
      · intro hlt
        by_cases hmk : m = k
        · subst hmk
          rw [hk] at hm
          obtain rfl := Option.some.inj hm
          rw [hcall] at hr
          cases hread : mp.read addr ((bitWidth / 8) % 256) self.IsBigEndian with
          | error e => rw [hread] at hr; cases hr
          | ok value =>
            rw [hread] at hr
            simp only [Except.ok.injEq, Option.some.injEq] at hr
            refine ⟨by rw [hE]; simp, value, rfl, ?_⟩
            simp only [Function.comp, hle le_rfl, substValue, if_true, hr]
        · obtain ⟨hmem, value, hread, hv⟩ := hgt (by omega)
          refine ⟨by rw [hE]; simp [hmem], value, hread, ?_⟩
          simp only [Function.comp, hv, substValue, ConstantInt.get]
          rw [if_neg (by intro e; cases e)]

/-- C1. For a call with exactly two arguments, a constant first argument and a
callee named `__ldb_mmu`, `__lds_mmu` or `__ldl_mmu`, if the read of width 1, 2
or 4 bytes at that address lies within a region, then after `runOnFunction`
the call is no longer in the function and every use of its result is the
integer constant of that width whose value is the bytes read from the image
(the region that the lookup finds for the address) in the configured byte
order. The iteration of the first loop at the call returns that constant when
the region found holds the whole read. -/
theorem load_replaced (self : ReplaceConstantLoads) (F : Function) (k : Nat)
    (callInst : Instruction) (name : String) (w ty addr : Nat)
    (hnodup : (F.instructions.map fun ins => ins.id).Nodup)
    (hpools : ∀ mp ∈ self.m_memoryPools, mp.WF)
    (hk : F.instructions[k]? = some callInst)
    (hop : callInst.opcode = .call (some name))
    (hargs : callInst.operands.length = 2)
    (haddr : callInst.operands[0]? = some (.constantInt ty addr))
    (hname : (name, w) ∈ [("__ldb_mmu", 1), ("__lds_mmu", 2), ("__ldl_mmu", 4)])
    (hregion : ∃ mp ∈ self.m_memoryPools,
      mp.inside addr = true ∧ mp.inside (addr + w - 1) = true) :
    ∃ mp value, findPool self.m_memoryPools addr = some mp ∧
      value = (if self.IsBigEndian then bigEndianValue (mp.bytesAt addr w)
        else littleEndianValue (mp.bytesAt addr w)) ∧
      (mp.inside (addr + w - 1) = true →
        resolveLoad self callInst = .ok (some (Value.constantInt (8 * w) value))) ∧
      ∀ R, runOnFunction self F = .ok R →
        (∀ ins' ∈ R.F.instructions, ins'.id ≠ callInst.id) ∧
        (∀ ins' ∈ R.F.instructions, ∃ ins ∈ F.instructions,
          ins'.id = ins.id ∧ ins'.opcode = ins.opcode ∧
          ins'.operands.length = ins.operands.length ∧
          ∀ j : Nat, ins.operands[j]? = some (Value.instruction callInst.id) →
            ins'.operands[j]? = some (Value.constantInt (8 * w) value)) := by
  obtain ⟨hname', hw, h1, h8⟩ := valueType_helper name w hname
  -- the lookup finds a pool
  obtain ⟨mp, hfind⟩ : ∃ mp, findPool self.m_memoryPools addr = some mp := by
    cases hf : findPool self.m_memoryPools addr with
    | some mp => exact ⟨mp, rfl⟩
    | none =>
      obtain ⟨mp0, hmem, hin, _⟩ := hregion
      rw [findPool_eq_none] at hf
      simp only [MemoryPool.inside, Bool.and_eq_true, decide_eq_true_eq, ge_iff_le] at hin
      exact absurd ⟨mp0, hmem, hin⟩ hf
  obtain ⟨hmp, hin⟩ := findPool_some _ _ _ hfind
  have hwf := hpools mp hmp
  -- a read of the pool that returns gives the constant of the claim
  have hconst : ∀ value, mp.read addr w self.IsBigEndian = .ok value →
      value = (if self.IsBigEndian then bigEndianValue (mp.bytesAt addr w)
        else littleEndianValue (mp.bytesAt addr w)) ∧
      ConstantInt.get (8 * w) value = .constantInt (8 * w) value := by
    intro value hread
    obtain ⟨hval, hlt⟩ := read_ok_inv mp addr w value self.IsBigEndian hwf hread
    have e : (256 : Nat) ^ w = 2 ^ (8 * w) := by
      rw [show (256 : Nat) = 2 ^ 8 by norm_num, ← pow_mul]
    rw [e] at hlt
    exact ⟨hval, by simp only [ConstantInt.get, Nat.mod_eq_of_lt hlt]⟩
  refine ⟨mp, _, hfind, rfl, ?_, ?_⟩
  · intro hlast
    have hlast' : mp.inside (wrap64 (addr + w - 1)) = true := by
      have e : wrap64 ((addr : Int) + (w : Int) - 1) = addr + w - 1 := by
        obtain ⟨hs, hl, he⟩ := hwf
        simp only [MemoryPool.inside, Bool.and_eq_true, decide_eq_true_eq, ge_iff_le] at hlast
        rw [he] at hlast
        unfold wrap64 at hlast ⊢
        omega
      rw [e]; exact hlast
    have hread := read_ok mp addr w self.IsBigEndian hwf h1 h8 hin hlast'
    rw [resolveLoad_call self callInst name ty addr (8 * w) hop hargs haddr hname',
      getMemoryValueOfType_eq, hfind]
    simp only [hw, hread, (hconst _ hread).2]
  · intro R hrun
    obtain ⟨F1, eraseIns, F2, hscan, hann, hF, _, _⟩ := runOnFunction_ok self F R hrun
    have hklt : k < F.instructions.length := (List.getElem?_eq_some_iff.1 hk).1
    obtain ⟨h, hinst, hinv, _, hgt⟩ := scan_resolved self F k callInst name (8 * w) ty addr mp
      hnodup hk hop hargs haddr hname' hfind _ _ hscan
    obtain ⟨hmem, value, hread, hv⟩ := hgt hklt
    rw [hw] at hread
    obtain ⟨hval, hc⟩ := hconst value hread
    rw [hc, hval] at hv
    obtain ⟨hsurv, _⟩ := runOnFunction_instructions self F F1 F2 eraseIns h hinst hann
    rw [hF]
    refine ⟨?_, ?_⟩
    · intro ins' hm hid
      exact (hsurv ins' hm).1 (hid ▸ hmem)
    · intro ins' hm
      obtain ⟨_, ins, hm0, _, e1, e2, e3⟩ := hsurv ins' hm
      refine ⟨ins, hm0, e1, e2, by rw [e3, List.length_map], ?_⟩
      intro j hj
      rw [e3, List.getElem?_map, hj]
      simp [hv]

/-- The first loop on a load-helper call with a constant address that no pool
holds: the call is never pushed on `eraseIns`. -/
theorem scan_unresolved (self : ReplaceConstantLoads) (F : Function) (k : Nat)
    (callInst : Instruction) (name : String) (bitWidth ty addr : Nat)
    (hnodup : (F.instructions.map fun ins => ins.id).Nodup)
    (hk : F.instructions[k]? = some callInst)
    (hop : callInst.opcode = .call (some name))
    (hargs : callInst.operands.length = 2)
    (haddr : callInst.operands[0]? = some (.constantInt ty addr))
    (hname : valueType name = some bitWidth)
    (hfind : findPool self.m_memoryPools addr = none)
    (n : Nat) (st : Function × List Nat)
    (hscan : (List.range n).foldlM (replaceLoadStep self) (F, []) = .ok st) :
    ∃ h, st.1.instructions = F.instructions.map (Instruction.mapOperands h) ∧
      ScanInv st.2 h ∧ callInst.id ∉ st.2 := by
  refine scan_induct self F (fun _ st =>
    ∃ h, st.1.instructions = F.instructions.map (Instruction.mapOperands h) ∧
      ScanInv st.2 h ∧ callInst.id ∉ st.2) ?_ ?_ n st hscan
  · refine ⟨id, ?_, ScanInv.init, by simp⟩
    show F.instructions = F.instructions.map (Instruction.mapOperands id)
    rw [show Instruction.mapOperands id = id from funext mapOperands_id, List.map_id]
  · rintro m st st' ⟨h, hinst, hinv, hnot⟩ hs
    rcases scan_state self F m st st' h hinst hinv hs with
      ⟨rfl, _⟩ | ⟨ins, b, v, hm, hr, hinst', hE, hinv'⟩
    · exact ⟨h, hinst, hinv, hnot⟩
    · refine ⟨_, hinst', hinv', ?_⟩
      rw [hE]
      simp only [List.mem_append, List.mem_singleton, not_or]
      refine ⟨hnot, ?_⟩
      intro hid
      have hmk := nodup_pos _ hnodup m k ins callInst hm hk hid.symm
      subst hmk
      rw [hk] at hm
      obtain rfl := Option.some.inj hm
      rw [resolveLoad_call self (Instruction.mapOperands h callInst) name ty addr bitWidth
        (show (Instruction.mapOperands h callInst).opcode = _ from hop)
        (by simpa [Instruction.mapOperands] using hargs)
        (by rw [mapOperands_getElem?, haddr]; simp [hinv.constantInt]) hname,
        getMemoryValueOfType_eq, hfind] at hr
      cases hr

/-- C2. A load-helper call (two arguments, constant address, recognised callee
name) whose address lies outside all regions is left in the function by
`runOnFunction`, none of its uses is replaced, and it is not counted among the
erased instructions; the iteration of the first loop at the call goes on to
the next instruction. -/
theorem load_unresolved (self : ReplaceConstantLoads) (F : Function) (k : Nat)
    (callInst : Instruction) (name : String) (w ty addr : Nat)
    (hnodup : (F.instructions.map fun ins => ins.id).Nodup)
    (hk : F.instructions[k]? = some callInst)
    (hop : callInst.opcode = .call (some name))
    (hargs : callInst.operands.length = 2)
    (haddr : callInst.operands[0]? = some (.constantInt ty addr))
    (hname : (name, w) ∈ [("__ldb_mmu", 1), ("__lds_mmu", 2), ("__ldl_mmu", 4)])
    (houtside : ∀ mp ∈ self.m_memoryPools, ¬ (mp.mp_start ≤ addr ∧ addr < mp.mp_end)) :
    resolveLoad self callInst = .ok none ∧
    ∀ R, runOnFunction self F = .ok R →
      (∃ F1 eraseIns, replaceLoadMmu self F = .ok (F1, eraseIns) ∧
        R.erased = eraseIns.length ∧ callInst.id ∉ eraseIns) ∧
      (∃ ins' ∈ R.F.instructions, ins'.id = callInst.id ∧ ins'.opcode = callInst.opcode ∧
        ins'.operands.length = 2 ∧
        (ins'.operands[0]? : Option Value) = some (Value.constantInt ty addr)) ∧
      (∀ ins' ∈ R.F.instructions, ∃ ins ∈ F.instructions,
        ins'.id = ins.id ∧ ins'.opcode = ins.opcode ∧
        ins'.operands.length = ins.operands.length ∧
        ∀ j : Nat, ins.operands[j]? = some (Value.instruction callInst.id) →
          ins'.operands[j]? = some (Value.instruction callInst.id)) := by
  obtain ⟨hname', _, _, _⟩ := valueType_helper name w hname
  have hfind : findPool self.m_memoryPools addr = none := by
    rw [findPool_eq_none]
    rintro ⟨mp, hmem, hin⟩
    exact houtside mp hmem hin
  constructor
  · rw [resolveLoad_call self callInst name ty addr (8 * w) hop hargs haddr hname',
      getMemoryValueOfType_eq, hfind]
  intro R hrun
  obtain ⟨F1, eraseIns, F2, hscan, hann, hF, herased, _⟩ := runOnFunction_ok self F R hrun
  obtain ⟨h, hinst, hinv, hnot⟩ := scan_unresolved self F k callInst name (8 * w) ty addr
    hnodup hk hop hargs haddr hname' hfind _ _ hscan
  have hv : h (.instruction callInst.id) = .instruction callInst.id := by
    rcases hinv.2 callInst.id with hv | ⟨hmem, _⟩
    · exact hv
    · exact absurd hmem hnot
  obtain ⟨hsurv, hkept⟩ := runOnFunction_instructions self F F1 F2 eraseIns h hinst hann
  rw [hF]
  refine ⟨⟨F1, eraseIns, hscan, herased, hnot⟩, ?_, ?_⟩
  · obtain ⟨ins', hm, _, e1, e2, e3⟩ := hkept callInst (List.getElem?_mem hk) hnot
    refine ⟨ins', hm, e1, e2, by rw [e3, List.length_map, hargs], ?_⟩
    rw [e3, List.getElem?_map, haddr]
    simp [hinv.constantInt]
  · intro ins' hm
    obtain ⟨_, ins, hm0, _, e1, e2, e3⟩ := hsurv ins' hm
    refine ⟨ins, hm0, e1, e2, by rw [e3, List.length_map], ?_⟩
    intro j hj
    rw [e3, List.getElem?_map, hj]
    simp [hv]

/-- The state of the first loop after any number of iterations. -/
theorem scan_base (self : ReplaceConstantLoads) (F : Function) (n : Nat)
    (st : Function × List Nat)
    (hscan : (List.range n).foldlM (replaceLoadStep self) (F, []) = .ok st) :
    ∃ h, st.1.instructions = F.instructions.map (Instruction.mapOperands h) ∧
      ScanInv st.2 h := by
  refine scan_induct self F (fun _ st =>
    ∃ h, st.1.instructions = F.instructions.map (Instruction.mapOperands h) ∧
      ScanInv st.2 h) ?_ ?_ n st hscan
  · refine ⟨id, ?_, ScanInv.init⟩
    show F.instructions = F.instructions.map (Instruction.mapOperands id)
    rw [show Instruction.mapOperands id = id from funext mapOperands_id, List.map_id]
  · rintro m st st' ⟨h, hinst, hinv⟩ hs
    rcases scan_state self F m st st' h hinst hinv hs with
      ⟨rfl, _⟩ | ⟨ins, b, v, hm, hr, hinst', hE, hinv'⟩
    · exact ⟨h, hinst, hinv⟩
    · exact ⟨_, hinst', hinv'⟩

/-- The first loop does not return when it meets a load-helper call with a
constant address whose read fails. -/
theorem scan_read_error (self : ReplaceConstantLoads) (F : Function) (k : Nat)
    (callInst : Instruction) (name : String) (bitWidth ty addr : Nat) (mp : MemoryPool)
    (e : Abort)
    (hk : F.instructions[k]? = some callInst)
    (hop : callInst.opcode = .call (some name))
    (hargs : callInst.operands.length = 2)
    (haddr : callInst.operands[0]? = some (.constantInt ty addr))
    (hname : valueType name = some bitWidth)
    (hfind : findPool self.m_memoryPools addr = some mp)
    (hread : mp.read addr ((bitWidth / 8) % 256) self.IsBigEndian = .error e) :
    ∃ e', replaceLoadMmu self F = .error e' := by
  have hklt : k < F.instructions.length := (List.getElem?_eq_some_iff.1 hk).1
  refine foldlM_range_error (replaceLoadStep self) (F, []) k _ hklt ?_
  intro st hst
  obtain ⟨h, hinst, hinv⟩ := scan_base self F k st hst
  refine ⟨e, ?_⟩
  have hpos : st.1.instructions[k]? = some (Instruction.mapOperands h callInst) := by
    rw [hinst, List.getElem?_map, hk]; rfl
  have hcall : resolveLoad self (Instruction.mapOperands h callInst) = .error e := by
    rw [resolveLoad_call self (Instruction.mapOperands h callInst) name ty addr bitWidth
      (show (Instruction.mapOperands h callInst).opcode = _ from hop)
      (by simpa [Instruction.mapOperands] using hargs)
      (by rw [mapOperands_getElem?, haddr]; simp [hinv.constantInt]) hname,
      getMemoryValueOfType_eq, hfind]
    simp only [hread]
  simp only [replaceLoadStep, hpos, hcall]

/-- C1 on `exFunction`: the load of `0x1000` is resolved to the 32-bit
constant `0x12345678`; after the run it is gone and its two uses are that
constant. -/
theorem load_replaced_witness :
    runOnFunction exPass exFunction = .ok exResult ∧
    resolveLoad exPass exLoad = .ok (some (Value.constantInt 32 0x12345678)) ∧
    (∀ ins' ∈ exResult.F.instructions, ins'.id ≠ exLoad.id) ∧
    (∀ ins' ∈ exResult.F.instructions, ∃ ins ∈ exFunction.instructions,
      ins'.id = ins.id ∧ ins'.opcode = ins.opcode ∧
      ins'.operands.length = ins.operands.length ∧
      ∀ j : Nat, ins.operands[j]? = some (Value.instruction exLoad.id) →
        ins'.operands[j]? = some (Value.constantInt 32 0x12345678)) := by
  obtain ⟨mp, value, hfind, hval, hlocal, hpost⟩ :=
    load_replaced exPass exFunction 0 exLoad "__ldl_mmu" 4 32 0x1000
      (by decide) (by decide) rfl rfl rfl rfl (by decide)
      ⟨exPool, by decide, by decide, by decide⟩
  have hmp : mp = exPool := by
    have : findPool exPass.m_memoryPools 0x1000 = some exPool := by decide
    rw [this] at hfind
    exact (Option.some.inj hfind).symm
  subst hmp
  have hv : value = 0x12345678 := hval.trans (by decide)
  subst hv
  have hrun : runOnFunction exPass exFunction = .ok exResult := by decide
  exact ⟨hrun, hlocal (by decide), (hpost exResult hrun).1, (hpost exResult hrun).2⟩

/-- C2 on `exFunction`: the load of `0x2000` stays, with its use. -/
theorem load_unresolved_witness :
    resolveLoad exPass exUnmapped = .ok none ∧
    runOnFunction exPass exFunction = .ok exResult ∧
    (∃ F1 eraseIns, replaceLoadMmu exPass exFunction = .ok (F1, eraseIns) ∧
      exResult.erased = eraseIns.length ∧ exUnmapped.id ∉ eraseIns) ∧
    (∃ ins' ∈ exResult.F.instructions, ins'.id = exUnmapped.id ∧
      ins'.opcode = exUnmapped.opcode ∧ ins'.operands.length = 2 ∧
      (ins'.operands[0]? : Option Value) = some (Value.constantInt 32 0x2000)) ∧
    (∀ ins' ∈ exResult.F.instructions, ∃ ins ∈ exFunction.instructions,
      ins'.id = ins.id ∧ ins'.opcode = ins.opcode ∧
      ins'.operands.length = ins.operands.length ∧
      ∀ j : Nat, ins.operands[j]? = some (Value.instruction exUnmapped.id) →
        ins'.operands[j]? = some (Value.instruction exUnmapped.id)) :=
  have h := load_unresolved exPass exFunction 2 exUnmapped "__lds_mmu" 2 32 0x2000
    (by decide) rfl rfl rfl rfl (by decide) (by decide)
  have hrun : runOnFunction exPass exFunction = .ok exResult := by decide
  ⟨h.1, hrun, h.2 exResult hrun⟩

/-- C8, as stated, fails: on `exStraddleFunction` the load of `0x1004` starts
inside `exPool` and ends outside of it, and `runOnFunction` does not return;
the assertion `inside(addr+byteCnt-1)` of `read` stops the run. -/
theorem load_straddling_counterexample :
    runOnFunction exPass exStraddleFunction = .error .assertFailed ∧
    ¬ ∃ R, runOnFunction exPass exStraddleFunction = .ok R := by
  have h : runOnFunction exPass exStraddleFunction = .error .assertFailed := by decide
  refine ⟨h, ?_⟩
  rintro ⟨R, hR⟩
  rw [h] at hR
  cases hR

/-- C8, amended. For a load-helper call with a constant address that lies
inside a region (the one that the lookup finds) but whose last byte
`address + width - 1` does not lie inside that region, `runOnFunction` does
not return: the bounds assertion of `read` stops the run. -/
theorem load_straddling_aborts (self : ReplaceConstantLoads) (F : Function) (k : Nat)
    (callInst : Instruction) (name : String) (w ty addr : Nat) (mp : MemoryPool)
    (hk : F.instructions[k]? = some callInst)
    (hop : callInst.opcode = .call (some name))
    (hargs : callInst.operands.length = 2)
    (haddr : callInst.operands[0]? = some (.constantInt ty addr))
    (hname : (name, w) ∈ [("__ldb_mmu", 1), ("__lds_mmu", 2), ("__ldl_mmu", 4)])
    (hfind : findPool self.m_memoryPools addr = some mp)
    (hlast : mp.inside (wrap64 (addr + w - 1)) = false) :
    (∃ e, runOnFunction self F = .error e) ∧ (∃ e, resolveConstantLoads self F = .error e) := by
  obtain ⟨hname', hw, _, _⟩ := valueType_helper name w hname
  have hread : mp.read addr ((8 * w / 8) % 256) self.IsBigEndian = .error .assertFailed := by
    rw [hw]
    refine read_error mp addr w _ ?_
    rintro ⟨_, _, _, h⟩
    rw [hlast] at h
    cases h
  obtain ⟨e, he⟩ := scan_read_error self F k callInst name (8 * w) ty addr mp _ hk hop hargs
    haddr hname' hfind hread
  exact ⟨⟨e, by simp only [runOnFunction, he]⟩, ⟨e, by simp only [resolveConstantLoads, he]⟩⟩

/-- C8, amended, on `exStraddleFunction`. -/
theorem load_straddling_aborts_witness :
    (∃ e, runOnFunction exPass exStraddleFunction = .error e) ∧
    (∃ e, resolveConstantLoads exPass exStraddleFunction = .error e) :=
  load_straddling_aborts exPass exStraddleFunction 0 exStraddle "__ldl_mmu" 4 32 0x1004 exPool
    rfl rfl rfl rfl (by decide) (by decide) (by decide)

/-! ## Running the resolver twice -/

theorem addressesInOrder_spec (l : List Instruction) (h : addressesInOrder l = true) :
    ∀ (p q : Nat) (a b : Instruction), p ≤ q → l[p]? = some a → l[q]? = some b →
      isCall2 a = true →
      isCall2 b = true → (a.operands[0]? : Option Value) ≠ some (Value.instruction b.id) := by
  induction l with
  | nil => intro p q a b _ ha; simp at ha
  | cons x rest ih =>
    simp only [addressesInOrder, Bool.and_eq_true, Bool.or_eq_true, Bool.not_eq_true',
      List.all_eq_true, decide_eq_true_eq] at h
    obtain ⟨hx, hrest⟩ := h
    intro p q a b hpq ha hb hca hcb
    cases p with
    | zero =>
      simp only [List.getElem?_cons_zero, Option.some.injEq] at ha
      subst ha
      rcases hx with hx | hx
      · rw [hx] at hca; cases hca
      · rcases hx b (List.getElem?_mem hb) with hx | hx
        · rw [hx] at hcb; cases hcb
        · exact hx
    | succ p =>
      cases q with
      | zero => omega
      | succ q =>
        simp only [List.getElem?_cons_succ] at ha hb
        exact ih hrest p q a b (by omega) ha hb hca hcb

/-- Only two-argument calls are resolved. -/
theorem resolveLoad_isCall2 (self : ReplaceConstantLoads) (ins : Instruction)
    (h : resolveLoad self ins ≠ .ok none) : isCall2 ins = true := by
  unfold resolveLoad at h
  unfold isCall2
  split at h
  · by_cases hl : ins.operands.length = 2
    · simp [hl]
    · simp [hl] at h
  · exact absurd rfl h

theorem isCall2_mapOperands (h : Value → Value) (ins : Instruction) :
    isCall2 (Instruction.mapOperands h ins) = isCall2 ins := by
  simp [isCall2, Instruction.mapOperands]

/-- The first loop under the layout condition: an instruction that has been
visited and was not pushed on `eraseIns` is one on which the loop goes on
without effect, also in its present form. -/
theorem scan_settled (self : ReplaceConstantLoads) (F : Function)
    (horder : addressesInOrder F.instructions = true)
    (n : Nat) (st : Function × List Nat)
    (hscan : (List.range n).foldlM (replaceLoadStep self) (F, []) = .ok st) :
    ∃ h, st.1.instructions = F.instructions.map (Instruction.mapOperands h) ∧
      ScanInv st.2 h ∧
      ∀ p, p < n → ∀ ins, st.1.instructions[p]? = some ins →
        ins.id ∈ st.2 ∨ resolveLoad self ins = .ok none := by
  refine scan_induct self F (fun n st =>
    ∃ h, st.1.instructions = F.instructions.map (Instruction.mapOperands h) ∧
      ScanInv st.2 h ∧
      ∀ p, p < n → ∀ ins, st.1.instructions[p]? = some ins →
        ins.id ∈ st.2 ∨ resolveLoad self ins = .ok none) ?_ ?_ n st hscan
  · refine ⟨id, ?_, ScanInv.init, fun p hp => by omega⟩
    show F.instructions = F.instructions.map (Instruction.mapOperands id)
    rw [show Instruction.mapOperands id = id from funext mapOperands_id, List.map_id]
  · rintro m st st' ⟨h, hinst, hinv, hdone⟩ hs
    rcases scan_state self F m st st' h hinst hinv hs with
      ⟨rfl, hnone⟩ | ⟨am, b, v, hm, hr, hinst', hE, hinv'⟩
    · refine ⟨h, hinst, hinv, ?_⟩
      intro p hp ins hins
      by_cases hpm : p = m
      · subst hpm; exact Or.inr (hnone ins hins)
      · exact hdone p (by omega) ins hins
    · refine ⟨_, hinst', hinv', ?_⟩
      intro p hp ins' hins'
      rw [hinst', List.getElem?_map] at hins'
      cases hap : F.instructions[p]? with
      | none => rw [hap] at hins'; cases hins'
      | some ap =>
        rw [hap] at hins'
        simp only [Option.map_some', Option.some.injEq] at hins'
        subst hins'
        by_cases hpm : p = m
        · subst hpm
          rw [hm] at hap
          obtain rfl := Option.some.inj hap
          left
          rw [hE]
          simp [Instruction.mapOperands]
        · have hold : st.1.instructions[p]? = some (Instruction.mapOperands h ap) := by
            rw [hinst, List.getElem?_map, hap]; rfl
          rcases hdone p (by omega) _ hold with hmem | hres
          · left
            rw [hE]
            exact List.mem_append_left _ hmem
          · right
            by_cases hcall : isCall2 ap = true
            · rw [← hres]
              refine resolveLoad_congr self _ _ rfl (by simp [Instruction.mapOperands]) ?_
              rw [mapOperands_getElem?, mapOperands_getElem?]
              cases ho : ap.operands[0]? with
              | none => rfl
              | some o =>
                simp only [Option.map_some', Function.comp, Option.some.injEq, substValue]
                refine if_neg ?_
                intro heq
                have ho' := hinv.eq_instruction o am.id heq
                have ham : isCall2 am = true := by
                  rw [← isCall2_mapOperands h am]
                  exact resolveLoad_isCall2 self _ (by rw [hr]; intro e; cases e)
                exact addressesInOrder_spec _ horder p m ap am (by omega) hap hm hcall ham
                  (by rw [ho, ho'])
            · by_contra hne
              have := resolveLoad_isCall2 self _ hne
              rw [isCall2_mapOperands] at this
              exact hcall this

/-- The first loop on a function in which it goes on without effect at every
instruction: nothing is rewritten and `eraseIns` stays empty. -/
theorem scan_noop (self : ReplaceConstantLoads) (G : Function)
    (hnone : ∀ ins ∈ G.instructions, resolveLoad self ins = .ok none) :
    replaceLoadMmu self G = .ok (G, []) := by
  obtain ⟨st, hst, rfl⟩ := foldlM_range_total (replaceLoadStep self) (G, [])
    (fun _ st => st = (G, [])) rfl G.instructions.length
    (by
      rintro k st _ rfl
      refine ⟨(G, []), ?_, rfl⟩
      unfold replaceLoadStep
      cases hk : G.instructions[k]? with
      | none => rfl
      | some ins => simp only [hk, hnone ins (List.getElem?_mem hk)])
    G.instructions.length le_rfl
  exact hst

/-- C7, as stated, fails: on `exPointerFunction` the first run resolves the
load of the pointer in `bb2` and leaves the load through it in `bb1`, which
was visited before its address became a constant; the second run resolves
that one too. -/
theorem resolver_idempotent_counterexample :
    Except.bind (resolveConstantLoads exPointerPass exPointerFunction)
        (resolveConstantLoads exPointerPass)
      ≠ resolveConstantLoads exPointerPass exPointerFunction := by
  decide

/-- C7, amended. For every image and every function in which no two-argument
call takes as its first argument its own result or the result of a
two-argument call that comes after it in layout order, running the resolver
twice leaves the same instruction stream as running it once (and does not
return if the first run does not). -/
theorem resolver_idempotent (self : ReplaceConstantLoads) (F : Function)
    (horder : addressesInOrder F.instructions = true) :
    Except.bind (resolveConstantLoads self F) (resolveConstantLoads self)
      = resolveConstantLoads self F := by
  unfold resolveConstantLoads
  cases hscan : replaceLoadMmu self F with
  | error e => rfl
  | ok st =>
    obtain ⟨F1, eraseIns⟩ := st
    simp only [Except.bind]
    obtain ⟨h, hinst, hinv, hdone⟩ := scan_settled self F horder _ _ hscan
    have hlen : F1.instructions.length = F.instructions.length := by
      have := congrArg List.length hinst
      simpa using this
    have hnone : ∀ ins ∈ (eraseAll F1 eraseIns).instructions,
        resolveLoad self ins = .ok none := by
      intro ins hmem
      rw [instructions_eraseAll, List.mem_filter] at hmem
      obtain ⟨hm, hid⟩ := hmem
      obtain ⟨p, hp, hget⟩ := List.getElem_of_mem hm
      have hget' : F1.instructions[p]? = some ins := by
        rw [List.getElem?_eq_getElem hp, hget]
      rcases hdone p (by omega) ins hget' with hE | hres
      · simp only [decide_eq_true_eq] at hid
        exact absurd hE hid
      · exact hres
    rw [scan_noop self _ hnone]
    rfl

/-- C7, amended, on `exOrderedFunction`: the blocks of the counterexample in
the order of execution; one run resolves both loads. -/
theorem resolver_idempotent_witness :
    addressesInOrder exOrderedFunction.instructions = true ∧
    Except.bind (resolveConstantLoads exPointerPass exOrderedFunction)
        (resolveConstantLoads exPointerPass)
      = resolveConstantLoads exPointerPass exOrderedFunction :=
  ⟨by decide, resolver_idempotent exPointerPass exOrderedFunction (by decide)⟩

/-! ## Annotation names -/

theorem digitChar_value (d : Nat) (h : d < 10) : (Nat.digitChar d).toNat - 48 = d := by
  interval_cases d <;> rfl

theorem decode_toDigitsCore (fuel : Nat) :
    ∀ (n : Nat) (ds : List Char), n < fuel →
      (Nat.toDigitsCore 10 fuel n ds).foldl (fun acc c => 10 * acc + (c.toNat - 48)) 0 =
        ds.foldl (fun acc c => 10 * acc + (c.toNat - 48)) n := by
  induction fuel with
  | zero => intro n ds h; omega
  | succ fuel ih =>
    intro n ds h
    unfold Nat.toDigitsCore
    simp only
    by_cases h0 : n / 10 = 0
    · simp only [h0, if_true, List.foldl_cons, digitChar_value (n % 10) (Nat.mod_lt _ (by norm_num))]
      congr 1
      omega
    · simp only [h0, if_false]
      rw [ih (n / 10) _ (by omega)]
      simp only [List.foldl_cons, digitChar_value (n % 10) (Nat.mod_lt _ (by norm_num))]
      congr 1
      omega

theorem decodeDigits_toString (n : Nat) : decodeDigits (toString n).data = n := by
  show decodeDigits (Nat.toDigits 10 n).asString.data = n
  simp only [List.asString, decodeDigits, Nat.toDigits]
  rw [decode_toDigitsCore (n + 1) n [] (by omega)]
  rfl

theorem caseKey_injective (i j : Nat) (h : caseKey i = caseKey j) : i = j := by
  have hd := congrArg String.data h
  simp only [caseKey, String.data_append] at hd
  have hs := List.append_cancel_left hd
  rw [← decodeDigits_toString i, ← decodeDigits_toString j, hs]

/-- A name that differs from `INS_switch_case` in one of the first fifteen
characters is not the name of a table entry. -/
theorem caseKey_ne (i : Nat) (key : String) (k : Nat) (hk : k < 15)
    (hne : (key.data[k]? : Option Char) ≠ "INS_switch_case".data[k]?) : caseKey i ≠ key := by
  intro h
  apply hne
  rw [← h]
  simp only [caseKey, String.data_append]
  rw [List.getElem?_append_left (by simpa using hk)]

theorem caseKey_ne_cnt (i : Nat) : caseKey i ≠ "INS_switch_cnt" :=
  caseKey_ne i _ 12 (by decide) (by decide)

theorem caseKey_ne_default (i : Nat) : caseKey i ≠ "INS_switch_default" :=
  caseKey_ne i _ 11 (by decide) (by decide)

theorem caseKey_ne_idx_start (i : Nat) : caseKey i ≠ "INS_switch_idx_start" :=
  caseKey_ne i _ 11 (by decide) (by decide)

theorem caseKey_ne_currPC (i : Nat) : caseKey i ≠ "INS_currPC" :=
  caseKey_ne i _ 4 (by decide) (by decide)

/-! ## Metadata -/

theorem lookup_setMetadataList_same (l : List (String × Nat)) (kind : String) (node : Nat) :
    (setMetadataList l kind node).lookup kind = some node := by
  induction l with
  | nil => simp [setMetadataList, List.lookup]
  | cons x rest ih =>
    obtain ⟨k, n⟩ := x
    by_cases h : k = kind
    · simp [setMetadataList, h, List.lookup]
    · have h' : (kind == k) = false := by simpa using fun e => h e.symm
      simp [setMetadataList, h, List.lookup, h', ih]

theorem lookup_setMetadataList_ne (l : List (String × Nat)) (kind key : String) (node : Nat)
    (hne : key ≠ kind) : (setMetadataList l kind node).lookup key = l.lookup key := by
  induction l with
  | nil =>
    have h' : (key == kind) = false := by simpa using hne
    simp [setMetadataList, List.lookup, h']
  | cons x rest ih =>
    obtain ⟨k, n⟩ := x
    by_cases h : k = kind
    · subst h
      have h' : (key == k) = false := by simpa using hne
      simp [setMetadataList, List.lookup, h']
    · simp only [setMetadataList, h, if_false, List.lookup, ih]

theorem getMetadata_setMetadata_same (ins : Instruction) (kind : String) (node : Nat) :
    (ins.setMetadata kind node).getMetadata kind = some node :=
  lookup_setMetadataList_same _ _ _

theorem getMetadata_setMetadata_ne (ins : Instruction) (kind key : String) (node : Nat)
    (hne : key ≠ kind) : (ins.setMetadata kind node).getMetadata key = ins.getMetadata key :=
  lookup_setMetadataList_ne _ _ _ _ hne

/-! ## The annotation of one dispatch site -/

/-- What the annotation of a dispatch site has attached when it returns, in
the arithmetic of the source: the count is the `int` `cnt_entries`, entry `i`
is read at `base_table + mul*i` with the `int` product `mul*i`; every other
annotation of the instruction is what it was. -/
theorem annotateSite_ok_inv (self : ReplaceConstantLoads) (info : JumpTableInfo)
    (ins ins' : Instruction) (h : annotateSite self info ins = .ok ins') :
    1 ≤ wrapInt (1 + info.idx_stop - info.idx_start) ∧
    ins'.getMetadata "INS_switch_cnt"
      = some (hex (wrapInt (1 + info.idx_stop - info.idx_start))) ∧
    ins'.getMetadata "INS_switch_default" = some (hex info.default_case_pc) ∧
    ins'.getMetadata "INS_switch_idx_start" = some (hex info.idx_start) ∧
    (∀ i : Nat, (i : Int) < wrapInt (1 + info.idx_stop - info.idx_start) →
      ∃ pc, getMemoryValue self.m_memoryPools (wrap64 (info.base_table + wrapInt (4 * i))) 4
          self.IsBigEndian = .ok pc ∧
        ins'.getMetadata (caseKey i) = some (hex pc)) ∧
    (∀ key : String, key ≠ "INS_switch_cnt" → key ≠ "INS_switch_default" →
      key ≠ "INS_switch_idx_start" → (∀ i, key ≠ caseKey i) →
      ins'.getMetadata key = ins.getMetadata key) := by
  unfold annotateSite at h
  simp only at h
  split at h
  · cases h
  · rename_i hcnt
    have hinv := foldlM_range_induct (annotateCase self info) _
      (fun k s =>
        s.getMetadata "INS_switch_cnt"
          = some (hex (wrapInt (1 + info.idx_stop - info.idx_start))) ∧
        s.getMetadata "INS_switch_default" = some (hex info.default_case_pc) ∧
        s.getMetadata "INS_switch_idx_start" = some (hex info.idx_start) ∧
        (∀ i : Nat, i < k →
          ∃ pc, getMemoryValue self.m_memoryPools
              (wrap64 (info.base_table + wrapInt (4 * i))) 4 self.IsBigEndian = .ok pc ∧
            s.getMetadata (caseKey i) = some (hex pc)) ∧
        (∀ key : String, key ≠ "INS_switch_cnt" → key ≠ "INS_switch_default" →
          key ≠ "INS_switch_idx_start" → (∀ i, key ≠ caseKey i) →
          s.getMetadata key = ins.getMetadata key)) ?_ ?_ _ ins' h
    · obtain ⟨h1, h2, h3, h4, h5⟩ := hinv
      refine ⟨by omega, h1, h2, h3, ?_, h5⟩
      intro i hi
      exact h4 i (by omega)
    · refine ⟨?_, ?_, ?_, ?_, ?_⟩
      · rw [getMetadata_setMetadata_ne _ _ _ _ (by decide),
          getMetadata_setMetadata_ne _ _ _ _ (by decide), getMetadata_setMetadata_same]
      · rw [getMetadata_setMetadata_ne _ _ _ _ (by decide), getMetadata_setMetadata_same]
      · rw [getMetadata_setMetadata_same]
      · intro i hi; omega
      · intro key k1 k2 k3 _
        rw [getMetadata_setMetadata_ne _ _ _ _ k3, getMetadata_setMetadata_ne _ _ _ _ k2,
          getMetadata_setMetadata_ne _ _ _ _ k1]
    · rintro k s s' ⟨h1, h2, h3, h4, h5⟩ hk
      obtain ⟨pc, hpc, rfl⟩ := annotateCase_ok self info s s' k hk
      refine ⟨?_, ?_, ?_, ?_, ?_⟩
      · rw [getMetadata_setMetadata_ne _ _ _ _ (caseKey_ne_cnt k).symm]; exact h1
      · rw [getMetadata_setMetadata_ne _ _ _ _ (caseKey_ne_default k).symm]; exact h2
      · rw [getMetadata_setMetadata_ne _ _ _ _ (caseKey_ne_idx_start k).symm]; exact h3
      · intro i hi
        by_cases hik : i = k
        · subst hik
          exact ⟨pc, hpc, getMetadata_setMetadata_same _ _ _⟩
        · obtain ⟨pc', hpc', hm⟩ := h4 i (by omega)
          refine ⟨pc', hpc', ?_⟩
          rw [← hm]
          exact getMetadata_setMetadata_ne _ _ _ _ (fun e => hik (caseKey_injective i k e))
      · intro key k1 k2 k3 k4
        rw [← h5 key k1 k2 k3 k4]
        exact getMetadata_setMetadata_ne _ _ _ _ (k4 k)

/-- The annotation of a dispatch site returns when the count is at least one
and every entry read returns. -/
theorem annotateSite_total (self : ReplaceConstantLoads) (info : JumpTableInfo)
    (ins : Instruction) (hcnt : 1 ≤ wrapInt (1 + info.idx_stop - info.idx_start))
    (hread : ∀ i : Nat, (i : Int) < wrapInt (1 + info.idx_stop - info.idx_start) →
      ∃ pc, getMemoryValue self.m_memoryPools (wrap64 (info.base_table + wrapInt (4 * i))) 4
        self.IsBigEndian = .ok pc) :
    ∃ ins', annotateSite self info ins = .ok ins' := by
  unfold annotateSite
  simp only
  rw [if_neg (by omega)]
  obtain ⟨s, hs, _⟩ := foldlM_range_total (annotateCase self info)
    (((ins.setMetadata "INS_switch_cnt"
      (hex (wrapInt (1 + info.idx_stop - info.idx_start)))).setMetadata
      "INS_switch_default" (hex info.default_case_pc)).setMetadata
      "INS_switch_idx_start" (hex info.idx_start))
    (fun _ _ => True) trivial (wrapInt (1 + info.idx_stop - info.idx_start)).toNat
    (by
      intro k s hk _
      obtain ⟨pc, hpc⟩ := hread k (by omega)
      exact ⟨s.setMetadata (caseKey k) (hex pc), by simp only [annotateCase, hpc], trivial⟩)
    _ le_rfl
  exact ⟨s, hs⟩

/-- The annotation of a dispatch site stops the run when the count is below one. -/
theorem annotateSite_geometry (self : ReplaceConstantLoads) (info : JumpTableInfo)
    (ins : Instruction) (hcnt : wrapInt (1 + info.idx_stop - info.idx_start) < 1) :
    annotateSite self info ins = .error .assertFailed := by
  unfold annotateSite
  simp only
  rw [if_pos hcnt]

/-- The annotation of a dispatch site stops the run when the read of one of
the entries fails. -/
theorem annotateSite_read_error (self : ReplaceConstantLoads) (info : JumpTableInfo)
    (ins : Instruction) (i : Nat) (e : Abort)
    (hi : (i : Int) < wrapInt (1 + info.idx_stop - info.idx_start))
    (hread : getMemoryValue self.m_memoryPools (wrap64 (info.base_table + wrapInt (4 * i))) 4
      self.IsBigEndian = .error e) :
    ∃ e', annotateSite self info ins = .error e' := by
  unfold annotateSite
  simp only
  rw [if_neg (by omega)]
  refine foldlM_range_error (annotateCase self info) _ i _ (by omega) ?_
  intro s _
  exact ⟨e, by simp only [annotateCase, hread]⟩

theorem annotateJumpTable_site (self : ReplaceConstantLoads) (info : JumpTableInfo)
    (ins : Instruction) (h : dispatchInfo self ins = some info) :
    annotateJumpTable self ins = annotateSite self info ins := by
  simp only [annotateJumpTable, h]

theorem annotateJumpTable_other (self : ReplaceConstantLoads) (ins : Instruction)
    (h : dispatchInfo self ins = none) : annotateJumpTable self ins = .ok ins := by
  simp only [annotateJumpTable, h]

/-- The guards of the second loop read the class of the instruction, its
second operand and its `INS_currPC` annotation, nothing else. -/
theorem dispatchInfo_congr (self : ReplaceConstantLoads) (a b : Instruction)
    (hop : a.opcode = b.opcode) (h1 : a.operands[1]? = b.operands[1]?)
    (hpc : a.getMetadata "INS_currPC" = b.getMetadata "INS_currPC") :
    dispatchInfo self a = dispatchInfo self b := by
  simp only [dispatchInfo, hop, h1, hpc, getHexMetadataFromIns]

/-- The rewriting of the first loop does not touch what the guards of the
second loop read. -/
theorem dispatchInfo_mapOperands (self : ReplaceConstantLoads) (eraseIns : List Nat)
    (h : Value → Value) (hinv : ScanInv eraseIns h) (ins : Instruction) :
    dispatchInfo self (Instruction.mapOperands h ins) = dispatchInfo self ins := by
  unfold dispatchInfo
  show (match ins.opcode with
    | .store =>
      match ((Instruction.mapOperands h ins).operands[1]? : Option Value) with
      | some (Value.globalVariable name) =>
        if name ≠ "PC" then none
        else
          match ins.getMetadata "INS_currPC" with
          | none => none
          | some _ => self.jumpTableInfoMap.lookup (getHexMetadataFromIns ins "INS_currPC")
      | _ => none
    | _ => none) = _
  rw [mapOperands_getElem?]
  cases ho : ins.operands[1]? with
  | none => rfl
  | some o =>
    simp only [Option.map_some']
    by_cases hn : ∀ i, o ≠ .instruction i
    · rw [hinv.1 o hn]
    · push_neg at hn
      obtain ⟨i, rfl⟩ := hn
      rcases hinv.2 i with hi | ⟨_, b, v, hi⟩ <;> rw [hi]

/-- Only two-argument calls are pushed on `eraseIns`. -/
theorem scan_erased (self : ReplaceConstantLoads) (F : Function) (n : Nat)
    (st : Function × List Nat)
    (hscan : (List.range n).foldlM (replaceLoadStep self) (F, []) = .ok st) :
    ∃ h, st.1.instructions = F.instructions.map (Instruction.mapOperands h) ∧
      ScanInv st.2 h ∧
      ∀ e ∈ st.2, ∃ ins ∈ F.instructions, ins.id = e ∧ isCall2 ins = true := by
  refine scan_induct self F (fun _ st =>
    ∃ h, st.1.instructions = F.instructions.map (Instruction.mapOperands h) ∧
      ScanInv st.2 h ∧
      ∀ e ∈ st.2, ∃ ins ∈ F.instructions, ins.id = e ∧ isCall2 ins = true) ?_ ?_ n st hscan
  · refine ⟨id, ?_, ScanInv.init, by intro e he; cases he⟩
    show F.instructions = F.instructions.map (Instruction.mapOperands id)
    rw [show Instruction.mapOperands id = id from funext mapOperands_id, List.map_id]
  · rintro m st st' ⟨h, hinst, hinv, hE⟩ hs
    rcases scan_state self F m st st' h hinst hinv hs with
      ⟨rfl, _⟩ | ⟨ins, b, v, hm, hr, hinst', hE', hinv'⟩
    · exact ⟨h, hinst, hinv, hE⟩
    · refine ⟨_, hinst', hinv', ?_⟩
      intro e he
      rw [hE', List.mem_append, List.mem_singleton] at he
      rcases he with he | rfl
      · exact hE e he
      · refine ⟨ins, List.getElem?_mem hm, rfl, ?_⟩
        rw [← isCall2_mapOperands h ins]
        exact resolveLoad_isCall2 self _ (by rw [hr]; intro e; cases e)

theorem dispatchInfo_store (self : ReplaceConstantLoads) (ins : Instruction)
    (info : JumpTableInfo) (h : dispatchInfo self ins = some info) : isCall2 ins = false := by
  unfold dispatchInfo at h
  unfold isCall2
  split at h
  · rename_i hop; rw [hop]
  · cases h

/-- A dispatch site of the function is still in the function after a run that
returns, annotated by the second loop; the first loop may have rewritten its
operands. -/
theorem runOnFunction_site (self : ReplaceConstantLoads) (F : Function) (R : RunResult)
    (insi : Instruction) (info : JumpTableInfo)
    (hnodup : (F.instructions.map fun ins => ins.id).Nodup)
    (hmem : insi ∈ F.instructions) (hsite : dispatchInfo self insi = some info)
    (hrun : runOnFunction self F = .ok R) :
    ∃ insi' ∈ R.F.instructions, insi'.id = insi.id ∧
      ∃ x, x.metadata = insi.metadata ∧ annotateSite self info x = .ok insi' := by
  obtain ⟨F1, eraseIns, F2, hscan, hann, hF, _, _⟩ := runOnFunction_ok self F R hrun
  obtain ⟨h, hinst, hinv, hE⟩ := scan_erased self F _ _ hscan
  have hnot : insi.id ∉ eraseIns := by
    intro he
    obtain ⟨ins, hm, hid, hc⟩ := hE _ he
    have := List.inj_on_of_nodup_map hnodup hm hmem hid
    subst this
    rw [dispatchInfo_store self ins info hsite] at hc
    cases hc
  obtain ⟨_, hkept⟩ := runOnFunction_instructions self F F1 F2 eraseIns h hinst hann
  obtain ⟨insi', hm', ha, e1, _, _⟩ := hkept insi hmem hnot
  rw [hF]
  refine ⟨insi', hm', e1, Instruction.mapOperands h insi, rfl, ?_⟩
  rw [← ha, annotateJumpTable_site self info _
    ((dispatchInfo_mapOperands self eraseIns h hinv insi).trans hsite)]

/-- The dispatch annotation set of the specification is what the annotation of
a site attaches, as long as the count and the byte offsets of the entries fit
the `int` arithmetic of the source. -/
theorem dispatchAnnotations_of_ok (self : ReplaceConstantLoads) (info : JumpTableInfo)
    (x insi' : Instruction) (hge : info.idx_start ≤ info.idx_stop)
    (hcount : info.idx_stop - info.idx_start + 1 ≤ 536870912)
    (h : annotateSite self info x = .ok insi') : DispatchAnnotations self info insi' := by
  have hw : wrapInt (1 + info.idx_stop - info.idx_start)
      = info.idx_stop - info.idx_start + 1 := by
    unfold wrapInt; omega
  obtain ⟨_, h1, h2, h3, h4, _⟩ := annotateSite_ok_inv self info x insi' h
  rw [hw] at h1 h4
  refine ⟨h1, h2, h3, ?_⟩
  intro i hi
  have hi4 : wrapInt (4 * (i : Int)) = 4 * (i : Int) := by
    unfold wrapInt; omega
  have := h4 i hi
  rw [hi4] at this
  exact this

/-- C4, as stated, fails: the jump table `exWideInfo` has `indexStop ≥
indexStart` and every one of its `2^31` entries is read without failure (the
first three from the region, the others as the value of an unmapped address),
but the count `2^31` is not an `int`: `cnt_entries` is negative, the assertion
`cnt_entries >= 1` fails and nothing is attached. The assertion comes before
the first read, so the same happens with every image and byte order. -/
theorem dispatch_annotated_counterexample :
    dispatchInfo exWidePass exSite = some exWideInfo ∧
    exWideInfo.idx_start ≤ exWideInfo.idx_stop ∧
    (∀ i : Nat, (i : Int) < exWideInfo.idx_stop - exWideInfo.idx_start + 1 →
      ∃ pc, getMemoryValue exWidePass.m_memoryPools
        (wrap64 (exWideInfo.base_table + 4 * i)) 4 exWidePass.IsBigEndian = .ok pc) ∧
    annotateJumpTable exWidePass exSite = .error .assertFailed ∧
    runOnFunction exWidePass [[exSite]] = .error .assertFailed ∧
    (∀ (pools : List MemoryPool) (isBigEndian : Bool),
      annotateJumpTable ⟨pools, [(0x500, exWideInfo)], isBigEndian⟩ exSite
        = .error .assertFailed) := by
  refine ⟨by decide, by decide, ?_, by decide, by decide, ?_⟩
  · intro i _
    rw [getMemoryValue_eq]
    cases hf : findPool exWidePass.m_memoryPools (wrap64 (exWideInfo.base_table + 4 * i)) with
    | none => exact ⟨_, rfl⟩
    | some mp =>
      obtain ⟨hmem, hin⟩ := findPool_some _ _ _ hf
      have hmp : mp = exTable := by simpa [exWidePass] using hmem
      subst hmp
      have hwf : exTable.WF := by decide
      refine ⟨_, read_ok exTable _ 4 false hwf (by norm_num) (by norm_num) hin ?_⟩
      have hs : exTable.mp_start = 4096 := rfl
      have he : exTable.mp_end = 4108 := by decide
      have hb : exWideInfo.base_table = 4096 := rfl
      simp only [MemoryPool.inside, Bool.and_eq_true, decide_eq_true_eq, ge_iff_le, hs, he, hb]
        at hin ⊢
      unfold wrap64 at hin ⊢
      omega
  · intro pools isBigEndian
    have hsite : dispatchInfo ⟨pools, [(0x500, exWideInfo)], isBigEndian⟩ exSite
        = some exWideInfo := by
      simp only [dispatchInfo, exSite, Instruction.getMetadata, getHexMetadataFromIns]
      rfl
    rw [annotateJumpTable_site _ exWideInfo exSite hsite]
    exact annotateSite_geometry _ exWideInfo exSite (by decide)

/-- C4, amended. For every store to the `PC` register that carries an
`INS_currPC` annotation whose value is a key of the jump-table catalog, with an
entry satisfying `indexStop ≥ indexStart` and `indexStop - indexStart + 1 ≤
2^29` (the count and the byte offsets `4*i` are `int`s in the code) and every
entry read returning, the annotator returns and attaches the count
`indexStop - indexStart + 1`, the default target and the index start of the
entry and, for every `i` below the count, case target `i` equal to the 4-byte
read at `baseTableAddress + 4*i` in the configured byte order; after a run of
`runOnFunction` that returns, the instruction is in the function with these
annotations. -/
theorem dispatch_annotated (self : ReplaceConstantLoads) (insi : Instruction)
    (info : JumpTableInfo) (hsite : dispatchInfo self insi = some info)
    (hge : info.idx_start ≤ info.idx_stop)
    (hcount : info.idx_stop - info.idx_start + 1 ≤ 536870912)
    (hread : ∀ i : Nat, (i : Int) < info.idx_stop - info.idx_start + 1 →
      ∃ pc, getMemoryValue self.m_memoryPools (wrap64 (info.base_table + 4 * i)) 4
        self.IsBigEndian = .ok pc) :
    (∃ insi', annotateJumpTable self insi = .ok insi' ∧ insi'.id = insi.id ∧
      DispatchAnnotations self info insi') ∧
    (∀ (F : Function) (R : RunResult), (F.instructions.map fun ins => ins.id).Nodup →
      insi ∈ F.instructions → runOnFunction self F = .ok R →
      ∃ insi' ∈ R.F.instructions, insi'.id = insi.id ∧
        DispatchAnnotations self info insi') := by
  have hw : wrapInt (1 + info.idx_stop - info.idx_start)
      = info.idx_stop - info.idx_start + 1 := by
    unfold wrapInt; omega
  constructor
  · obtain ⟨insi', h⟩ := annotateSite_total self info insi (by rw [hw]; omega) (by
      intro i hi
      rw [hw] at hi
      have hi4 : wrapInt (4 * (i : Int)) = 4 * (i : Int) := by
        unfold wrapInt; omega
      rw [hi4]
      exact hread i hi)
    refine ⟨insi', by rw [annotateJumpTable_site self info insi hsite]; exact h,
      (annotateSite_shape self info insi insi' h).1,
      dispatchAnnotations_of_ok self info insi insi' hge hcount h⟩
  · intro F R hnodup hmem hrun
    obtain ⟨insi', hm', hid, x, _, hx⟩ :=
      runOnFunction_site self F R insi info hnodup hmem hsite hrun
    exact ⟨insi', hm', hid, dispatchAnnotations_of_ok self info x insi' hge hcount hx⟩

/-- C4, amended, on the example of the specification: the region at `0x1000`
with the little-endian words `0x2000`, `0x2010`, `0x2020` and the entry
`(0x500, 0, 2, 0x1000, 0x2030)` give `caseCount = 3`, the case targets
`0x2000`, `0x2010`, `0x2020`, `defaultCasePC = 0x2030` and `indexStart = 0`. -/
theorem dispatch_annotated_witness :
    (∃ insi', annotateJumpTable exTablePass exSite = .ok insi' ∧ insi'.id = exSite.id ∧
      DispatchAnnotations exTablePass exInfo insi') ∧
    annotateJumpTable exTablePass exSite = .ok exSiteAnnotated ∧
    exSiteAnnotated.getMetadata "INS_switch_cnt" = some 3 ∧
    exSiteAnnotated.getMetadata "INS_switch_default" = some 0x2030 ∧
    exSiteAnnotated.getMetadata "INS_switch_idx_start" = some 0 ∧
    [0, 1, 2].map (fun i => exSiteAnnotated.getMetadata (caseKey i))
      = [some 0x2000, some 0x2010, some 0x2020] :=
  ⟨(dispatch_annotated exTablePass exSite exInfo (by decide) (by decide) (by decide)
      (by
        intro i hi
        have hi3 : i < 3 := by
          have : (i : Int) < 3 := hi
          omega
        interval_cases i
        · exact ⟨0x2000, by decide⟩
        · exact ⟨0x2010, by decide⟩
        · exact ⟨0x2020, by decide⟩)).1,
    by decide, by decide, by decide, by decide, by decide⟩

/-! ## Dispatch sites whose annotation fails -/

/-- The second loop does not return when the annotation of one of the
instructions fails. -/
theorem annotateJumpTables_error (self : ReplaceConstantLoads) (F : Function)
    (ins : Instruction) (e : Abort) (hmem : ins ∈ F.instructions)
    (hfail : annotateJumpTable self ins = .error e) :
    ∃ e', annotateJumpTables self F = .error e' := by
  cases h : annotateJumpTables self F with
  | error e' => exact ⟨e', rfl⟩
  | ok F' =>
    obtain ⟨ins', _, hok⟩ := forall₂_mem_left (annotateJumpTables_forall₂ self F F' h) ins hmem
    rw [hfail] at hok
    cases hok

/-- A run does not return on a function that holds a dispatch site whose
annotation fails. -/
theorem runOnFunction_site_error (self : ReplaceConstantLoads) (F : Function)
    (insi : Instruction) (info : JumpTableInfo) (hmem : insi ∈ F.instructions)
    (hsite : dispatchInfo self insi = some info)
    (hfail : ∀ x, ∃ e, annotateSite self info x = .error e) :
    ∃ e, runOnFunction self F = .error e := by
  unfold runOnFunction
  cases hscan : replaceLoadMmu self F with
  | error e => exact ⟨e, rfl⟩
  | ok st =>
    obtain ⟨F1, eraseIns⟩ := st
    obtain ⟨h, hinst, hinv⟩ := scan_base self F _ _ hscan
    have hm1 : Instruction.mapOperands h insi ∈ F1.instructions := by
      rw [show F1.instructions = _ from hinst]; exact List.mem_map_of_mem _ hmem
    obtain ⟨e, he⟩ := hfail (Instruction.mapOperands h insi)
    obtain ⟨e', he'⟩ := annotateJumpTables_error self F1 _ e hm1 (by
      rw [annotateJumpTable_site self info _
        ((dispatchInfo_mapOperands self eraseIns h hinv insi).trans hsite)]
      exact he)
    exact ⟨e', by simp only [he']⟩

/-- C9, as stated, fails: in `exTwoSitesFunction` the second entry of the
table of the first site starts inside the region and ends outside of it. The
run stops on the bounds assertion of `read`: it does not return, and the
second site, whose table is readable, is not annotated. A table whose last
entry lies past the end of the region (`exPastEndInfo`) is no failure at all:
the site ends with the complete set, the last case target being `0xdeadbeef`. -/
theorem annotation_all_or_nothing_counterexample :
    dispatchInfo exTwoTablesPass exSite = some exStraddlingInfo ∧
    dispatchInfo exTwoTablesPass exSecondSite = some exSecondInfo ∧
    (∃ insi', annotateJumpTable exTwoTablesPass exSecondSite = .ok insi') ∧
    runOnFunction exTwoTablesPass exTwoSitesFunction = .error .assertFailed ∧
    (¬ ∃ R, runOnFunction exTwoTablesPass exTwoSitesFunction = .ok R) ∧
    runOnFunction exPastEndPass [[exSite]] = .ok
      { F := [[⟨7, .store, [.other 0, .globalVariable "PC"],
          [("INS_currPC", 0x500), ("INS_switch_cnt", 3), ("INS_switch_default", 0x2030),
           ("INS_switch_idx_start", 0), ("INS_switch_case0", 0x2010),
           ("INS_switch_case1", 0x2020), ("INS_switch_case2", 0xdeadbeef)]⟩]]
        erased := 0
        changed := false } := by
  have h : runOnFunction exTwoTablesPass exTwoSitesFunction = .error .assertFailed := by
    decide
  refine ⟨by decide, by decide, ?_, h, ?_, by decide⟩
  · cases hs : annotateJumpTable exTwoTablesPass exSecondSite with
    | ok insi' => exact ⟨insi', rfl⟩
    | error e =>
      exfalso
      revert hs
      cases e <;> decide
  · rintro ⟨R, hR⟩
    rw [h] at hR
    cases hR

/-- C9, amended. After a run of `runOnFunction` that returns, every dispatch
site of the function carries the complete dispatch annotation set: the count,
the default target, the index start and one case target for every entry below
the count. A site with a table entry that starts inside a region (the one that
the lookup finds) and ends outside of it stops the whole run on the bounds
assertion of `read`: the run does not return, whatever other sites the
function holds. -/
theorem annotation_all_or_nothing (self : ReplaceConstantLoads) (F : Function)
    (insi : Instruction) (info : JumpTableInfo)
    (hmem : insi ∈ F.instructions) (hsite : dispatchInfo self insi = some info) :
    (∀ R, (F.instructions.map fun ins => ins.id).Nodup → runOnFunction self F = .ok R →
      ∃ insi' ∈ R.F.instructions, insi'.id = insi.id ∧
        insi'.getMetadata "INS_switch_cnt"
          = some (hex (wrapInt (1 + info.idx_stop - info.idx_start))) ∧
        insi'.getMetadata "INS_switch_default" = some (hex info.default_case_pc) ∧
        insi'.getMetadata "INS_switch_idx_start" = some (hex info.idx_start) ∧
        ∀ i : Nat, (i : Int) < wrapInt (1 + info.idx_stop - info.idx_start) →
          ∃ pc, getMemoryValue self.m_memoryPools
              (wrap64 (info.base_table + wrapInt (4 * i))) 4 self.IsBigEndian = .ok pc ∧
            insi'.getMetadata (caseKey i) = some (hex pc)) ∧
    (∀ (i : Nat) (mp : MemoryPool),
      (i : Int) < wrapInt (1 + info.idx_stop - info.idx_start) →
      findPool self.m_memoryPools (wrap64 (info.base_table + wrapInt (4 * i))) = some mp →
      mp.inside (wrap64 (wrap64 (info.base_table + wrapInt (4 * i)) + 4 - 1)) = false →
      ∃ e, runOnFunction self F = .error e) := by
  constructor
  · intro R hnodup hrun
    obtain ⟨insi', hm', hid, x, _, hx⟩ :=
      runOnFunction_site self F R insi info hnodup hmem hsite hrun
    obtain ⟨_, h1, h2, h3, h4, _⟩ := annotateSite_ok_inv self info x insi' hx
    exact ⟨insi', hm', hid, h1, h2, h3, h4⟩
  · intro i mp hi hfind hlast
    refine runOnFunction_site_error self F insi info hmem hsite ?_
    intro x
    refine annotateSite_read_error self info x i .assertFailed hi ?_
    rw [getMemoryValue_eq, hfind]
    refine read_error mp _ _ _ ?_
    rintro ⟨_, _, _, h⟩
    have e4 : (4 : Nat) % 256 = 4 := rfl
    rw [e4] at h
    simp only [Nat.cast_ofNat] at h
    rw [hlast] at h
    cases h

/-- C9, amended, on `exTwoSitesFunction`: with both tables readable
(`exTablePass` for the site at `0x500`) the run returns and the site is
annotated; with the straddling table the run does not return. -/
theorem annotation_all_or_nothing_witness :
    (∃ R, runOnFunction exTablePass exTwoSitesFunction = .ok R) ∧
    (∃ e, runOnFunction exTwoTablesPass exTwoSitesFunction = .error e) :=
  ⟨⟨_, (show runOnFunction exTablePass exTwoSitesFunction
        = .ok ⟨[[exSiteAnnotated, exSecondSite]], 0, false⟩ by decide)⟩,
    (annotation_all_or_nothing exTwoTablesPass exTwoSitesFunction exSite exStraddlingInfo
      (by decide) (by decide)).2 1 exTable (by decide) (by decide) (by decide)⟩

/-- C10, as stated, fails: the jump table `exReversedInfo` has `indexStop <
indexStart`; the assertion `cnt_entries >= 1` fails and the run stops, so the
instruction after the dispatch site is not reached. -/
theorem geometry_violation_counterexample :
    dispatchInfo exReversedPass exSite = some exReversedInfo ∧
    exReversedInfo.idx_stop < exReversedInfo.idx_start ∧
    annotateJumpTable exReversedPass exSite = .error .assertFailed ∧
    runOnFunction exReversedPass exReversedFunction = .error .assertFailed ∧
    ¬ ∃ R, runOnFunction exReversedPass exReversedFunction = .ok R := by
  have h : runOnFunction exReversedPass exReversedFunction = .error .assertFailed := by
    decide
  refine ⟨by decide, by decide, by decide, h, ?_⟩
  rintro ⟨R, hR⟩
  rw [h] at hR
  cases hR

/-- C10, amended. For every dispatch site whose catalog entry has `indexStop <
indexStart` (and `indexStart - indexStop ≤ 2^31`, so that the count is an
`int`), the annotator attaches no case target and stops the run: the assertion
`cnt_entries >= 1` fails, and `runOnFunction` does not return on a function
that holds the site. -/
theorem geometry_violation (self : ReplaceConstantLoads) (insi : Instruction)
    (info : JumpTableInfo) (hsite : dispatchInfo self insi = some info)
    (hlt : info.idx_stop < info.idx_start)
    (hrange : info.idx_start - info.idx_stop ≤ 2147483648) :
    annotateJumpTable self insi = .error .assertFailed ∧
    ∀ F : Function, insi ∈ F.instructions → ∃ e, runOnFunction self F = .error e := by
  have hcnt : wrapInt (1 + info.idx_stop - info.idx_start) < 1 := by
    unfold wrapInt; omega
  refine ⟨?_, ?_⟩
  · rw [annotateJumpTable_site self info insi hsite]
    exact annotateSite_geometry self info insi hcnt
  · intro F hmem
    exact runOnFunction_site_error self F insi info hmem hsite
      (fun x => ⟨_, annotateSite_geometry self info x hcnt⟩)

/-- C10, amended, on `exReversedFunction`. -/
theorem geometry_violation_witness :
    annotateJumpTable exReversedPass exSite = .error .assertFailed ∧
    ∀ F : Function, exSite ∈ F.instructions → ∃ e, runOnFunction exReversedPass F = .error e :=
  geometry_violation exReversedPass exSite exReversedInfo (by decide) (by decide) (by decide)

/-! ## Initialization -/

theorem rfind_eq_none (s : List Char) (c : Char) : rfind s c = none ↔ c ∉ s := by
  induction s with
  | nil => simp [rfind]
  | cons x xs ih =>
    simp only [rfind, List.mem_cons, not_or]
    cases h : rfind xs c with
    | some i =>
      have : ¬ (c ∉ xs) := fun hn => by rw [ih.2 hn] at h; cases h
      simp [this]
    | none =>
      have hxs := ih.1 h
      by_cases hx : x = c
      · simp [hx]
      · have hx' : ¬ c = x := fun e => hx e.symm
        simp [hx, hxs, hx']

/-- What `rfind` returns is the position of a `c` with no `c` after it. -/
theorem rfind_eq_some (s : List Char) (c : Char) (i : Nat) (h : rfind s c = some i) :
    s = s.take i ++ c :: s.drop (i + 1) ∧ c ∉ s.drop (i + 1) := by
  induction s generalizing i with
  | nil => simp [rfind] at h
  | cons x xs ih =>
    simp only [rfind] at h
    cases hr : rfind xs c with
    | some j =>
      rw [hr] at h
      simp only [Option.some.injEq] at h
      subst h
      obtain ⟨h1, h2⟩ := ih j hr
      refine ⟨?_, by simpa using h2⟩
      simp only [List.take_succ_cons, List.drop_succ_cons, List.cons_append]
      rw [← h1]
    | none =>
      rw [hr] at h
      by_cases hx : x = c
      · simp only [hx, if_true, Option.some.injEq] at h
        subst h
        subst hx
        exact ⟨by simp, by simpa using (rfind_eq_none xs x).1 hr⟩
      · simp [hx] at h

/-- The last `@` of a descriptor that ends in `@` and a text without `@`. -/
theorem rfind_append (path rest : List Char) (c : Char) (h : c ∉ rest) :
    rfind (path ++ c :: rest) c = some path.length := by
  induction path with
  | nil =>
    simp only [List.nil_append, rfind, (rfind_eq_none rest c).2 h, if_true, List.length_nil]
  | cons x xs ih =>
    show (match rfind (xs ++ c :: rest) c with
      | some i => some (i + 1)
      | none => if x = c then some 0 else none) = some (xs.length + 1)
    rw [ih]

/-- The only failure of `getMemoryPool` is a failed assertion. -/
theorem getMemoryPool_error (fs : FileSystem) (desc : String) (e : Abort)
    (h : getMemoryPool fs desc = .error e) : e = .assertFailed := by
  unfold getMemoryPool at h
  split at h
  · cases h; rfl
  · simp only [MemoryPool.create] at h
    split at h
    · cases h; rfl
    · cases h

/-- The pools of the initialization are built descriptor by descriptor, in order. -/
theorem loadMemoryPools_forall₂ (fs : FileSystem) (descs : List String)
    (pools : List MemoryPool) (h : loadMemoryPools fs descs = .ok pools) :
    List.Forall₂ (fun desc mp => getMemoryPool fs desc = .ok mp) descs pools := by
  induction descs generalizing pools with
  | nil =>
    simp only [loadMemoryPools] at h
    cases h
    exact List.Forall₂.nil
  | cons d rest ih =>
    simp only [loadMemoryPools] at h
    cases h1 : getMemoryPool fs d with
    | error e => simp only [h1] at h; cases h
    | ok mp =>
      simp only [h1] at h
      cases h2 : loadMemoryPools fs rest with
      | error e => simp only [h2] at h; cases h
      | ok pools' =>
        simp only [h2] at h
        cases h
        exact List.Forall₂.cons h1 (ih pools' h2)

/-- The loop over the descriptors returns when every descriptor gives a pool. -/
theorem loadMemoryPools_total (fs : FileSystem) (descs : List String)
    (h : ∀ desc ∈ descs, ∃ mp, getMemoryPool fs desc = .ok mp) :
    ∃ pools, loadMemoryPools fs descs = .ok pools := by
  induction descs with
  | nil => exact ⟨[], rfl⟩
  | cons d rest ih =>
    obtain ⟨mp, hmp⟩ := h d (List.mem_cons_self _ _)
    obtain ⟨pools, hp⟩ := ih (fun desc hd => h desc (List.mem_cons_of_mem _ hd))
    exact ⟨mp :: pools, by simp only [loadMemoryPools, hmp, hp]⟩

/-- The loop over the descriptors does not return when one descriptor fails. -/
theorem loadMemoryPools_error (fs : FileSystem) (descs : List String) (desc : String)
    (e : Abort) (hmem : desc ∈ descs) (h : getMemoryPool fs desc = .error e) :
    loadMemoryPools fs descs = .error .assertFailed := by
  induction descs with
  | nil => cases hmem
  | cons d rest ih =>
    simp only [loadMemoryPools]
    cases h1 : getMemoryPool fs d with
    | error e1 =>
      rw [getMemoryPool_error fs d e1 h1]
    | ok mp =>
      rcases List.mem_cons.1 hmem with rfl | hm
      · rw [h] at h1; cases h1
      · simp only [ih hm]

/-- The initialization returns exactly when the loop over the descriptors does,
with the pools of that loop. -/
theorem initializePass_ok (fs : FileSystem) (loadFromFile : String → List JumpTableInfo)
    (opts : Options) (st : PassState) (h : initializePass fs loadFromFile opts = .ok st) :
    loadMemoryPools fs opts.MemoryDescriptors = .ok st.pass.m_memoryPools ∧
    st.pass.IsBigEndian = opts.IsBigEndian ∧
    (opts.JumpTableInfoFile = "" → st.pass.jumpTableInfoMap = [] ∧ st.hasJumpTableInfo = false) := by
  unfold initializePass at h
  cases hl : loadMemoryPools fs opts.MemoryDescriptors with
  | error e => simp only [hl] at h; cases h
  | ok pools =>
    simp only [hl] at h
    by_cases hj : opts.JumpTableInfoFile = ""
    · simp only [hj, ne_eq, not_true_eq_false, if_false] at h
      cases h
      exact ⟨rfl, rfl, fun _ => ⟨rfl, rfl⟩⟩
    · simp only [ne_eq, hj, not_false_eq_true, if_true] at h
      cases h
      exact ⟨rfl, rfl, fun e => absurd e hj⟩

/-- C13. Building a region from a descriptor fails for every descriptor that
contains no `@` and for every descriptor whose file (the text before the last
`@`) cannot be opened; an initialization with such a descriptor stops on the
failed assertion and produces no region list. -/
theorem region_descriptor_failure (fs : FileSystem) (desc : String)
    (hbad : '@' ∉ desc.data ∨
      ∃ atPos, rfind desc.data '@' = some atPos ∧
        fs (String.mk (desc.data.take atPos)) = none) :
    getMemoryPool fs desc = .error .assertFailed ∧
    ∀ (loadFromFile : String → List JumpTableInfo) (opts : Options),
      desc ∈ opts.MemoryDescriptors →
      initializePass fs loadFromFile opts = .error .assertFailed ∧
      ¬ ∃ st, initializePass fs loadFromFile opts = .ok st := by
  have hfail : getMemoryPool fs desc = .error .assertFailed := by
    unfold getMemoryPool
    rcases hbad with hno | ⟨atPos, hat, hfile⟩
    · rw [(rfind_eq_none desc.data '@').2 hno]
    · simp only [hat, MemoryPool.create, hfile]
  refine ⟨hfail, ?_⟩
  intro loadFromFile opts hmem
  have hinit : initializePass fs loadFromFile opts = .error .assertFailed := by
    simp only [initializePass, loadMemoryPools_error fs _ desc _ hmem hfail]
  refine ⟨hinit, ?_⟩
  rintro ⟨st, hst⟩
  rw [hinit] at hst
  cases hst

/-- C13 on the file system `exFiles`: a descriptor without `@` and a
descriptor of a file that is not there. -/
theorem region_descriptor_failure_witness :
    getMemoryPool exFiles "img.bin" = .error .assertFailed ∧
    getMemoryPool exFiles "other.bin@0x1000" = .error .assertFailed ∧
    initializePass exFiles (fun _ => []) (exOptions ["img.bin@0x1000", "other.bin@0x2000"])
      = .error .assertFailed :=
  ⟨(region_descriptor_failure exFiles "img.bin" (Or.inl (by decide))).1,
    (region_descriptor_failure exFiles "other.bin@0x1000"
      (Or.inr ⟨9, by decide, by decide⟩)).1,
    ((region_descriptor_failure exFiles "other.bin@0x2000"
      (Or.inr ⟨9, by decide, by decide⟩)).2 (fun _ => [])
      (exOptions ["img.bin@0x1000", "other.bin@0x2000"]) (by decide)).1⟩

/-! ## The start address of a region -/

theorem hexDigit_toNat (c : Char) (h : (hexDigitValue c).isSome = true) :
    (48 ≤ c.toNat ∧ c.toNat ≤ 57) ∨ (97 ≤ c.toNat ∧ c.toNat ≤ 102) ∨
      (65 ≤ c.toNat ∧ c.toNat ≤ 70) := by
  unfold hexDigitValue at h
  by_cases h1 : 48 ≤ c.toNat ∧ c.toNat ≤ 57
  · exact Or.inl h1
  · by_cases h2 : 97 ≤ c.toNat ∧ c.toNat ≤ 102
    · exact Or.inr (Or.inl h2)
    · by_cases h3 : 65 ≤ c.toNat ∧ c.toNat ≤ 70
      · exact Or.inr (Or.inr h3)
      · simp [h1, h2, h3] at h

/-- A hexadecimal digit is no white space, no sign and no `x`. -/
theorem hexDigit_plain (c : Char) (h : (hexDigitValue c).isSome = true) :
    isSpaceChar c = false ∧ c ≠ '-' ∧ c ≠ '+' ∧ c ≠ 'x' ∧ c ≠ 'X' := by
  have hr := hexDigit_toNat c h
  have key : ∀ d : Char, (¬ ((48 ≤ d.toNat ∧ d.toNat ≤ 57) ∨ (97 ≤ d.toNat ∧ d.toNat ≤ 102) ∨
      (65 ≤ d.toNat ∧ d.toNat ≤ 70))) → c ≠ d := by
    intro d hd e
    subst e
    exact hd hr
  refine ⟨?_, key _ (by decide), key _ (by decide), key _ (by decide), key _ (by decide)⟩
  have h1 := key ' ' (by decide)
  have h2 := key '\t' (by decide)
  have h3 := key '\n' (by decide)
  have h4 := key '\x0b' (by decide)
  have h5 := key '\x0c' (by decide)
  have h6 := key '\r' (by decide)
  simp [isSpaceChar, h1, h2, h3, h4, h5, h6]

theorem hexPrefixValue_hexText (t : List Char)
    (h : ∀ c ∈ t, (hexDigitValue c).isSome = true) (acc : Nat) :
    hexPrefixValue t acc = t.foldl (fun acc c => 16 * acc + (hexDigitValue c).getD 0) acc := by
  induction t generalizing acc with
  | nil => rfl
  | cons c rest ih =>
    have hc := h c (List.mem_cons_self _ _)
    cases hd : hexDigitValue c with
    | none => rw [hd] at hc; cases hc
    | some d =>
      simp only [hexPrefixValue, hd, List.foldl_cons, Option.getD_some]
      exact ih (fun c' hc' => h c' (List.mem_cons_of_mem _ hc')) _

theorem dropHexPrefix_hexText (t : List Char)
    (h : ∀ c ∈ t, (hexDigitValue c).isSome = true) : dropHexPrefix t = t := by
  unfold dropHexPrefix
  split
  · rename_i z x d rest
    have hx := hexDigit_plain x (h x (by simp))
    rw [if_neg]
    rintro ⟨_, hxx | hxx, _⟩
    · exact hx.2.2.2.1 hxx
    · exact hx.2.2.2.2 hxx
  · rfl

/-- `strtoll(_, NULL, 16)` on a hexadecimal text below `2^63` is the value of
the text. -/
theorem strtoll16_hexText (t : List Char) (h : IsHexText t)
    (hv : hexTextValue t < 9223372036854775808) : strtoll16 t = hexTextValue t := by
  obtain ⟨hne, hall⟩ := h
  cases t with
  | nil => exact absurd rfl hne
  | cons c rest =>
    have hc := hexDigit_plain c (hall c (List.mem_cons_self _ _))
    have hmag : hexMagnitude (c :: rest) = hexTextValue (c :: rest) := by
      unfold hexMagnitude
      rw [dropHexPrefix_hexText _ hall, hexPrefixValue_hexText _ hall]
      rfl
    unfold strtoll16
    rw [List.dropWhile_cons, hc.1]
    simp only [Bool.false_eq_true, if_false, hc.2.1, hc.2.2.1, hmag]
    rw [if_neg (by omega)]

/-- What `getMemoryPool` builds from a descriptor `<path>@<hex text>` whose
value is below `2^63` and whose file opens. -/
theorem getMemoryPool_hexText (fs : FileSystem) (desc : String) (path t : List Char)
    (bytes : List Byte) (hdesc : desc.data = path ++ '@' :: t) (ht : IsHexText t)
    (hv : hexTextValue t < 9223372036854775808) (hfile : fs (String.mk path) = some bytes) :
    getMemoryPool fs desc = .ok (MemoryPool.ofFile bytes (hexTextValue t)) := by
  have hat : '@' ∉ t := by
    intro hm
    have := hexDigit_toNat '@' (ht.2 _ hm)
    revert this
    decide
  unfold getMemoryPool
  rw [hdesc, rfind_append path t '@' hat]
  have hd : List.drop (path.length + 1) (path ++ '@' :: t) = t := by
    rw [show path ++ '@' :: t = (path ++ ['@']) ++ t by simp]
    exact List.drop_left' (by simp)
  have hk : List.take path.length (path ++ '@' :: t) = path := List.take_left' rfl
  have e : wrap64 ((hexTextValue t : Nat) : Int) = hexTextValue t := by
    unfold wrap64
    omega
  simp only [hd, hk, MemoryPool.create, hfile, strtoll16_hexText t ht hv, e]

/-- C14 on the descriptor `img.bin@0xffffffff80000000`: the file opens and the
text after the `@` is the hexadecimal number `0xffffffff80000000`, but
`strtoll` saturates at `LLONG_MAX` and the region starts at
`0x7fffffffffffffff`. -/
theorem load_high_address :
    getMemoryPool exFiles "img.bin@0xffffffff80000000"
      = .ok { mp_start := 0x7fffffffffffffff, mp_end := 0x8000000000000002,
              mp_file := [1, 2, 3] } ∧
    hexTextValue "ffffffff80000000".data = 0xffffffff80000000 ∧
    (∀ mp, getMemoryPool exFiles "img.bin@0xffffffff80000000" = .ok mp →
      mp.mp_start ≠ 0xffffffff80000000) := by
  have h : getMemoryPool exFiles "img.bin@0xffffffff80000000"
      = .ok { mp_start := 0x7fffffffffffffff, mp_end := 0x8000000000000002,
              mp_file := [1, 2, 3] } := by decide
  refine ⟨h, by decide, ?_⟩
  intro mp hmp
  rw [h] at hmp
  cases hmp
  decide

/-! ## The regions that the initialization builds -/

/-- What `getMemoryPool` has built when it returns. -/
theorem getMemoryPool_ok (fs : FileSystem) (desc : String) (mp : MemoryPool)
    (h : getMemoryPool fs desc = .ok mp) :
    ∃ atPos bytes, rfind desc.data '@' = some atPos ∧
      fs (String.mk (desc.data.take atPos)) = some bytes ∧
      mp = MemoryPool.ofFile bytes (wrap64 (strtoll16 (desc.data.drop (atPos + 1)))) := by
  unfold getMemoryPool at h
  cases hr : rfind desc.data '@' with
  | none => simp only [hr] at h; cases h
  | some atPos =>
    simp only [hr, MemoryPool.create] at h
    cases hf : fs (String.mk (desc.data.take atPos)) with
    | none => simp only [hf] at h; cases h
    | some bytes =>
      simp only [hf] at h
      cases h
      exact ⟨atPos, bytes, rfl, hf, rfl⟩

theorem wrap64_lt (z : Int) : wrap64 z < U64 := by
  unfold wrap64
  simp only [U64]
  omega

/-- C15, as stated, fails: the descriptors `img.bin@1000` and `img.bin@1001`
give two regions, `[0x1000, 0x1003)` and `[0x1001, 0x1004)`, and both contain
`0x1001`; the initialization does not compare the windows of the regions. -/
theorem regions_disjoint_counterexample :
    initializePass exFiles (fun _ => []) (exOptions ["img.bin@1000", "img.bin@1001"])
      = .ok { pass := { m_memoryPools := [⟨0x1000, 0x1003, [1, 2, 3]⟩, ⟨0x1001, 0x1004, [1, 2, 3]⟩]
                        jumpTableInfoMap := []
                        IsBigEndian := false }
              jumpTableInfoList := []
              hasJumpTableInfo := false } ∧
    MemoryPool.inside ⟨0x1000, 0x1003, [1, 2, 3]⟩ 0x1001 = true ∧
    MemoryPool.inside ⟨0x1001, 0x1004, [1, 2, 3]⟩ 0x1001 = true := by
  decide

/-- C15, amended. For every image that the initialization builds from a list
of descriptors (one region per descriptor, in order) and for every address,
the lookup finds a region exactly when the address lies in the half-open
interval of at least one region; the regions may overlap, and the region found
is the first one in descriptor order that contains the address. -/
theorem regions_lookup (fs : FileSystem) (loadFromFile : String → List JumpTableInfo)
    (opts : Options) (st : PassState) (addr : Nat)
    (h : initializePass fs loadFromFile opts = .ok st) :
    List.Forall₂ (fun desc mp => getMemoryPool fs desc = .ok mp)
      opts.MemoryDescriptors st.pass.m_memoryPools ∧
    ((findPool st.pass.m_memoryPools addr).isSome = true ↔
      ∃ mp ∈ st.pass.m_memoryPools, mp.mp_start ≤ addr ∧ addr < mp.mp_end) ∧
    (∀ mp, findPool st.pass.m_memoryPools addr = some mp →
      (mp.mp_start ≤ addr ∧ addr < mp.mp_end) ∧
      ∃ before after, st.pass.m_memoryPools = before ++ mp :: after ∧
        ∀ mp' ∈ before, ¬ (mp'.mp_start ≤ addr ∧ addr < mp'.mp_end)) := by
  obtain ⟨hl, _, _⟩ := initializePass_ok fs loadFromFile opts st h
  refine ⟨loadMemoryPools_forall₂ fs _ _ hl, ?_, ?_⟩
  · rw [← not_iff_not, ← findPool_eq_none]
    cases findPool st.pass.m_memoryPools addr <;> simp
  · intro mp hf
    unfold findPool at hf
    obtain ⟨hin, before, after, hsplit, hbefore⟩ := List.find?_eq_some.1 hf
    simp only [MemoryPool.inside, Bool.and_eq_true, decide_eq_true_eq, ge_iff_le] at hin
    refine ⟨hin, before, after, hsplit, ?_⟩
    intro mp' hm hc
    have := hbefore mp' hm
    simp [MemoryPool.inside, hc.1, hc.2] at this

/-- C15, amended, on the two overlapping regions of `img.bin`: the address
`0x1001` is found in the first of them. -/
theorem regions_lookup_witness :
    findPool [⟨0x1000, 0x1003, [1, 2, 3]⟩, ⟨0x1001, 0x1004, [1, 2, 3]⟩] 0x1001
      = some ⟨0x1000, 0x1003, [1, 2, 3]⟩ ∧
    ((findPool [⟨0x1000, 0x1003, [1, 2, 3]⟩, ⟨0x1001, 0x1004, [1, 2, 3]⟩] 0x1001).isSome = true ↔
      ∃ mp ∈ [(⟨0x1000, 0x1003, [1, 2, 3]⟩ : MemoryPool), ⟨0x1001, 0x1004, [1, 2, 3]⟩],
        mp.mp_start ≤ 0x1001 ∧ 0x1001 < mp.mp_end) :=
  ⟨by decide,
    (regions_lookup exFiles (fun _ => []) (exOptions ["img.bin@1000", "img.bin@1001"])
      { pass := { m_memoryPools := [⟨0x1000, 0x1003, [1, 2, 3]⟩, ⟨0x1001, 0x1004, [1, 2, 3]⟩]
                  jumpTableInfoMap := []
                  IsBigEndian := false }
        jumpTableInfoList := []
        hasJumpTableInfo := false } 0x1001 (by decide)).2.1⟩

/-- C16, as stated, fails: the empty file `empty.bin` gives a region with
`startAddress = endAddress`, and the descriptor `img.bin@-1` gives the start
address `2^64 - 1`, so that the end `startAddress + 3` wraps around to `2`. -/
theorem region_nonempty_counterexample :
    getMemoryPool exFilesWithEmpty "empty.bin@1000"
      = .ok { mp_start := 0x1000, mp_end := 0x1000, mp_file := [] } ∧
    getMemoryPool exFilesWithEmpty "img.bin@-1"
      = .ok { mp_start := 18446744073709551615, mp_end := 2, mp_file := [1, 2, 3] } ∧
    ¬ (∀ desc mp, getMemoryPool exFilesWithEmpty desc = .ok mp → mp.mp_start < mp.mp_end) := by
  have h1 : getMemoryPool exFilesWithEmpty "empty.bin@1000"
      = .ok { mp_start := 0x1000, mp_end := 0x1000, mp_file := [] } := by decide
  refine ⟨h1, by decide, ?_⟩
  intro hall
  have := hall _ _ h1
  exact absurd this (by decide)

/-- C16, amended. Every region that is created from a descriptor has
`endAddress = startAddress + fileLength` in 64-bit arithmetic. When that sum
is below `2^64`, `startAddress ≤ endAddress`, with `startAddress < endAddress`
exactly when the backing file is not empty; when the sum reaches `2^64` the end
address wraps around and lies below the start address. -/
theorem region_bounds (fs : FileSystem) (desc : String) (mp : MemoryPool)
    (hfs : ∀ path bytes, fs path = some bytes → bytes.length < 9223372036854775808)
    (h : getMemoryPool fs desc = .ok mp) :
    mp.WF ∧
    (mp.mp_start + mp.mp_file.length < U64 →
      mp.mp_end = mp.mp_start + mp.mp_file.length ∧ mp.mp_start ≤ mp.mp_end ∧
      (mp.mp_start < mp.mp_end ↔ mp.mp_file ≠ [])) ∧
    (U64 ≤ mp.mp_start + mp.mp_file.length → mp.mp_end < mp.mp_start) := by
  obtain ⟨atPos, bytes, _, hfile, rfl⟩ := getMemoryPool_ok fs desc mp h
  have hlen := hfs _ _ hfile
  have hstart := wrap64_lt (strtoll16 (desc.data.drop (atPos + 1)))
  generalize wrap64 (strtoll16 (desc.data.drop (atPos + 1))) = start at hstart
  simp only [MemoryPool.ofFile, MemoryPool.WF, U64] at hstart ⊢
  refine ⟨⟨hstart, hlen, trivial⟩, ?_, ?_⟩
  · intro hsum
    have e : wrap64 ((start : Int) + (bytes.length : Int)) = start + bytes.length := by
      unfold wrap64; omega
    rw [e]
    refine ⟨rfl, by omega, ?_⟩
    rw [← List.length_pos]
    omega
  · intro hsum
    unfold wrap64
    omega

/-- C16, amended, on the three-byte file `img.bin` at `0x1000`. -/
theorem region_bounds_witness :
    (⟨0x1000, 0x1003, [1, 2, 3]⟩ : MemoryPool).WF ∧
    ((0x1000 : Nat) + 3 < U64 →
      (0x1003 : Nat) = 0x1000 + 3 ∧ (0x1000 : Nat) ≤ 0x1003 ∧
      ((0x1000 : Nat) < 0x1003 ↔ ([1, 2, 3] : List Byte) ≠ [])) ∧
    (U64 ≤ (0x1000 : Nat) + 3 → (0x1003 : Nat) < 0x1000) :=
  region_bounds exFiles "img.bin@1000" ⟨0x1000, 0x1003, [1, 2, 3]⟩
    (by
      intro path bytes hb
      unfold exFiles at hb
      split at hb
      · cases hb; decide
      · cases hb)
    (by decide)

/-! ## Table entries outside every region, and stores that are no dispatch site -/

/-- C11. For an annotated dispatch site and an index `i` below its entry count,
if the address of entry `i` (`base_table + mul*i`, which is
`baseTableAddress + 4*i` as long as `4*i` is an `int`) lies outside every
region, then case target `i` is recorded as exactly `0xdeadbeef`, and every
case target of the site is recorded. -/
theorem unmapped_entry_recorded (self : ReplaceConstantLoads) (insi : Instruction)
    (info : JumpTableInfo) (i : Nat) (hsite : dispatchInfo self insi = some info)
    (hi : (i : Int) < wrapInt (1 + info.idx_stop - info.idx_start))
    (hout : ∀ mp ∈ self.m_memoryPools,
      ¬ (mp.mp_start ≤ wrap64 (info.base_table + wrapInt (4 * i)) ∧
        wrap64 (info.base_table + wrapInt (4 * i)) < mp.mp_end)) :
    (4 * i ≤ 2147483647 →
      wrap64 (info.base_table + wrapInt (4 * i)) = (info.base_table + 4 * i) % U64) ∧
    (∀ insi', annotateJumpTable self insi = .ok insi' →
      insi'.getMetadata (caseKey i) = some 0xdeadbeef ∧
      ∀ j : Nat, (j : Int) < wrapInt (1 + info.idx_stop - info.idx_start) →
        ∃ pc, getMemoryValue self.m_memoryPools
            (wrap64 (info.base_table + wrapInt (4 * j))) 4 self.IsBigEndian = .ok pc ∧
          insi'.getMetadata (caseKey j) = some (hex pc)) ∧
    (∀ (F : Function) (R : RunResult), (F.instructions.map fun ins => ins.id).Nodup →
      insi ∈ F.instructions → runOnFunction self F = .ok R →
      ∃ insi' ∈ R.F.instructions, insi'.id = insi.id ∧
        insi'.getMetadata (caseKey i) = some 0xdeadbeef ∧
        ∀ j : Nat, (j : Int) < wrapInt (1 + info.idx_stop - info.idx_start) →
          ∃ pc, getMemoryValue self.m_memoryPools
              (wrap64 (info.base_table + wrapInt (4 * j))) 4 self.IsBigEndian = .ok pc ∧
            insi'.getMetadata (caseKey j) = some (hex pc)) := by
  have hfind : findPool self.m_memoryPools (wrap64 (info.base_table + wrapInt (4 * i)))
      = none := by
    rw [findPool_eq_none]
    rintro ⟨mp, hmem, hin⟩
    exact hout mp hmem hin
  have key : ∀ x insi', annotateSite self info x = .ok insi' →
      insi'.getMetadata (caseKey i) = some 0xdeadbeef ∧
      ∀ j : Nat, (j : Int) < wrapInt (1 + info.idx_stop - info.idx_start) →
        ∃ pc, getMemoryValue self.m_memoryPools
            (wrap64 (info.base_table + wrapInt (4 * j))) 4 self.IsBigEndian = .ok pc ∧
          insi'.getMetadata (caseKey j) = some (hex pc) := by
    intro x insi' hx
    obtain ⟨_, _, _, _, h4, _⟩ := annotateSite_ok_inv self info x insi' hx
    refine ⟨?_, h4⟩
    obtain ⟨pc, hpc, hm⟩ := h4 i hi
    rw [getMemoryValue_eq, hfind] at hpc
    cases hpc
    rw [hm]
    rfl
  refine ⟨?_, ?_, ?_⟩
  · intro hfit
    have e : wrapInt (4 * (i : Int)) = 4 * (i : Int) := by
      unfold wrapInt; omega
    rw [e]
    unfold wrap64
    simp only [U64]
    omega
  · intro insi' ha
    rw [annotateJumpTable_site self info insi hsite] at ha
    exact key insi insi' ha
  · intro F R hnodup hmem hrun
    obtain ⟨insi', hm', hid, x, _, hx⟩ :=
      runOnFunction_site self F R insi info hnodup hmem hsite hrun
    exact ⟨insi', hm', hid, key x insi' hx⟩

/-- C11 on `exPastEndPass`: the third entry of the table, at `0x100c`, lies past
the end of the region and is recorded as `0xdeadbeef`, after the two entries
read from the region. -/
theorem unmapped_entry_recorded_witness :
    annotateJumpTable exPastEndPass exSite = .ok exPastEndAnnotated ∧
    exPastEndAnnotated.getMetadata (caseKey 2) = some 0xdeadbeef ∧
    [0, 1, 2].map (fun j => exPastEndAnnotated.getMetadata (caseKey j))
      = [some 0x2010, some 0x2020, some 0xdeadbeef] :=
  have ha : annotateJumpTable exPastEndPass exSite = .ok exPastEndAnnotated := by decide
  ⟨ha,
    ((unmapped_entry_recorded exPastEndPass exSite exPastEndInfo 2 (by decide) (by decide)
      (by decide)).2.1 exPastEndAnnotated ha).1,
    by decide⟩

/-- C12. A store to the `PC` register whose `INS_currPC` value is not a key of
the jump-table catalog gets no dispatch annotation: the annotator leaves the
instruction as it is, and after a run of `runOnFunction` that returns the
instruction is in the function with the annotations it had. This is the case
of every instruction when no jump-table description was supplied. -/
theorem store_not_in_catalog (self : ReplaceConstantLoads) (insi : Instruction) (pc : Nat)
    (hop : insi.opcode = .store)
    (hreg : insi.operands[1]? = some (Value.globalVariable "PC"))
    (hpc : insi.getMetadata "INS_currPC" = some pc)
    (hkey : ∀ info, (pc, info) ∉ self.jumpTableInfoMap) :
    annotateJumpTable self insi = .ok insi ∧
    (∀ (F : Function) (R : RunResult), (F.instructions.map fun ins => ins.id).Nodup →
      insi ∈ F.instructions → runOnFunction self F = .ok R →
      ∃ insi' ∈ R.F.instructions, insi'.id = insi.id ∧ insi'.opcode = insi.opcode ∧
        insi'.metadata = insi.metadata) ∧
    (∀ (fs : FileSystem) (loadFromFile : String → List JumpTableInfo) (opts : Options)
      (st : PassState), opts.JumpTableInfoFile = "" →
      initializePass fs loadFromFile opts = .ok st →
      ∀ ins, annotateJumpTable st.pass ins = .ok ins) := by
  have hlookup : self.jumpTableInfoMap.lookup pc = none := by
    rw [List.lookup_eq_none_iff]
    intro p hp
    obtain ⟨k, v⟩ := p
    simp only [bne_iff_ne, ne_eq]
    intro hk
    subst hk
    exact hkey v hp
  have hnone : dispatchInfo self insi = none := by
    simp only [dispatchInfo, hop, hreg, hpc, getHexMetadataFromIns, Option.getD_some, hlookup,
      ne_eq, not_true_eq_false, if_false]
  refine ⟨annotateJumpTable_other self insi hnone, ?_, ?_⟩
  · intro F R hnodup hmem hrun
    obtain ⟨F1, eraseIns, F2, hscan, hann, hF, _, _⟩ := runOnFunction_ok self F R hrun
    obtain ⟨h, hinst, hinv, hE⟩ := scan_erased self F _ _ hscan
    have hnot : insi.id ∉ eraseIns := by
      intro he
      obtain ⟨ins, hm, hid, hc⟩ := hE _ he
      have := List.inj_on_of_nodup_map hnodup hm hmem hid
      subst this
      simp [isCall2, hop] at hc
    obtain ⟨_, hkept⟩ := runOnFunction_instructions self F F1 F2 eraseIns h hinst hann
    obtain ⟨insi', hm', ha, e1, e2, _⟩ := hkept insi hmem hnot
    rw [annotateJumpTable_other self _
      ((dispatchInfo_mapOperands self eraseIns h hinv insi).trans hnone)] at ha
    cases ha
    rw [hF]
    exact ⟨_, hm', rfl, rfl, rfl⟩
  · intro fs loadFromFile opts st hfile hinit ins
    obtain ⟨_, _, hmap⟩ := initializePass_ok fs loadFromFile opts st hinit
    refine annotateJumpTable_other st.pass ins ?_
    unfold dispatchInfo
    rw [(hmap hfile).1]
    split
    · split
      · split
        · rfl
        · split <;> rfl
      · rfl
    · rfl

/-- C12 on `exPlainStore`: the program counter `0x700` is no key of the jump
tables of `exTablePass`, and the store keeps its two annotations. -/
theorem store_not_in_catalog_witness :
    annotateJumpTable exTablePass exPlainStore = .ok exPlainStore ∧
    exPlainStore.metadata = [("INS_currPC", 0x700), ("INS_directCall", 0x1234)] :=
  ⟨(store_not_in_catalog exTablePass exPlainStore 0x700 rfl rfl (by decide)
      (by intro info hm; simp [exTablePass] at hm)).1, rfl⟩

/-! ## What one run of the resolver leaves -/

/-- What a matching load-helper call is, field by field. -/
theorem isLoadHelperCall_spec (ins : Instruction) (h : isLoadHelperCall ins = true) :
    ∃ name bitWidth ty addr, ins.opcode = .call (some name) ∧
      valueType name = some bitWidth ∧ ins.operands.length = 2 ∧
      (ins.operands[0]? : Option Value) = some (Value.constantInt ty addr) := by
  unfold isLoadHelperCall at h
  split at h
  · rename_i name ty addr second hop hops
    cases hv : valueType name with
    | none => rw [hv] at h; cases h
    | some bitWidth =>
      exact ⟨name, bitWidth, ty, addr, hop, hv, by rw [hops]; rfl, by rw [hops]; rfl⟩
  · cases h

/-- Under the layout condition, the first loop goes on without effect at every
instruction that a run of the resolver leaves. -/
theorem resolver_settled (self : ReplaceConstantLoads) (F F1 : Function)
    (eraseIns : List Nat) (horder : addressesInOrder F.instructions = true)
    (hscan : replaceLoadMmu self F = .ok (F1, eraseIns)) :
    ∀ ins ∈ (eraseAll F1 eraseIns).instructions, resolveLoad self ins = .ok none := by
  obtain ⟨h, hinst, hinv, hdone⟩ := scan_settled self F horder _ _ hscan
  have hlen : F1.instructions.length = F.instructions.length := by
    have := congrArg List.length hinst
    simpa using this
  intro ins hmem
  rw [instructions_eraseAll, List.mem_filter] at hmem
  obtain ⟨hm, hid⟩ := hmem
  obtain ⟨p, hp, hget⟩ := List.getElem_of_mem hm
  have hget' : F1.instructions[p]? = some ins := by
    rw [List.getElem?_eq_getElem hp, hget]
  rcases hdone p (by omega) ins hget' with hE | hres
  · simp only [decide_eq_true_eq] at hid
    exact absurd hE hid
  · exact hres

/-- C17, as stated, fails: after one run of the resolver on `exFunction` the
call `__lds_mmu(0x2000, 0)` is still in the function, since no region holds
`0x2000`; and on `exPointerFunction` the second run erases the load through
the pointer, which the first run had visited too early. -/
theorem no_helper_call_remains_counterexample :
    (∃ G, resolveConstantLoads exPass exFunction = .ok G ∧ exUnmapped ∈ G.instructions ∧
      isLoadHelperCall exUnmapped = true) ∧
    (∃ G G', resolveConstantLoads exPointerPass exPointerFunction = .ok G ∧
      replaceLoadMmu exPointerPass G = .ok (G', [1])) := by
  exact ⟨⟨exResult.F, by decide, by decide, by decide⟩,
    ⟨exPointerOnce, exPointerRewritten, by decide, by decide⟩⟩

/-- C17, amended. For every image and every function in which no two-argument
call takes as its first argument its own result or the result of a
two-argument call that comes after it in layout order, after one run of the
resolver every matching load-helper call that is left in the function has an
address outside every region, and a second run rewrites and erases nothing. -/
theorem helper_calls_left_unresolved (self : ReplaceConstantLoads) (F G : Function)
    (horder : addressesInOrder F.instructions = true)
    (hrun : resolveConstantLoads self F = .ok G) :
    (∀ ins ∈ G.instructions, isLoadHelperCall ins = true →
      ∀ ty addr, (ins.operands[0]? : Option Value) = some (Value.constantInt ty addr) →
        ∀ mp ∈ self.m_memoryPools, ¬ (mp.mp_start ≤ addr ∧ addr < mp.mp_end)) ∧
    replaceLoadMmu self G = .ok (G, []) ∧
    resolveConstantLoads self G = .ok G := by
  unfold resolveConstantLoads at hrun
  cases hscan : replaceLoadMmu self F with
  | error e => rw [hscan] at hrun; cases hrun
  | ok st =>
    obtain ⟨F1, eraseIns⟩ := st
    rw [hscan] at hrun
    simp only [Except.ok.injEq] at hrun
    subst hrun
    have hnone := resolver_settled self F F1 eraseIns horder hscan
    have hnoop := scan_noop self _ hnone
    refine ⟨?_, hnoop, ?_⟩
    · intro ins hmem hcall ty addr haddr mp hmp hin
      obtain ⟨name, bitWidth, ty', addr', hop, hname, hlen, haddr'⟩ :=
        isLoadHelperCall_spec ins hcall
      rw [haddr] at haddr'
      obtain ⟨rfl, rfl⟩ : ty = ty' ∧ addr = addr' := by
        simpa using haddr'
      have hres := hnone ins hmem
      rw [resolveLoad_call self ins name ty addr bitWidth hop hlen haddr hname,
        getMemoryValueOfType_eq] at hres
      cases hf : findPool self.m_memoryPools addr with
      | none => exact (findPool_eq_none _ _).1 hf ⟨mp, hmp, hin⟩
      | some mp0 =>
        rw [hf] at hres
        cases hr : mp0.read addr ((bitWidth / 8) % 256) self.IsBigEndian with
        | error e => simp only [hr] at hres; cases hres
        | ok value => simp only [hr] at hres; cases hres
    · simp only [resolveConstantLoads, hnoop]
      rfl

/-- C17, amended, on `exFunction`: the one load-helper call that the run leaves
is the load of the unmapped address `0x2000`, and a second run does nothing. -/
theorem helper_calls_left_unresolved_witness :
    resolveConstantLoads exPass exFunction = .ok exResult.F ∧
    replaceLoadMmu exPass exResult.F = .ok (exResult.F, []) ∧
    resolveConstantLoads exPass exResult.F = .ok exResult.F :=
  have hrun : resolveConstantLoads exPass exFunction = .ok exResult.F := by decide
  ⟨hrun, (helper_calls_left_unresolved exPass exFunction exResult.F (by decide) hrun).2⟩

/-! ## The value that `runOnFunction` returns -/

/-- A resolved instruction is a two-argument call of a load helper. -/
theorem resolveLoad_some_inv (self : ReplaceConstantLoads) (ins : Instruction) (value : Value)
    (h : resolveLoad self ins = .ok (some value)) :
    ∃ name bitWidth, ins.opcode = .call (some name) ∧ valueType name = some bitWidth ∧
      ins.operands.length = 2 := by
  unfold resolveLoad at h
  split at h
  · rename_i calledFunction hop
    by_cases hl : ins.operands.length = 2
    · simp only [hl, ne_eq, not_true_eq_false, if_false] at h
      split at h
      · cases calledFunction with
        | none => cases h
        | some name =>
          simp only at h
          cases hv : valueType name with
          | none => simp only [hv] at h; cases h
          | some bitWidth => exact ⟨name, bitWidth, hop, hv, hl⟩
      · cases h
    · simp only [hl, ne_eq, not_false_eq_true, if_true] at h
      cases h
  · cases h

/-- The instructions on `eraseIns` after any number of iterations of the first
loop: load-helper calls of the function that have been visited, each of them
once. -/
theorem scan_eraseIns (self : ReplaceConstantLoads) (F : Function)
    (hnodup : (F.instructions.map fun ins => ins.id).Nodup) (n : Nat)
    (st : Function × List Nat)
    (hscan : (List.range n).foldlM (replaceLoadStep self) (F, []) = .ok st) :
    ∃ h, st.1.instructions = F.instructions.map (Instruction.mapOperands h) ∧
      ScanInv st.2 h ∧ st.2.Nodup ∧
      ∀ e ∈ st.2, ∃ p ins, p < n ∧ F.instructions[p]? = some ins ∧ ins.id = e ∧
        ∃ name bitWidth, ins.opcode = .call (some name) ∧ valueType name = some bitWidth ∧
          ins.operands.length = 2 := by
  refine scan_induct self F (fun n st =>
    ∃ h, st.1.instructions = F.instructions.map (Instruction.mapOperands h) ∧
      ScanInv st.2 h ∧ st.2.Nodup ∧
      ∀ e ∈ st.2, ∃ p ins, p < n ∧ F.instructions[p]? = some ins ∧ ins.id = e ∧
        ∃ name bitWidth, ins.opcode = .call (some name) ∧ valueType name = some bitWidth ∧
          ins.operands.length = 2) ?_ ?_ n st hscan
  · refine ⟨id, ?_, ScanInv.init, List.nodup_nil, by intro e he; cases he⟩
    show F.instructions = F.instructions.map (Instruction.mapOperands id)
    rw [show Instruction.mapOperands id = id from funext mapOperands_id, List.map_id]
  · rintro m st st' ⟨h, hinst, hinv, hnd, hE⟩ hs
    rcases scan_state self F m st st' h hinst hinv hs with
      ⟨rfl, _⟩ | ⟨ins, b, v, hm, hr, hinst', hE', hinv'⟩
    · refine ⟨h, hinst, hinv, hnd, ?_⟩
      intro e he
      obtain ⟨p, ins, hp, rest⟩ := hE e he
      exact ⟨p, ins, by omega, rest⟩
    · refine ⟨_, hinst', hinv', ?_, ?_⟩
      · rw [hE']
        refine List.Nodup.append hnd (List.nodup_singleton _) ?_
        intro e he1 he2
        rw [List.mem_singleton] at he2
        subst he2
        obtain ⟨p, ins', hp, hget, hid, _⟩ := hE _ he1
        have := nodup_pos _ hnodup p m ins' ins hget hm hid
        omega
      · intro e he
        rw [hE', List.mem_append, List.mem_singleton] at he
        rcases he with he | rfl
        · obtain ⟨p, ins', hp, rest⟩ := hE e he
          exact ⟨p, ins', by omega, rest⟩
        · obtain ⟨name, bitWidth, hop, hname, hlen⟩ := resolveLoad_some_inv self _ _ hr
          exact ⟨m, ins, by omega, hm, rfl, name, bitWidth, hop, hname,
            by simpa [Instruction.mapOperands] using hlen⟩

/-- Erasing the instructions of distinct identities `eraseIns`, all of them in
the list, removes as many instructions as `eraseIns` has. -/
theorem length_filter_erased (ids eraseIns : List Nat) (hids : ids.Nodup)
    (hnd : eraseIns.Nodup) (hsub : ∀ e ∈ eraseIns, e ∈ ids) :
    (ids.filter fun i => decide (i ∉ eraseIns)).length + eraseIns.length = ids.length := by
  have hperm : (ids.filter fun i => decide (i ∈ eraseIns)).Perm eraseIns := by
    rw [List.perm_ext_iff_of_nodup (hids.filter _) hnd]
    intro a
    simp only [List.mem_filter, decide_eq_true_eq]
    exact ⟨fun h => h.2, fun h => ⟨hsub a h, h⟩⟩
  have hsplit : ids.length = (ids.filter fun i => decide (i ∈ eraseIns)).length
      + (ids.filter fun i => !decide (i ∈ eraseIns)).length :=
    List.length_eq_length_filter_add _
  rw [hperm.length_eq] at hsplit
  have e : (fun i => decide (i ∉ eraseIns)) = fun i => !decide (i ∈ eraseIns) := by
    funext i
    simp
  rw [e]
  omega

/-- The second loop keeps the identities of the instructions. -/
theorem annotateJumpTables_ids (self : ReplaceConstantLoads) (F F' : Function)
    (h : annotateJumpTables self F = .ok F') :
    F'.instructions.map (fun ins => ins.id) = F.instructions.map (fun ins => ins.id) := by
  have hf := annotateJumpTables_forall₂ self F F' h
  generalize F.instructions = l at hf
  generalize F'.instructions = l' at hf
  induction hf with
  | nil => rfl
  | cons hab _ ih =>
    simp only [List.map_cons, ih, (annotateJumpTable_shape self _ _ hab).1]

/-- C18. `runOnFunction` returns true exactly when at least one load-helper
call was resolved and erased: the reported count is the length of `eraseIns`,
every instruction on `eraseIns` is a two-argument call of a load helper that
is no longer in the function, and the function has lost exactly that many
instructions. Attached dispatch annotations do not make the result true. -/
theorem run_reports_resolved (self : ReplaceConstantLoads) (F : Function) (R : RunResult)
    (hnodup : (F.instructions.map fun ins => ins.id).Nodup)
    (hrun : runOnFunction self F = .ok R) :
    ∃ F1 eraseIns, replaceLoadMmu self F = .ok (F1, eraseIns) ∧
      R.erased = eraseIns.length ∧
      (R.changed = true ↔ eraseIns ≠ []) ∧
      (R.changed = true ↔ R.F.instructions.length < F.instructions.length) ∧
      R.F.instructions.length + R.erased = F.instructions.length ∧
      eraseIns.Nodup ∧
      ∀ e ∈ eraseIns, (∀ ins' ∈ R.F.instructions, ins'.id ≠ e) ∧
        ∃ ins ∈ F.instructions, ins.id = e ∧
          ∃ name bitWidth, ins.opcode = .call (some name) ∧
            valueType name = some bitWidth ∧ ins.operands.length = 2 := by
  obtain ⟨F1, eraseIns, F2, hscan, hann, hF, herased, hchanged⟩ :=
    runOnFunction_ok self F R hrun
  obtain ⟨h, hinst, hinv, hnd, hE⟩ := scan_eraseIns self F hnodup _ _ hscan
  have hids : F2.instructions.map (fun ins => ins.id) = F.instructions.map (fun ins => ins.id) := by
    rw [annotateJumpTables_ids self F1 F2 hann, show F1.instructions = _ from hinst,
      List.map_map]
    rfl
  have hcount : R.F.instructions.length + eraseIns.length = F.instructions.length := by
    have hlen := length_filter_erased (F.instructions.map fun ins => ins.id) eraseIns hnodup hnd
      (by
        intro e he
        obtain ⟨p, ins, _, hget, hid, _⟩ := hE e he
        exact List.mem_map.2 ⟨ins, List.getElem?_mem hget, hid⟩)
    rw [← hids, List.filter_map, List.length_map] at hlen
    have hl : F2.instructions.length = F.instructions.length := by
      have := congrArg List.length hids
      simpa using this
    rw [List.length_map] at hlen
    rw [hF, instructions_eraseAll, ← hl]
    exact hlen
  have hpos : R.changed = true ↔ eraseIns ≠ [] := by
    rw [hchanged, decide_eq_true_eq, gt_iff_lt, List.length_pos]
  refine ⟨F1, eraseIns, hscan, herased, hpos, ?_, by rw [herased]; exact hcount, hnd, ?_⟩
  · rw [hpos, ← List.length_pos]
    omega
  · intro e he
    obtain ⟨p, ins, _, hget, hid, hcall⟩ := hE e he
    refine ⟨?_, ins, List.getElem?_mem hget, hid, hcall⟩
    intro ins' hm' hid'
    rw [hF, instructions_eraseAll, List.mem_filter] at hm'
    simp only [decide_eq_true_eq] at hm'
    exact hm'.2 (hid' ▸ he)

/-- C18 on two functions: `exFunction`, where one load is resolved, and the
dispatch site `exSite` alone, which is annotated while the run returns false. -/
theorem run_reports_resolved_witness :
    runOnFunction exPass exFunction = .ok exResult ∧ exResult.changed = true ∧
    exResult.erased = 1 ∧
    runOnFunction exTablePass [[exSite]] = .ok ⟨[[exSiteAnnotated]], 0, false⟩ ∧
    (∃ F1 eraseIns, replaceLoadMmu exPass exFunction = .ok (F1, eraseIns) ∧
      exResult.erased = eraseIns.length ∧
      (exResult.changed = true ↔ eraseIns ≠ []) ∧
      (exResult.changed = true ↔
        exResult.F.instructions.length < exFunction.instructions.length) ∧
      exResult.F.instructions.length + exResult.erased = exFunction.instructions.length ∧
      eraseIns.Nodup ∧
      ∀ e ∈ eraseIns, (∀ ins' ∈ exResult.F.instructions, ins'.id ≠ e) ∧
        ∃ ins ∈ exFunction.instructions, ins.id = e ∧
          ∃ name bitWidth, ins.opcode = .call (some name) ∧
            valueType name = some bitWidth ∧ ins.operands.length = 2) :=
  ⟨by decide, rfl, rfl, by decide,
    run_reports_resolved exPass exFunction exResult (by decide) (by decide)⟩

/-! ## The range of a read value -/

/-- The big-endian integer of the reversed byte sequence is the little-endian
integer of the sequence. -/
theorem bigEndianValue_reverse (bs : List Byte) :
    bigEndianValue bs.reverse = littleEndianValue bs := by
  induction bs with
  | nil => rfl
  | cons b bs ih =>
    rw [List.reverse_cons, bigEndianValue_append, ih, littleEndianValue]
    omega

/-- A read that returns has a width between 1 and 8 and both ends of its
window inside the region. -/
theorem read_ok_window (mp : MemoryPool) (addr w value : Nat) (isBigEndian : Bool)
    (h : mp.read addr w isBigEndian = .ok value) :
    1 ≤ w ∧ w ≤ 8 ∧ mp.inside addr = true ∧ mp.inside (wrap64 (addr + w - 1)) = true := by
  by_contra hc
  rw [read_error mp addr w isBigEndian hc] at h
  cases h

/-- C19. When `read(addr, w, isBigEndian)` on a region returns `value`, then
`1 ≤ w ≤ 8` and `value < 2^(8*w)`; the constant of `8*w` bits that the lookup
of the resolver builds from it holds `value` itself, not a truncation of it;
and the little-endian read of the bytes is the big-endian integer of the
reversed byte sequence, which is what a big-endian read returns on any region
that holds the reversed bytes at its window. -/
theorem read_value_bound (mp : MemoryPool) (addr w value : Nat) (isBigEndian : Bool)
    (hwf : mp.WF) (h : mp.read addr w isBigEndian = .ok value) :
    (1 ≤ w ∧ w ≤ 8) ∧ value < 2 ^ (8 * w) ∧
    ConstantInt.get (8 * w) value = .constantInt (8 * w) value ∧
    (∀ pools, findPool pools addr = some mp →
      getMemoryValueOfType pools addr (8 * w) isBigEndian =
        .ok (some (.constantInt (8 * w) value))) ∧
    mp.read addr w false = .ok (bigEndianValue (mp.bytesAt addr w).reverse) ∧
    ∀ (mp' : MemoryPool) (addr' : Nat), mp'.WF →
      mp'.bytesAt addr' w = (mp.bytesAt addr w).reverse →
      mp'.inside addr' = true → mp'.inside (wrap64 (addr' + w - 1)) = true →
      mp'.read addr' w true = mp.read addr w false := by
  obtain ⟨h1, h8, hin, hlast⟩ := read_ok_window mp addr w value isBigEndian h
  obtain ⟨_, hlt⟩ := read_ok_inv mp addr w value isBigEndian hwf h
  have hpow : (256 : Nat) ^ w = 2 ^ (8 * w) := by
    rw [show (256 : Nat) = 2 ^ 8 by norm_num, ← pow_mul]
  rw [hpow] at hlt
  have hget : ConstantInt.get (8 * w) value = .constantInt (8 * w) value := by
    unfold ConstantInt.get
    rw [Nat.mod_eq_of_lt hlt]
  have hlittle : mp.read addr w false = .ok (bigEndianValue (mp.bytesAt addr w).reverse) := by
    rw [bigEndianValue_reverse]
    exact (read_eq mp addr w hwf h1 h8 hin hlast).2.2
  refine ⟨⟨h1, h8⟩, hlt, hget, ?_, hlittle, ?_⟩
  · intro pools hfind
    have hw : 8 * w / 8 % 256 = w := by omega
    rw [getMemoryValueOfType_eq, hfind]
    simp only [hw, h, hget]
  · intro mp' addr' hwf' hbytes hin' hlast'
    rw [hlittle, ← hbytes]
    exact (read_eq mp' addr' w hwf' h1 h8 hin' hlast').2.1

/-- C19 on the region `exPool`: the little-endian read of the four bytes
`78 56 34 12` is `0x12345678`, below `2^32`, and it is the big-endian read of
the region that holds `12 34 56 78`. -/
theorem read_value_bound_witness :
    exPool.read 0x1000 4 false = .ok 0x12345678 ∧
    (0x12345678 : Nat) < 2 ^ (8 * 4) ∧
    ConstantInt.get (8 * 4) 0x12345678 = .constantInt (8 * 4) 0x12345678 ∧
    getMemoryValueOfType [exPool] 0x1000 (8 * 4) false =
      .ok (some (.constantInt (8 * 4) 0x12345678)) ∧
    (MemoryPool.ofFile [0x12, 0x34, 0x56, 0x78] 0x2000).read 0x2000 4 true =
      exPool.read 0x1000 4 false :=
  have h := read_value_bound exPool 0x1000 4 0x12345678 false (by decide) (by decide)
  ⟨by decide, h.2.1, h.2.2.1, h.2.2.2.1 [exPool] (by decide),
    h.2.2.2.2.2 (MemoryPool.ofFile [0x12, 0x34, 0x56, 0x78] 0x2000) 0x2000 (by decide)
      (by decide) (by decide) (by decide)⟩

end ReplaceConstantLoads
